import Mathlib

/-!
# Bounded channels with multi-way select: a shallow embedding of `channel.c` and `linked_list.c`

The C functions are translated into pure Lean functions over explicit state.

* Pointers (`void*`, `list_node_t*`, `channel_t*`) are natural numbers, `0` is `NULL`.
* The nodes of one waiter list live in a node heap carried by the list value; `malloc` hands out
  the address `brk` and `free` marks the cell unallocated.  Reading an unallocated cell or `NULL`
  makes the call crash, and a walk that does not reach `NULL` within `brk` steps revisits a node
  (it never ends).  A call that crashes, never ends or stays blocked is `none`.
* Every critical section runs with the channel lock held, so a call is a function of the state
  it finds when it takes the lock.  A blocking call that has to wait receives the state left by
  the other threads from an explicit environment argument, one entry per `pthread_cond_wait`.
* The locks are not part of the state.  The lock, unlock and insert operations of a pass of
  `channel_select` are listed in program order by `channel_select_round_events`, those of a
  whole call by `channel_select_events`.
* `channel_send_site`, `channel_receive_site` and their non-blocking counterparts are the calls
  up to the point where `channel_send_core` / `channel_receive_core` is called; each call is
  proved to be its site followed by the core.
* `History` lists what a channel has been sent and has delivered under the calls of several
  threads, blocking calls that waited and were woken included.
-/

namespace Concurrency

/-- Machine addresses: element handles, node pointers and channel pointers; `0` is `NULL`. -/
abbrev ptr := Nat

/-- Number of values of a `size_t`. -/
def SIZE_RANGE : Nat := 2 ^ 64

/-! ## linked_list.c -/

/-- Modelled from the spec: `linked_list.h` is not part of the sources; a waiter list node has
`prev`, `next` and an opaque `data` pointer, the fields `linked_list.c` accesses. -/
structure list_node_t where
  next : ptr
  prev : ptr
  data : ptr
deriving DecidableEq, Repr

/-- Modelled from the spec: `linked_list.h` is not part of the sources; `head`, `tail` and
`count` are the fields `linked_list.c` accesses.  `node` is the heap holding the nodes of this
list (`none` is an unallocated cell) and `brk` the next address `malloc` returns. -/
structure list_t where
  head : ptr
  tail : ptr
  count : Nat
  node : ptr → Option list_node_t
  brk : ptr

/-- Dereference of a node pointer: `NULL` and unallocated cells crash. -/
def deref (m : ptr → Option list_node_t) (p : ptr) : Option list_node_t :=
  if p = 0 then none else m p

/-- `list_create`: an empty list; address `0` is `NULL`, so allocation starts at `1`. -/
def list_create : list_t :=
  { head := 0, tail := 0, count := 0, node := fun _ => none, brk := 1 }

/-- `list_head`. -/
def list_head (list : list_t) : ptr := list.head

/-- `list_tail`. -/
def list_tail (list : list_t) : ptr := list.tail

/-- `list_count`. -/
def list_count (list : list_t) : Nat := list.count

/-- The `while (curr != NULL)` loop of `list_find`. -/
def list_find_loop (list : list_t) (data : ptr) : Nat → ptr → Option ptr
  | 0, _ => none
  | fuel + 1, curr =>
    if curr = 0 then some 0
    else
      match list.node curr with
      | none => none
      | some n => if n.data = data then some curr else list_find_loop list data fuel n.next

/-- `list_find`: the first node whose `data` equals the argument, `NULL` (`0`) when there is
none. -/
def list_find (list : list_t) (data : ptr) : Option ptr :=
  list_find_loop list data list.brk list.head

/-- `list_insert`: allocate a node and link it at the tail; returns the list and the new node. -/
def list_insert (list : list_t) (data : ptr) : Option (list_t × ptr) :=
  let new_node := list.brk
  if new_node = 0 ∨ SIZE_RANGE ≤ new_node then none
  else
    let m1 := Function.update list.node new_node (some { next := 0, prev := 0, data := data })
    if list.head = 0 then
      some ({ head := new_node, tail := new_node, count := (list.count + 1) % SIZE_RANGE,
              node := m1, brk := new_node + 1 }, new_node)
    else
      match deref m1 list.tail with
      | none => none
      | some t =>
        let m2 := Function.update m1 list.tail (some { t with next := new_node })
        match deref m2 new_node with
        | none => none
        | some n =>
          some ({ head := list.head, tail := new_node, count := (list.count + 1) % SIZE_RANGE,
                  node := Function.update m2 new_node (some { n with prev := list.tail }),
                  brk := new_node + 1 }, new_node)

/-- The statement `list->count = list->count - 1` on a `size_t`. -/
def count_dec (count : Nat) : Nat := (count + (SIZE_RANGE - 1)) % SIZE_RANGE

/-- `list_remove`: unlink `node` (head, tail or middle case) and free it. -/
def list_remove (list : list_t) (node : ptr) : Option list_t :=
  if node = 0 then some list
  else
    match list.node node with
    | none => none
    | some n =>
      if node = list.head then
        if n.next ≠ 0 then
          match list.node n.next with
          | none => none
          | some h =>
            some { head := n.next, tail := list.tail, count := count_dec list.count,
                   node := Function.update
                     (Function.update list.node n.next (some { h with prev := 0 })) node none,
                   brk := list.brk }
        else
          some { head := 0, tail := 0, count := count_dec list.count,
                 node := Function.update list.node node none, brk := list.brk }
      else if node = list.tail then
        if n.prev ≠ 0 then
          match list.node n.prev with
          | none => none
          | some t =>
            some { head := list.head, tail := n.prev, count := count_dec list.count,
                   node := Function.update
                     (Function.update list.node n.prev (some { t with next := 0 })) node none,
                   brk := list.brk }
        else
          some { head := 0, tail := 0, count := count_dec list.count,
                 node := Function.update list.node node none, brk := list.brk }
      else
        match deref list.node n.prev with
        | none => none
        | some p =>
          let m1 := Function.update list.node n.prev (some { p with next := n.next })
          match deref m1 node with
          | none => none
          | some n1 =>
            match deref m1 n1.next with
            | none => none
            | some x =>
              let m2 := Function.update m1 n1.next (some { x with prev := n1.prev })
              some { head := list.head, tail := list.tail, count := count_dec list.count,
                     node := Function.update m2 node none, brk := list.brk }

/-! ## The ring buffer and the declarations of `channel.h` -/

/-- Modelled from the spec: `channel.h` is not part of the sources; the status tags of §7 of the
specification, mutually exclusive per call. -/
inductive channel_status where
  | CHANNEL_EMPTY
  | CHANNEL_FULL
  | SUCCESS
  | CLOSED_ERROR
  | GENERIC_ERROR
  | DESTROY_ERROR
deriving DecidableEq, Repr

/-- Modelled from the spec: `buffer.h` is not part of the sources; `add`/`remove` succeed or
fail. -/
inductive buffer_status where
  | BUFFER_ERROR
  | BUFFER_SUCCESS
deriving DecidableEq, Repr

/-- Modelled from the spec: `buffer.c` is not part of the sources.  A fixed-capacity FIFO of
opaque element handles; `data` lists the buffered elements, oldest first, and the current size
is its length. -/
structure buffer_t where
  capacity : Nat
  data : List ptr
deriving DecidableEq, Repr

/-- Modelled from the spec: `buffer_create` of the missing `buffer.c`: an empty buffer with the
given capacity. -/
def buffer_create (capacity : Nat) : buffer_t := { capacity := capacity, data := [] }

/-- Modelled from the spec: `buffer_capacity` of the missing `buffer.c`, a pure reader. -/
def buffer_capacity (buffer : buffer_t) : Nat := buffer.capacity

/-- Modelled from the spec: `buffer_current_size` of the missing `buffer.c`, a pure reader. -/
def buffer_current_size (buffer : buffer_t) : Nat := buffer.data.length

/-- Modelled from the spec: `buffer_add` of the missing `buffer.c`: "appends iff size < capacity,
else fails". -/
def buffer_add (buffer : buffer_t) (data : ptr) : buffer_status × buffer_t :=
  if buffer_current_size buffer < buffer_capacity buffer then
    (.BUFFER_SUCCESS, { buffer with data := buffer.data ++ [data] })
  else (.BUFFER_ERROR, buffer)

/-- Modelled from the spec: `buffer_remove` of the missing `buffer.c`: "dequeues iff size > 0,
else fails".  `slot` is the content of the caller's output slot, returned updated. -/
def buffer_remove (buffer : buffer_t) (slot : ptr) : buffer_status × buffer_t × ptr :=
  match buffer.data with
  | [] => (.BUFFER_ERROR, buffer, slot)
  | x :: rest => (.BUFFER_SUCCESS, { buffer with data := rest }, x)

/-- Modelled from the spec: `channel.h` is not part of the sources; the fields `channel.c`
accesses.  The mutex and the two condition variables carry no data. -/
structure channel_t where
  buffer : buffer_t
  channel_status : Bool
  sel_sends : list_t
  sel_recvs : list_t

/-- Modelled from the spec: `channel.h` is not part of the sources; the direction tag of an
intent. -/
inductive direction where
  | SEND
  | RECV
deriving DecidableEq, Repr

/-- Modelled from the spec: `channel.h` is not part of the sources; an intent is a (channel,
direction, data slot) triple. -/
structure select_t where
  channel : ptr
  dir : direction
  data : ptr
deriving DecidableEq, Repr

/-! ## channel.c -/

/-- `channel_create`. -/
def channel_create (size : Nat) : channel_t :=
  { buffer := buffer_create size, channel_status := true,
    sel_sends := list_create, sel_recvs := list_create }

/-- The loop `while (head != NULL) { lock; signal; unlock; head = head->next; }` that wakes the
selects registered on a waiter list; the result lists the signalled waiter records. -/
def signal_loop (list : list_t) : Nat → ptr → Option (List ptr)
  | 0, _ => none
  | fuel + 1, head =>
    if head = 0 then some []
    else
      match list.node head with
      | none => none
      | some n => (signal_loop list fuel n.next).map (fun rest => n.data :: rest)

/-- The block `if (list_count(l) != 0) { head = list_head(l); while ... }` of `channel_send_core`,
`channel_receive_core` and `channel_close`. -/
def signal_all (list : list_t) : Option (List ptr) :=
  if list_count list ≠ 0 then signal_loop list list.brk (list_head list) else some []

/-- `channel_send_core`. -/
def channel_send_core (channel : channel_t) (data : ptr) : Option (channel_t × channel_status) :=
  match buffer_add channel.buffer data with
  | (.BUFFER_ERROR, _) => some (channel, .GENERIC_ERROR)
  | (.BUFFER_SUCCESS, b) =>
    match signal_all channel.sel_recvs with
    | none => none
    | some _ => some ({ channel with buffer := b }, .SUCCESS)

/-- `channel_receive_core`; `data` is the content of the caller's slot, returned updated. -/
def channel_receive_core (channel : channel_t) (data : ptr) :
    Option (channel_t × ptr × channel_status) :=
  match buffer_remove channel.buffer data with
  | (.BUFFER_ERROR, _, _) => some (channel, data, .GENERIC_ERROR)
  | (.BUFFER_SUCCESS, b, out) =>
    match signal_all channel.sel_sends with
    | none => none
    | some _ => some ({ channel with buffer := b }, out, .SUCCESS)

/-- What a blocked thread finds when `pthread_cond_wait` returns: the return code and the
channel as the other threads left it. -/
structure wake where
  rc : Nat
  chan : channel_t

/-- The loop `while (buffer_current_size(channel->buffer) == cap)` of `channel_send` followed by
the call of `channel_send_core`. -/
def channel_send_loop (cap : Nat) (data : ptr) :
    List wake → channel_t → Option (channel_t × channel_status)
  | env, channel =>
    if buffer_current_size channel.buffer = cap then
      match env with
      | [] => none
      | w :: rest =>
        if w.rc ≠ 0 then some (w.chan, .GENERIC_ERROR)
        else if w.chan.channel_status = false then some (w.chan, .CLOSED_ERROR)
        else channel_send_loop cap data rest w.chan
    else channel_send_core channel data

/-- `channel_send`. -/
def channel_send (env : List wake) (channel : channel_t) (data : ptr) :
    Option (channel_t × channel_status) :=
  if channel.channel_status = false then some (channel, .CLOSED_ERROR)
  else channel_send_loop (buffer_capacity channel.buffer) data env channel

/-- The loop `while (buffer_current_size(channel->buffer) == 0)` of `channel_receive` followed
by the call of `channel_receive_core`. -/
def channel_receive_loop (data : ptr) :
    List wake → channel_t → Option (channel_t × ptr × channel_status)
  | env, channel =>
    if buffer_current_size channel.buffer = 0 then
      match env with
      | [] => none
      | w :: rest =>
        if w.rc ≠ 0 then some (w.chan, data, .GENERIC_ERROR)
        else if w.chan.channel_status = false then some (w.chan, data, .CLOSED_ERROR)
        else channel_receive_loop data rest w.chan
    else channel_receive_core channel data

/-- `channel_receive`. -/
def channel_receive (env : List wake) (channel : channel_t) (data : ptr) :
    Option (channel_t × ptr × channel_status) :=
  if channel.channel_status = false then some (channel, data, .CLOSED_ERROR)
  else channel_receive_loop data env channel

/-- `channel_non_blocking_send`. -/
def channel_non_blocking_send (channel : channel_t) (data : ptr) :
    Option (channel_t × channel_status) :=
  if channel.channel_status = false then some (channel, .CLOSED_ERROR)
  else if buffer_current_size channel.buffer = buffer_capacity channel.buffer then
    some (channel, .CHANNEL_FULL)
  else channel_send_core channel data

/-- `channel_non_blocking_receive`. -/
def channel_non_blocking_receive (channel : channel_t) (data : ptr) :
    Option (channel_t × ptr × channel_status) :=
  if channel.channel_status = false then some (channel, data, .CLOSED_ERROR)
  else if buffer_current_size channel.buffer = 0 then some (channel, data, .CHANNEL_EMPTY)
  else channel_receive_core channel data

/-- `channel_close`. -/
def channel_close (channel : channel_t) : Option (channel_t × channel_status) :=
  if channel.channel_status = false then some (channel, .CLOSED_ERROR)
  else
    let closed : channel_t := { channel with channel_status := false }
    match signal_all closed.sel_recvs with
    | none => none
    | some _ =>
      match signal_all closed.sel_sends with
      | none => none
      | some _ => some (closed, .SUCCESS)

/-! ## channel_select -/

/-- Channel memory: the channel each `channel_t*` points to. -/
abbrev heap := ptr → channel_t

/-- What `channel_select` hands back when it returns: the channels, the intent array (a `RECV`
commit writes into the data slot of its intent), `*selected_index` and the status. -/
structure select_ret where
  chans : heap
  channel_list : List select_t
  selected_index : Nat
  status : channel_status

/-- Body of the waiter-cleanup loop of `channel_select` for one intent: find this select's
record in the waiter list of the intent's direction and remove it when present. -/
def select_cleanup_step (sel_sync : ptr) (h : heap) (it : select_t) : Option heap :=
  let c := h it.channel
  match it.dir with
  | .SEND =>
    match list_find c.sel_sends sel_sync with
    | none => none
    | some node =>
      if node ≠ 0 then
        match list_remove c.sel_sends node with
        | none => none
        | some l => some (Function.update h it.channel { c with sel_sends := l })
      else some h
  | .RECV =>
    match list_find c.sel_recvs sel_sync with
    | none => none
    | some node =>
      if node ≠ 0 then
        match list_remove c.sel_recvs node with
        | none => none
        | some l => some (Function.update h it.channel { c with sel_recvs := l })
      else some h

/-- The waiter-cleanup loop of `channel_select` over the intents still to visit. -/
def select_cleanup (sel_sync : ptr) : List select_t → heap → Option heap
  | [], h => some h
  | it :: rest, h =>
    match select_cleanup_step sel_sync h it with
    | none => none
    | some h1 => select_cleanup sel_sync rest h1

/-- The readiness scan of `channel_select`, at index `i` with the intents from `i` on still to
visit.  `some (some r)`: the call returns `r`; `some none`: no intent was closed or feasible. -/
def select_scan (h : heap) (channel_list : List select_t) (selected_index : Nat) :
    Nat → List select_t → Option (Option select_ret)
  | _, [] => some none
  | i, it :: rest =>
    let channel := h it.channel
    match it.dir with
    | .SEND =>
      if channel.channel_status = false then
        some (some { chans := h, channel_list := channel_list,
                     selected_index := selected_index, status := .CLOSED_ERROR })
      else if buffer_current_size channel.buffer < buffer_capacity channel.buffer then
        match channel_send_core channel it.data with
        | none => none
        | some (c, stat) =>
          some (some { chans := Function.update h it.channel c, channel_list := channel_list,
                       selected_index := i, status := stat })
      else select_scan h channel_list selected_index (i + 1) rest
    | .RECV =>
      if channel.channel_status = false then
        some (some { chans := h, channel_list := channel_list,
                     selected_index := selected_index, status := .CLOSED_ERROR })
      else if 0 < buffer_current_size channel.buffer then
        match channel_receive_core channel it.data with
        | none => none
        | some (c, out, stat) =>
          some (some { chans := Function.update h it.channel c,
                       channel_list := channel_list.set i { it with data := out },
                       selected_index := i, status := stat })
      else select_scan h channel_list selected_index (i + 1) rest

/-- The registration loop of `channel_select`; `seen` holds the intents at lower indices.  An
intent whose (channel, direction) pair already occurred is skipped, any other one inserts the
select's record at the tail of the waiter list of its direction. -/
def select_register (sel_sync : ptr) : List select_t → List select_t → heap → Option heap
  | _, [], h => some h
  | seen, it :: rest, h =>
    if seen.any (fun j => decide (j.channel = it.channel ∧ j.dir = it.dir)) then
      select_register sel_sync (seen ++ [it]) rest h
    else
      let c := h it.channel
      match it.dir with
      | .SEND =>
        match list_insert c.sel_sends sel_sync with
        | none => none
        | some (l, _) =>
          select_register sel_sync (seen ++ [it]) rest
            (Function.update h it.channel { c with sel_sends := l })
      | .RECV =>
        match list_insert c.sel_recvs sel_sync with
        | none => none
        | some (l, _) =>
          select_register sel_sync (seen ++ [it]) rest
            (Function.update h it.channel { c with sel_recvs := l })

/-- Outcome of one pass through the body of `while (true)` in `channel_select`. -/
inductive round_result where
  | returned (r : select_ret)
  | sleeping (h : heap)

/-- One pass through the body of `while (true)` in `channel_select`, run with the locks of all
referenced channels held: cleanup, readiness scan, and registration when nothing was ready. -/
def channel_select_round (sel_sync : ptr) (h : heap) (channel_list : List select_t)
    (selected_index : Nat) : Option round_result :=
  match select_cleanup sel_sync channel_list h with
  | none => none
  | some h1 =>
    match select_scan h1 channel_list selected_index 0 channel_list with
    | none => none
    | some (some r) => some (.returned r)
    | some none =>
      match select_register sel_sync [] channel_list h1 with
      | none => none
      | some h2 => some (.sleeping h2)

/-- `channel_select`.  `sel_sync` is the address of the call's waiter record; each entry of the
environment is what the other threads do to the channels while the call sleeps in
`pthread_cond_wait(&local_cond, &local_lock)`. -/
def channel_select (sel_sync : ptr) :
    List (heap → heap) → heap → List select_t → Nat → Option select_ret
  | [], h, channel_list, selected_index =>
    match channel_select_round sel_sync h channel_list selected_index with
    | some (.returned r) => some r
    | _ => none
  | f :: env, h, channel_list, selected_index =>
    match channel_select_round sel_sync h channel_list selected_index with
    | none => none
    | some (.returned r) => some r
    | some (.sleeping h2) => channel_select sel_sync env (f h2) channel_list selected_index

/-- The channels at the start of the pass of `channel_select` that returns (the argument itself
when the first pass returns). -/
def select_snapshot (sel_sync : ptr) :
    List (heap → heap) → heap → List select_t → Nat → heap
  | [], h, _, _ => h
  | f :: env, h, channel_list, selected_index =>
    match channel_select_round sel_sync h channel_list selected_index with
    | some (.sleeping h2) => select_snapshot sel_sync env (f h2) channel_list selected_index
    | _ => h

/-! ## Well-formed waiter lists -/

/-- `seg m p q xs e`: following `next` from `p` visits exactly the nodes `xs`, all allocated and
none `NULL`, and arrives at `e`; the `prev` of each node is its predecessor, `q` for the first. -/
def seg (m : ptr → Option list_node_t) : ptr → ptr → List ptr → ptr → Prop
  | p, _, [], e => p = e
  | p, q, a :: rest, e =>
    p = a ∧ a ≠ 0 ∧ ∃ n, m a = some n ∧ n.prev = q ∧ seg m n.next a rest e

/-- `list_ok l xs`: the list `l` is a well-formed doubly-linked list whose nodes, from head to
tail, are `xs`. -/
structure list_ok (l : list_t) (xs : List ptr) : Prop where
  chain : seg l.node l.head 0 xs 0
  tail_eq : l.tail = xs.getLastD 0
  count_eq : l.count = xs.length
  nodup : xs.Nodup
  lt_brk : ∀ a ∈ xs, a < l.brk
  len_lt : xs.length < l.brk
  brk_le : l.brk ≤ SIZE_RANGE

/-- A waiter list is well formed when it is a doubly-linked list of some nodes. -/
def list_wf (l : list_t) : Prop := ∃ xs, list_ok l xs

/-- Both waiter lists of a channel are well formed. -/
def chan_ok (c : channel_t) : Prop := list_wf c.sel_sends ∧ list_wf c.sel_recvs

/-- The first node among `xs` whose data pointer is `d`, `NULL` when there is none. -/
def first_with (m : ptr → Option list_node_t) (d : ptr) : List ptr → ptr
  | [] => 0
  | a :: rest =>
    if (m a).map (fun n => n.data) = some d then a else first_with m d rest

/-! ## Sequences of calls on one channel -/

/-- A call of one of the five single-channel operations with its argument: the element of a
send, the content of the output slot of a receive. -/
inductive call where
  | send (data : ptr)
  | receive (slot : ptr)
  | non_blocking_send (data : ptr)
  | non_blocking_receive (slot : ptr)
  | close
deriving DecidableEq, Repr

/-- The argument of a call (`0` for `close`). -/
def call.arg : call → ptr
  | .send data => data
  | .receive slot => slot
  | .non_blocking_send data => data
  | .non_blocking_receive slot => slot
  | .close => 0

/-- Run one call; the result is the channel, the content of the data argument after the call
and the status. -/
def exec (env : List wake) : call → channel_t → Option (channel_t × ptr × channel_status)
  | .send data, ch => (channel_send env ch data).map (fun r => (r.1, data, r.2))
  | .receive slot, ch => channel_receive env ch slot
  | .non_blocking_send data, ch =>
    (channel_non_blocking_send ch data).map (fun r => (r.1, data, r.2))
  | .non_blocking_receive slot, ch => channel_non_blocking_receive ch slot
  | .close, ch => (channel_close ch).map (fun r => (r.1, 0, r.2))

/-- Run calls one after the other, each with its own environment; the result is the final
channel and, per call, the content of its data argument and its status. -/
def exec_all : List (List wake × call) → channel_t →
    Option (channel_t × List (ptr × channel_status))
  | [], ch => some (ch, [])
  | (env, c) :: rest, ch =>
    match exec env c ch with
    | none => none
    | some (ch1, out, st) =>
      match exec_all rest ch1 with
      | none => none
      | some (ch2, outs) => some (ch2, (out, st) :: outs)

/-- The history of a run on one channel: the channel, the elements handed to the successful
sends, the elements delivered by the successful receives and the statuses, all in call order. -/
structure history where
  chan : channel_t
  sent : List ptr
  delivered : List ptr
  statuses : List channel_status

/-- Record one returned call in the history. -/
def history.record (t : history) (c : call) (r : channel_t × ptr × channel_status) : history :=
  match c, r.2.2 with
  | .send data, .SUCCESS =>
    { chan := r.1, sent := t.sent ++ [data], delivered := t.delivered,
      statuses := t.statuses ++ [r.2.2] }
  | .non_blocking_send data, .SUCCESS =>
    { chan := r.1, sent := t.sent ++ [data], delivered := t.delivered,
      statuses := t.statuses ++ [r.2.2] }
  | .receive _, .SUCCESS =>
    { chan := r.1, sent := t.sent, delivered := t.delivered ++ [r.2.1],
      statuses := t.statuses ++ [r.2.2] }
  | .non_blocking_receive _, .SUCCESS =>
    { chan := r.1, sent := t.sent, delivered := t.delivered ++ [r.2.1],
      statuses := t.statuses ++ [r.2.2] }
  | _, _ =>
    { chan := r.1, sent := t.sent, delivered := t.delivered, statuses := t.statuses ++ [r.2.2] }

/-- Run a sequence of calls of a single thread on one channel, no other thread acting: a
blocking call that has to wait is never woken, so the run ends there. -/
def run : List call → history → history
  | [], t => t
  | c :: rest, t =>
    match exec [] c t.chan with
    | none => t
    | some r => run rest (t.record c r)

/-- The history of a freshly created channel. -/
def history.init (capacity : Nat) : history :=
  { chan := channel_create capacity, sent := [], delivered := [], statuses := [] }

/-! ## Reachable channel states -/

/-- Channel states reachable from `channel_create` by calls of the channel operations, of any
number of threads.  A blocking call that waits resumes from a reachable state. -/
inductive Reachable : channel_t → Prop where
  | create (capacity : Nat) (hcap : 0 < capacity) : Reachable (channel_create capacity)
  | send (env : List wake) (c : channel_t) (data : ptr) (c1 : channel_t) (st : channel_status) :
      Reachable c → (∀ w, w ∈ env → Reachable w.chan) →
      channel_send env c data = some (c1, st) → Reachable c1
  | receive (env : List wake) (c : channel_t) (slot : ptr) (c1 : channel_t) (out : ptr)
      (st : channel_status) :
      Reachable c → (∀ w, w ∈ env → Reachable w.chan) →
      channel_receive env c slot = some (c1, out, st) → Reachable c1
  | non_blocking_send (c : channel_t) (data : ptr) (c1 : channel_t) (st : channel_status) :
      Reachable c → channel_non_blocking_send c data = some (c1, st) → Reachable c1
  | non_blocking_receive (c : channel_t) (slot : ptr) (c1 : channel_t) (out : ptr)
      (st : channel_status) :
      Reachable c → channel_non_blocking_receive c slot = some (c1, out, st) → Reachable c1
  | close (c c1 : channel_t) (st : channel_status) :
      Reachable c → channel_close c = some (c1, st) → Reachable c1
  | select (sel_sync : ptr) (env : List (heap → heap)) (h : heap) (channel_list : List select_t)
      (selected_index : Nat) (r : select_ret) (p : ptr) :
      (∀ q, Reachable (h q)) →
      (∀ q, Reachable (select_snapshot sel_sync env h channel_list selected_index q)) →
      channel_select sel_sync env h channel_list selected_index = some r →
      Reachable (r.chans p)
  | select_sleep (sel_sync : ptr) (h : heap) (channel_list : List select_t)
      (selected_index : Nat) (h2 : heap) (p : ptr) :
      (∀ q, Reachable (h q)) →
      channel_select_round sel_sync h channel_list selected_index = some (.sleeping h2) →
      Reachable (h2 p)

/-! ## Vocabulary for the properties of `channel_select` -/

/-- The channel of the intent is closed. -/
def closed_at (h : heap) (it : select_t) : Prop := (h it.channel).channel_status = false

/-- The intent is immediately feasible: a `SEND` whose channel has `size < capacity`, or a
`RECV` whose channel has `size > 0`. -/
def feasible (h : heap) (it : select_t) : Prop :=
  (it.dir = .SEND ∧
      buffer_current_size (h it.channel).buffer < buffer_capacity (h it.channel).buffer)
    ∨ (it.dir = .RECV ∧ 0 < buffer_current_size (h it.channel).buffer)

/-- The two channel memories agree on the buffer and the open flag of every channel. -/
def same_buffers (h h1 : heap) : Prop :=
  ∀ p, (h1 p).buffer = (h p).buffer ∧ (h1 p).channel_status = (h p).channel_status

/-- `committed h cl i it r`: compared with the channels `h` and the intent array `cl`, the
result `r` shows the effect of the intent `it` at index `i` and nothing else: `selected_index`
is `i`; no open flag changed; no buffer other than that of `it.channel` changed; that buffer
keeps its capacity and, for `SEND`, has `it.data` appended at its tail with the intent array as
it was, for `RECV`, lost its head, which is stored in the data slot of intent `i`. -/
def committed (h : heap) (cl : List select_t) (i : Nat) (it : select_t) (r : select_ret) :
    Prop :=
  r.selected_index = i
    ∧ (∀ p, (r.chans p).channel_status = (h p).channel_status)
    ∧ (∀ p, p ≠ it.channel → (r.chans p).buffer = (h p).buffer)
    ∧ buffer_capacity (r.chans it.channel).buffer = buffer_capacity (h it.channel).buffer
    ∧ ((it.dir = .SEND
          ∧ (r.chans it.channel).buffer.data = (h it.channel).buffer.data ++ [it.data]
          ∧ r.channel_list = cl)
        ∨ (it.dir = .RECV
          ∧ ∃ x, (h it.channel).buffer.data = x :: (r.chans it.channel).buffer.data
              ∧ r.channel_list = cl.set i { it with data := x }))

/-! ## Concrete states used by the examples -/

/-- What a successful send of `d` by another thread on the channel at address `p` does to the
channels: `d` is appended to the buffer of that channel. -/
def peer_send (p d : ptr) : heap → heap :=
  fun g => Function.update g p
    { g p with buffer := { (g p).buffer with data := (g p).buffer.data ++ [d] } }

/-- Channel memory with the channel `x` at address `1` and `y` everywhere else. -/
def two_chans (x y : channel_t) : heap := fun p => if p = 1 then x else y

/-- A channel of the given capacity whose buffer holds `data` (oldest first), open or closed, on
which no select is registered. -/
def chan_with (capacity : Nat) (data : List ptr) (is_open : Bool) : channel_t :=
  { buffer := { capacity := capacity, data := data }, channel_status := is_open,
    sel_sends := list_create, sel_recvs := list_create }

/-! ## The waiter list as a sequence -/

/-- `list_next`: the `next` pointer of a node, `NULL` for `NULL`. -/
def list_next (list : list_t) (node : ptr) : Option ptr :=
  if node ≠ 0 then (list.node node).map (fun n => n.next) else some 0

/-- `list_data`: the `data` pointer of a node, `NULL` for `NULL`. -/
def list_data (list : list_t) (node : ptr) : Option ptr :=
  if node ≠ 0 then (list.node node).map (fun n => n.data) else some 0

/-- The iteration `for (n = list_head(l); n != NULL; n = list_next(n))`, collecting each node
with its `list_data`. -/
def list_walk_loop (list : list_t) : Nat → ptr → Option (List (ptr × ptr))
  | 0, _ => none
  | fuel + 1, node =>
    if node = 0 then some []
    else
      match list_data list node, list_next list node with
      | some d, some nx => (list_walk_loop list fuel nx).map (fun rest => (node, d) :: rest)
      | _, _ => none

/-- Walking the list from `list_head` via `list_next`: the nodes in order, each with its data. -/
def list_walk (list : list_t) : Option (List (ptr × ptr)) :=
  list_walk_loop list list.brk (list_head list)

/-- `list_repr l ps`: `l` is a well-formed list whose nodes, from head to tail, are the first
components of `ps`, each holding the data paired with it. -/
def list_repr (l : list_t) (ps : List (ptr × ptr)) : Prop :=
  list_ok l (ps.map Prod.fst) ∧ ∀ p ∈ ps, ∃ n, l.node p.1 = some n ∧ n.data = p.2

/-- A call on a waiter list: `list_insert(list, data)`, or `list_remove(list, node)` of the node
found at position `pos` of the walk from the head (`NULL` when there is no such position). -/
inductive list_op where
  | insert (data : ptr)
  | remove (pos : Nat)
deriving DecidableEq, Repr

/-- Run one call on the linked list. -/
def list_step : list_op → list_t → Option list_t
  | .insert data, l => (list_insert l data).map Prod.fst
  | .remove pos, l =>
    match list_walk l with
    | none => none
    | some ps => list_remove l ((ps.map Prod.fst).getD pos 0)

/-- Run a sequence of calls on the linked list. -/
def list_run : List list_op → list_t → Option list_t
  | [], l => some l
  | op :: rest, l =>
    match list_step op l with
    | none => none
    | some l1 => list_run rest l1

/-- The waiter list as the specification describes it, a sequence of data pointers in
insertion order: "`insert(data)` appends at tail", "`remove(node)` unlinks" the node at its
position. -/
def spec_step : list_op → List ptr → List ptr
  | .insert data, seq => seq ++ [data]
  | .remove pos, seq => seq.eraseIdx pos

/-- Run a sequence of calls on the specification's sequence. -/
def spec_run : List list_op → List ptr → List ptr
  | [], seq => seq
  | op :: rest, seq => spec_run rest (spec_step op seq)

/-- The specification of `find(data)`: "the first node whose stored pointer equals the argument
by identity, or absent" (`NULL`), over the nodes in walk order. -/
def spec_find (ps : List (ptr × ptr)) (data : ptr) : ptr :=
  match ps.find? (fun p => decide (p.2 = data)) with
  | some p => p.1
  | none => 0

/-! ## Lock, unlock and insert events of `channel_select` -/

/-- What one pass of `channel_select` does to the channel locks and the waiter lists:
`pthread_mutex_lock` / `pthread_mutex_unlock` of a channel's lock and `list_insert` of the
select's record into `sel_sends` (`SEND`) or `sel_recvs` (`RECV`) of a channel. -/
inductive sel_event where
  | lock (channel : ptr)
  | unlock (channel : ptr)
  | insert (channel : ptr) (dir : direction)
deriving DecidableEq, Repr

/-- The loop that locks all channels at the top of a pass of `channel_select`: an intent whose
channel occurred at a lower index (`seen`) is skipped. -/
def lock_events : List select_t → List select_t → List sel_event
  | _, [] => []
  | seen, it :: rest =>
    (if seen.any (fun j => decide (j.channel = it.channel)) then []
      else [sel_event.lock it.channel])
      ++ lock_events (seen ++ [it]) rest

/-- The loop that unlocks all channels before a `return` of `channel_select`: an intent whose
channel occurred at a lower index is skipped. -/
def unlock_events : List select_t → List select_t → List sel_event
  | _, [] => []
  | seen, it :: rest =>
    (if seen.any (fun j => decide (j.channel = it.channel)) then []
      else [sel_event.unlock it.channel])
      ++ unlock_events (seen ++ [it]) rest

/-- The registration loop of `channel_select`, as events: per intent first the `list_insert`,
skipped when the (channel, direction) pair occurred at a lower index, then, in the same
iteration, the unlock of the channel, skipped when the channel occurred at a lower index. -/
def register_events : List select_t → List select_t → List sel_event
  | _, [] => []
  | seen, it :: rest =>
    (if seen.any (fun j => decide (j.channel = it.channel ∧ j.dir = it.dir)) then []
      else [sel_event.insert it.channel it.dir])
      ++ (if seen.any (fun j => decide (j.channel = it.channel)) then []
        else [sel_event.unlock it.channel])
      ++ register_events (seen ++ [it]) rest

/-- The lock, unlock and insert events of one pass of `channel_select`, in program order: the
lock loop, then the unlock loop of the `return` taken, or the registration loop when the pass
goes to sleep. -/
def channel_select_round_events (sel_sync : ptr) (h : heap) (channel_list : List select_t)
    (selected_index : Nat) : Option (List sel_event) :=
  match channel_select_round sel_sync h channel_list selected_index with
  | none => none
  | some (.returned _) => some (lock_events [] channel_list ++ unlock_events [] channel_list)
  | some (.sleeping _) => some (lock_events [] channel_list ++ register_events [] channel_list)

/-- Every insert of the event sequence happens on a channel whose lock is held at that moment;
`held` lists the locks held before the first event. -/
def inserts_locked : List ptr → List sel_event → Bool
  | _, [] => true
  | held, .lock c :: es => inserts_locked (c :: held) es
  | held, .unlock c :: es => inserts_locked (held.erase c) es
  | held, .insert c _ :: es => decide (c ∈ held) && inserts_locked held es

/-! ## The select's record in the waiter lists -/

/-- The waiter list of a channel for a direction: `sel_sends` for `SEND`, `sel_recvs` for
`RECV`. -/
def waiter_list (c : channel_t) (dir : direction) : list_t :=
  match dir with
  | .SEND => c.sel_sends
  | .RECV => c.sel_recvs

/-- How many nodes met on the walk from the head of the list hold the record `rec`. -/
def occurrences (rec : ptr) (l : list_t) : Nat :=
  (((list_walk l).getD []).map Prod.snd).count rec

/-- Some intent of the vector names the channel `p` with the direction `dir`. -/
def names (channel_list : List select_t) (p : ptr) (dir : direction) : Bool :=
  channel_list.any (fun it => decide (it.channel = p ∧ it.dir = dir))

/-- The channels as `channel_select` leaves them each time it goes to sleep, registration
done, in the order of the passes. -/
def select_sleeps (sel_sync : ptr) :
    List (heap → heap) → heap → List select_t → Nat → List heap
  | [], h, channel_list, selected_index =>
    match channel_select_round sel_sync h channel_list selected_index with
    | some (.sleeping h2) => [h2]
    | _ => []
  | f :: env, h, channel_list, selected_index =>
    match channel_select_round sel_sync h channel_list selected_index with
    | some (.sleeping h2) => h2 :: select_sleeps sel_sync env (f h2) channel_list selected_index
    | _ => []

/-- What the other threads do while the select sleeps respects its record: they keep the waiter
lists well formed and neither insert nor remove the record `rec` (they insert and remove their
own records, and the channel operations only walk the lists). -/
def env_respects (rec : ptr) (f : heap → heap) : Prop :=
  ∀ g : heap, (∀ p, chan_ok (g p)) →
    (∀ p, chan_ok (f g p))
      ∧ ∀ p dir, occurrences rec (waiter_list (f g p) dir)
          = occurrences rec (waiter_list (g p) dir)

/-! ## Where a call invokes send-core or receive-core -/

/-- How far a single-channel call gets before `channel_send_core` / `channel_receive_core`:
either it returns a status without calling the core, or it calls the core; in both cases on the
channel as the call finds it in its last critical section. -/
inductive call_site where
  | returns (channel : channel_t) (status : channel_status)
  | invokes (channel : channel_t)

/-- The channel as the call finds it in its last critical section. -/
def call_site.channel : call_site → channel_t
  | .returns channel _ => channel
  | .invokes channel => channel

/-- The loop `while (buffer_current_size(channel->buffer) == cap)` of `channel_send` up to the
point where `channel_send_core` is called. -/
def channel_send_loop_site (cap : Nat) : List wake → channel_t → Option call_site
  | env, channel =>
    if buffer_current_size channel.buffer = cap then
      match env with
      | [] => none
      | w :: rest =>
        if w.rc ≠ 0 then some (.returns w.chan .GENERIC_ERROR)
        else if w.chan.channel_status = false then some (.returns w.chan .CLOSED_ERROR)
        else channel_send_loop_site cap rest w.chan
    else some (.invokes channel)

/-- `channel_send` up to the point where `channel_send_core` is called. -/
def channel_send_site (env : List wake) (channel : channel_t) : Option call_site :=
  if channel.channel_status = false then some (.returns channel .CLOSED_ERROR)
  else channel_send_loop_site (buffer_capacity channel.buffer) env channel

/-- The loop `while (buffer_current_size(channel->buffer) == 0)` of `channel_receive` up to the
point where `channel_receive_core` is called. -/
def channel_receive_loop_site : List wake → channel_t → Option call_site
  | env, channel =>
    if buffer_current_size channel.buffer = 0 then
      match env with
      | [] => none
      | w :: rest =>
        if w.rc ≠ 0 then some (.returns w.chan .GENERIC_ERROR)
        else if w.chan.channel_status = false then some (.returns w.chan .CLOSED_ERROR)
        else channel_receive_loop_site rest w.chan
    else some (.invokes channel)

/-- `channel_receive` up to the point where `channel_receive_core` is called. -/
def channel_receive_site (env : List wake) (channel : channel_t) : Option call_site :=
  if channel.channel_status = false then some (.returns channel .CLOSED_ERROR)
  else channel_receive_loop_site env channel

/-- `channel_non_blocking_send` up to the point where `channel_send_core` is called. -/
def channel_non_blocking_send_site (channel : channel_t) : call_site :=
  if channel.channel_status = false then .returns channel .CLOSED_ERROR
  else if buffer_current_size channel.buffer = buffer_capacity channel.buffer then
    .returns channel .CHANNEL_FULL
  else .invokes channel

/-- `channel_non_blocking_receive` up to the point where `channel_receive_core` is called. -/
def channel_non_blocking_receive_site (channel : channel_t) : call_site :=
  if channel.channel_status = false then .returns channel .CLOSED_ERROR
  else if buffer_current_size channel.buffer = 0 then .returns channel .CHANNEL_EMPTY
  else .invokes channel

/-- What a send does after the site: the status of an early return, or `channel_send_core`. -/
def call_site.send (data : ptr) : call_site → Option (channel_t × channel_status)
  | .returns channel status => some (channel, status)
  | .invokes channel => channel_send_core channel data

/-- What a receive does after the site: the status of an early return with the slot untouched,
or `channel_receive_core`. -/
def call_site.receive (data : ptr) : call_site → Option (channel_t × ptr × channel_status)
  | .returns channel status => some (channel, data, status)
  | .invokes channel => channel_receive_core channel data

/-! ## Histories of one channel under calls of several threads -/

/-- `History capacity c sent delivered`: the channel created by `channel_create(capacity)` can
stand at `c` with `sent` the elements handed to the successful sends so far and `delivered` the
elements handed out by the successful receives so far, both in the order in which the calls ran
their last critical section.  A blocking call is issued at some point of the history, may wait
while the calls of other threads extend the history, and runs its last critical section on the
channel it finds when it is woken for the last time (`site.channel`, the channel of the call
itself when it does not wait). -/
inductive History (capacity : Nat) : channel_t → List ptr → List ptr → Prop where
  | create : History capacity (channel_create capacity) [] []
  | send (env : List wake) (c : channel_t) (data : ptr) (site : call_site) (c1 : channel_t)
      (st : channel_status) (sent0 delivered0 sent delivered : List ptr) :
      History capacity c sent0 delivered0 →
      channel_send_site env c = some site →
      History capacity site.channel sent delivered →
      sent0 <+: sent → delivered0 <+: delivered →
      channel_send env c data = some (c1, st) →
      History capacity c1 (if st = .SUCCESS then sent ++ [data] else sent) delivered
  | receive (env : List wake) (c : channel_t) (slot : ptr) (site : call_site) (c1 : channel_t)
      (out : ptr) (st : channel_status) (sent0 delivered0 sent delivered : List ptr) :
      History capacity c sent0 delivered0 →
      channel_receive_site env c = some site →
      History capacity site.channel sent delivered →
      sent0 <+: sent → delivered0 <+: delivered →
      channel_receive env c slot = some (c1, out, st) →
      History capacity c1 sent (if st = .SUCCESS then delivered ++ [out] else delivered)
  | non_blocking_send (c : channel_t) (data : ptr) (c1 : channel_t) (st : channel_status)
      (sent delivered : List ptr) :
      History capacity c sent delivered →
      channel_non_blocking_send c data = some (c1, st) →
      History capacity c1 (if st = .SUCCESS then sent ++ [data] else sent) delivered
  | non_blocking_receive (c : channel_t) (slot : ptr) (c1 : channel_t) (out : ptr)
      (st : channel_status) (sent delivered : List ptr) :
      History capacity c sent delivered →
      channel_non_blocking_receive c slot = some (c1, out, st) →
      History capacity c1 sent (if st = .SUCCESS then delivered ++ [out] else delivered)
  | close (c c1 : channel_t) (st : channel_status) (sent delivered : List ptr) :
      History capacity c sent delivered →
      channel_close c = some (c1, st) →
      History capacity c1 sent delivered

/-! ## What the other threads leave alone while a select sleeps -/

/-- While the select sleeps the other threads do not change the buffer and the open flag of the
channel at address `p`. -/
def env_keeps (env : List (heap → heap)) (p : ptr) : Prop :=
  ∀ f ∈ env, ∀ g : heap,
    (f g p).buffer = (g p).buffer ∧ (f g p).channel_status = (g p).channel_status

/-- The passes of a call of `channel_select` that went to sleep, in order: the channels each of
them started with, paired with the channels it left behind, registration done.  The next pass
starts with what the other threads made of the latter. -/
def select_passes (sel_sync : ptr) :
    List (heap → heap) → heap → List select_t → Nat → List (heap × heap)
  | [], h, channel_list, selected_index =>
    match channel_select_round sel_sync h channel_list selected_index with
    | some (.sleeping h2) => [(h, h2)]
    | _ => []
  | f :: env, h, channel_list, selected_index =>
    match channel_select_round sel_sync h channel_list selected_index with
    | some (.sleeping h2) =>
      (h, h2) :: select_passes sel_sync env (f h2) channel_list selected_index
    | _ => []

/-! ## The events of a whole call of `channel_select` -/

/-- The locks held after the events, `held` being the locks held before. -/
def held_after : List ptr → List sel_event → List ptr
  | held, [] => held
  | held, .lock c :: es => held_after (c :: held) es
  | held, .unlock c :: es => held_after (held.erase c) es
  | held, .insert _ _ :: es => held_after held es

/-- The lock, unlock and insert events of a call of `channel_select`, pass after pass, up to its
return (or as far as the call gets when it crashes or is not woken again). -/
def channel_select_events (sel_sync : ptr) :
    List (heap → heap) → heap → List select_t → Nat → List sel_event
  | [], h, channel_list, selected_index =>
    (channel_select_round_events sel_sync h channel_list selected_index).getD []
  | f :: env, h, channel_list, selected_index =>
    match channel_select_round sel_sync h channel_list selected_index with
    | some (.sleeping h2) =>
      (channel_select_round_events sel_sync h channel_list selected_index).getD []
        ++ channel_select_events sel_sync env (f h2) channel_list selected_index
    | _ => (channel_select_round_events sel_sync h channel_list selected_index).getD []

/-! # Properties -/

/-! ## Closed channels -/

lemma channel_close_success_closed {ch0 ch : channel_t} {st : channel_status}
    (h : channel_close ch0 = some (ch, st)) (hst : st = .SUCCESS) :
    ch.channel_status = false ∧ ch.buffer = ch0.buffer := by
  subst hst
  unfold channel_close at h
  by_cases hc : ch0.channel_status = false
  · simp [hc] at h
  · rw [if_neg hc] at h
    dsimp only at h
    cases h1 : signal_all ch0.sel_recvs <;> cases h2 : signal_all ch0.sel_sends <;>
      simp only [h1, h2, Option.some.injEq, Prod.mk.injEq, and_true, reduceCtorEq] at h
    subst h
    exact ⟨rfl, rfl⟩

lemma exec_closed (env : List wake) (c : call) (ch : channel_t)
    (hc : ch.channel_status = false) :
    exec env c ch = some (ch, c.arg, .CLOSED_ERROR) := by
  cases c <;>
    simp [exec, call.arg, channel_send, channel_receive, channel_non_blocking_send,
      channel_non_blocking_receive, channel_close, hc]

lemma exec_all_closed (calls : List (List wake × call)) (ch : channel_t)
    (hc : ch.channel_status = false) :
    exec_all calls ch = some (ch, calls.map (fun ec => (ec.2.arg, channel_status.CLOSED_ERROR))) := by
  induction calls with
  | nil => rfl
  | cons ec rest ih =>
    obtain ⟨env, c⟩ := ec
    simp [exec_all, exec_closed env c ch hc, ih]

/-- C1: once `channel_close` has returned `SUCCESS` on a channel, every later call of
`channel_send`, `channel_receive`, `channel_non_blocking_send`, `channel_non_blocking_receive`
and `channel_close`, in any sequence and whatever the buffer holds, returns `CLOSED_ERROR`,
stores nothing in its data argument and leaves the channel (buffer contents and open flag
included) exactly as `channel_close` left it, with the buffer `channel_close` found. -/
theorem C1_closed_channel_rejects_every_call (ch0 ch : channel_t)
    (hclose : channel_close ch0 = some (ch, .SUCCESS)) (calls : List (List wake × call)) :
    exec_all calls ch
        = some (ch, calls.map (fun ec => (ec.2.arg, channel_status.CLOSED_ERROR)))
      ∧ ch.channel_status = false ∧ ch.buffer = ch0.buffer :=
  ⟨exec_all_closed calls ch (channel_close_success_closed hclose rfl).1,
    channel_close_success_closed hclose rfl⟩

/-- Witness of C1: a capacity-2 channel holding one element is closed, then all five operations
are called on it. -/
theorem C1_closed_channel_rejects_every_call_witness :
    channel_close (chan_with 2 [5] true) = some (chan_with 2 [5] false, .SUCCESS)
      ∧ (exec_all [([], .send 1), ([], .receive 0), ([], .non_blocking_send 2),
            ([], .non_blocking_receive 0), ([], .close)] (chan_with 2 [5] false)
          = some (chan_with 2 [5] false,
              [(1, .CLOSED_ERROR), (0, .CLOSED_ERROR), (2, .CLOSED_ERROR), (0, .CLOSED_ERROR),
               (0, .CLOSED_ERROR)])
        ∧ (chan_with 2 [5] false).channel_status = false
        ∧ (chan_with 2 [5] false).buffer = (chan_with 2 [5] true).buffer) :=
  ⟨rfl, C1_closed_channel_rejects_every_call (chan_with 2 [5] true) (chan_with 2 [5] false) rfl
    [([], .send 1), ([], .receive 0), ([], .non_blocking_send 2),
      ([], .non_blocking_receive 0), ([], .close)]⟩

/-! ## Waiter lists -/

lemma seg_frame {m m1 : ptr → Option list_node_t} {xs : List ptr} {p q e : ptr}
    (h : seg m p q xs e) (hm : ∀ x ∈ xs, m1 x = m x) : seg m1 p q xs e := by
  induction xs generalizing p q with
  | nil => exact h
  | cons a rest ih =>
    obtain ⟨hp, ha, n, hn, hq, hrest⟩ := h
    refine ⟨hp, ha, n, ?_, hq, ih hrest (fun x hx => hm x (List.mem_cons_of_mem _ hx))⟩
    rw [hm a (List.mem_cons_self _ _)]
    exact hn

lemma seg_append {m : ptr → Option list_node_t} {xs ys : List ptr} {p q e : ptr} :
    seg m p q (xs ++ ys) e ↔ ∃ p1, seg m p q xs p1 ∧ seg m p1 (xs.getLastD q) ys e := by
  induction xs generalizing p q with
  | nil =>
    constructor
    · intro h
      exact ⟨p, rfl, h⟩
    · rintro ⟨p1, hp, h⟩
      have hp1 : p = p1 := hp
      subst hp1
      exact h
  | cons a rest ih =>
    constructor
    · rintro ⟨hp, ha, n, hn, hq, hrest⟩
      obtain ⟨p1, h1, h2⟩ := ih.1 hrest
      refine ⟨p1, ⟨hp, ha, n, hn, hq, h1⟩, ?_⟩
      rw [List.getLastD_cons]
      exact h2
    · rintro ⟨p1, ⟨hp, ha, n, hn, hq, h1⟩, h2⟩
      rw [List.getLastD_cons] at h2
      exact ⟨hp, ha, n, hn, hq, ih.2 ⟨p1, h1, h2⟩⟩

lemma seg_start_mem {m : ptr → Option list_node_t} {xs : List ptr} {p q e : ptr}
    (h : seg m p q xs e) (hne : xs ≠ []) : p ∈ xs := by
  cases xs with
  | nil => exact absurd rfl hne
  | cons a rest =>
    obtain ⟨hp, _⟩ := h
    rw [hp]
    exact List.mem_cons_self _ _

lemma seg_ne_zero {m : ptr → Option list_node_t} {xs : List ptr} {p q e : ptr}
    (h : seg m p q xs e) : ∀ x ∈ xs, x ≠ 0 := by
  induction xs generalizing p q with
  | nil => intro x hx; cases hx
  | cons a rest ih =>
    obtain ⟨_, ha, n, _, _, hrest⟩ := h
    intro x hx
    rcases List.mem_cons.1 hx with rfl | hx
    · exact ha
    · exact ih hrest x hx

lemma first_with_mem (m : ptr → Option list_node_t) (d : ptr) (xs : List ptr) :
    first_with m d xs = 0 ∨ first_with m d xs ∈ xs := by
  induction xs with
  | nil => exact Or.inl rfl
  | cons a rest ih =>
    unfold first_with
    split
    · exact Or.inr (List.mem_cons_self _ _)
    · rcases ih with h | h
      · exact Or.inl h
      · exact Or.inr (List.mem_cons_of_mem _ h)

lemma list_find_loop_seg (l : list_t) (d : ptr) {xs : List ptr} {p q : ptr}
    (h : seg l.node p q xs 0) (fuel : Nat) (hfuel : xs.length < fuel) :
    list_find_loop l d fuel p = some (first_with l.node d xs) := by
  induction xs generalizing p q fuel with
  | nil =>
    have hp : p = 0 := h
    subst hp
    cases fuel with
    | zero => exact absurd hfuel (Nat.lt_irrefl _)
    | succ f => simp [list_find_loop, first_with]
  | cons a rest ih =>
    obtain ⟨hp, ha, n, hn, _, hrest⟩ := h
    subst hp
    cases fuel with
    | zero => exact absurd hfuel (Nat.not_lt_zero _)
    | succ f =>
      have hf : rest.length < f := by simpa using hfuel
      unfold list_find_loop first_with
      rw [if_neg ha]
      simp only [hn, Option.map_some', Option.some.injEq]
      by_cases hd : n.data = d
      · simp [hd]
      · simp only [hd, if_false]
        exact ih hrest f hf

lemma list_find_ok {l : list_t} {xs : List ptr} (h : list_ok l xs) (d : ptr) :
    list_find l d = some (first_with l.node d xs) :=
  list_find_loop_seg l d h.chain l.brk h.len_lt

lemma signal_loop_seg (l : list_t) {xs : List ptr} {p q : ptr}
    (h : seg l.node p q xs 0) (fuel : Nat) (hfuel : xs.length < fuel) :
    ∃ r, signal_loop l fuel p = some r := by
  induction xs generalizing p q fuel with
  | nil =>
    have hp : p = 0 := h
    subst hp
    cases fuel with
    | zero => exact absurd hfuel (Nat.lt_irrefl _)
    | succ f => exact ⟨[], by simp [signal_loop]⟩
  | cons a rest ih =>
    obtain ⟨hp, ha, n, hn, _, hrest⟩ := h
    subst hp
    cases fuel with
    | zero => exact absurd hfuel (Nat.not_lt_zero _)
    | succ f =>
      have hf : rest.length < f := by simpa using hfuel
      obtain ⟨r, hr⟩ := ih hrest f hf
      exact ⟨n.data :: r, by simp [signal_loop, ha, hn, hr]⟩

lemma signal_all_ok {l : list_t} (h : list_wf l) : ∃ r, signal_all l = some r := by
  obtain ⟨xs, hok⟩ := h
  unfold signal_all
  split
  · exact signal_loop_seg l hok.chain l.brk hok.len_lt
  · exact ⟨[], rfl⟩

lemma list_create_ok : list_ok list_create [] :=
  { chain := rfl, tail_eq := rfl, count_eq := rfl, nodup := List.nodup_nil,
    lt_brk := fun a ha => absurd ha (List.not_mem_nil a),
    len_lt := by simp [list_create], brk_le := by simp [list_create, SIZE_RANGE] }

lemma list_create_wf : list_wf list_create := ⟨[], list_create_ok⟩

lemma count_dec_length {n b : Nat} (h : n + 1 < b) (hb : b ≤ SIZE_RANGE) :
    count_dec (n + 1) = n := by
  unfold count_dec
  unfold SIZE_RANGE at *
  omega

lemma getLastD_append_cons (xs : List ptr) (b : ptr) (ys : List ptr) (d : ptr) :
    (xs ++ b :: ys).getLastD d = ys.getLastD b := by
  induction xs generalizing d with
  | nil => exact List.getLastD_cons _ _ _
  | cons x xs ih =>
    rw [List.cons_append, List.getLastD_cons]
    exact ih x

lemma getLastD_mem_cons (ys : List ptr) (b : ptr) : ys.getLastD b ∈ b :: ys := by
  induction ys generalizing b with
  | nil => simp
  | cons y ys ih =>
    rw [List.getLastD_cons]
    exact List.mem_cons_of_mem _ (ih y)

lemma list_remove_split {l : list_t} {pre post : List ptr} {a : ptr}
    (h : list_ok l (pre ++ a :: post)) :
    ∃ l1, list_remove l a = some l1 ∧ list_ok l1 (pre ++ post) := by
  have hnd := h.nodup
  obtain ⟨p1, hpre, hrest⟩ := seg_append.1 h.chain
  obtain ⟨hp1, ha0, n, hn, hprev, hpost⟩ := hrest
  subst hp1
  obtain ⟨hnd_pre, hnd_apost, hdisj⟩ := List.nodup_append.1 hnd
  obtain ⟨ha_post, hnd_post⟩ := List.nodup_cons.1 hnd_apost
  have ha_pre : p1 ∉ pre := fun hmem => hdisj hmem (List.mem_cons_self _ _)
  have hnd1 : (pre ++ post).Nodup :=
    List.nodup_append.2 ⟨hnd_pre, hnd_post, fun x hx hy => hdisj hx (List.mem_cons_of_mem _ hy)⟩
  have hlen : (pre ++ p1 :: post).length = (pre ++ post).length + 1 := by
    simp only [List.length_append, List.length_cons]
    omega
  have hlen_lt := h.len_lt
  have hcount : count_dec l.count = (pre ++ post).length := by
    rw [h.count_eq, hlen]
    exact count_dec_length (by rw [← hlen]; exact hlen_lt) h.brk_le
  have hlt : (pre ++ post).length < l.brk := by omega
  have hfresh : ∀ x ∈ pre ++ post, x < l.brk := fun x hx =>
    h.lt_brk x (by
      rcases List.mem_append.1 hx with hx | hx
      · exact List.mem_append_left _ hx
      · exact List.mem_append_right _ (List.mem_cons_of_mem _ hx))
  have htail := h.tail_eq
  unfold list_remove
  rw [if_neg ha0]
  simp only [hn]
  rcases List.eq_nil_or_concat pre with hnil | ⟨pre1, t, hcc⟩
  · -- the node is the head
    subst hnil
    have hhead : l.head = p1 := hpre
    rw [if_pos hhead.symm]
    cases post with
    | nil =>
      have hnext : n.next = 0 := hpost
      rw [if_neg (not_not.2 hnext)]
      exact ⟨_, rfl,
        { chain := rfl, tail_eq := rfl, count_eq := hcount, nodup := hnd1, lt_brk := hfresh,
          len_lt := hlt,
          brk_le := h.brk_le }⟩
    | cons b post1 =>
      obtain ⟨hb, hb0, nb, hnb, _, hpost1⟩ := hpost
      have hnext : n.next ≠ 0 := by rw [hb]; exact hb0
      rw [if_pos hnext]
      have hba : b ≠ p1 := fun e => ha_post (e ▸ List.mem_cons_self _ _)
      have hb_post1 : b ∉ post1 := (List.nodup_cons.1 hnd_post).1
      rw [hb]
      simp only [hnb]
      refine ⟨_, rfl,
        { chain := ?_, tail_eq := ?_, count_eq := hcount, nodup := hnd1, lt_brk := hfresh,
          len_lt := hlt,
          brk_le := h.brk_le }⟩
      · refine ⟨rfl, hb0, { nb with prev := 0 }, ?_, rfl, ?_⟩
        · simp [Function.update_apply, hba]
        · refine seg_frame hpost1 (fun x hx => ?_)
          have hxa : x ≠ p1 := fun e => ha_post (e ▸ List.mem_cons_of_mem _ hx)
          have hxb : x ≠ b := fun e => hb_post1 (e ▸ hx)
          simp [Function.update_apply, hxa, hxb]
      · simpa [List.getLastD_cons] using htail
  · -- the node has a predecessor `t`
    rw [List.concat_eq_append] at hcc
    subst hcc
    obtain ⟨p2, hpre1, ht⟩ := seg_append.1 hpre
    obtain ⟨hp2, ht0, nt, hnt, htprev, htnext⟩ := ht
    subst hp2
    have htnext1 : nt.next = p1 := htnext
    have hhead : p1 ≠ l.head := fun e =>
      ha_pre (e ▸ seg_start_mem hpre (by simp))
    rw [if_neg hhead]
    have hnprev : n.prev = p2 := by simpa using hprev
    have hta : p2 ≠ p1 := fun e => ha_pre (e ▸ by simp)
    have ht_pre1 : p2 ∉ pre1 := fun hmem =>
      (List.nodup_append.1 hnd_pre).2.2 hmem (List.mem_cons_self _ _)
    have hpre1_frame : ∀ m1 : ptr → Option list_node_t,
        (∀ x, x ≠ p1 → x ≠ p2 → x ∉ post → m1 x = l.node x) →
        seg m1 l.head 0 pre1 p2 := fun m1 hm1 =>
      seg_frame hpre1 (fun x hx =>
        hm1 x (fun e => ha_pre (e ▸ by simp [hx])) (fun e => ht_pre1 (e ▸ hx))
          (fun hy => hdisj (by simp [hx]) (List.mem_cons_of_mem _ hy)))
    cases post with
    | nil =>
      have hnext : n.next = 0 := hpost
      have htl : p1 = l.tail := by simpa using htail.symm
      rw [if_pos htl, hnprev, if_pos ht0]
      simp only [hnt]
      refine ⟨_, rfl,
        { chain := ?_, tail_eq := ?_, count_eq := hcount, nodup := hnd1, lt_brk := hfresh,
          len_lt := hlt,
          brk_le := h.brk_le }⟩
      · rw [List.append_nil]
        refine seg_append.2 ⟨p2, hpre1_frame _ (fun x hx1 hx2 _ => ?_), ?_⟩
        · simp [Function.update_apply, hx1, hx2]
        · exact ⟨rfl, ht0, { nt with next := 0 }, by simp [Function.update_apply, hta],
            htprev, rfl⟩
      · simp
    | cons b post1 =>
      obtain ⟨hb, hb0, nb, hnb, _, hpost1⟩ := hpost
      have hba : b ≠ p1 := fun e => ha_post (e ▸ List.mem_cons_self _ _)
      have hbt : b ≠ p2 := by
        intro e
        exact hdisj (show p2 ∈ pre1 ++ [p2] by simp) (show p2 ∈ p1 :: b :: post1 by simp [e])
      have hb_post1 : b ∉ post1 := (List.nodup_cons.1 hnd_post).1
      have htl : p1 ≠ l.tail := by
        rw [htail]
        intro e
        apply ha_post
        rw [getLastD_append_cons, List.getLastD_cons] at e
        rw [e]
        exact getLastD_mem_cons post1 b
      rw [if_neg htl]
      have e1 : deref l.node n.prev = some nt := by
        rw [hnprev]
        simp [deref, ht0, hnt]
      have e2 : deref (Function.update l.node n.prev (some { nt with next := n.next })) p1
          = some n := by
        rw [hnprev]
        simp [deref, ha0, Function.update_apply, hta.symm, hn]
      have e3 : deref (Function.update l.node n.prev (some { nt with next := n.next })) n.next
          = some nb := by
        rw [hnprev, hb]
        simp [deref, hb0, Function.update_apply, hbt, hnb]
      simp only [e1, e2, e3]
      refine ⟨_, rfl,
        { chain := ?_, tail_eq := ?_, count_eq := hcount, nodup := hnd1, lt_brk := hfresh,
          len_lt := hlt,
          brk_le := h.brk_le }⟩
      · refine seg_append.2 ⟨b, seg_append.2 ⟨p2, hpre1_frame _ (fun x hx1 hx2 hx3 => ?_), ?_⟩, ?_⟩
        · have hxb : x ≠ b := fun e => hx3 (e ▸ List.mem_cons_self _ _)
          simp [Function.update_apply, hx1, hx2, hxb, hnprev, hb]
        · exact ⟨rfl, ht0, { nt with next := n.next },
            by simp [Function.update_apply, hta, hbt.symm, hnprev, hb], htprev, hb⟩
        · refine ⟨rfl, hb0, { nb with prev := n.prev }, ?_, ?_, seg_frame hpost1 (fun x hx => ?_)⟩
          · simp [Function.update_apply, hba, hb]
          · simp [hnprev]
          · have hxa : x ≠ p1 := fun e => ha_post (e ▸ List.mem_cons_of_mem _ hx)
            have hxb : x ≠ b := fun e => hb_post1 (e ▸ hx)
            have hxt : x ≠ p2 := fun e =>
              hdisj (show p2 ∈ pre1 ++ [p2] by simp)
                (show p2 ∈ p1 :: b :: post1 by simp [← e, hx])
            simp [Function.update_apply, hxa, hxb, hxt, hnprev, hb]
      · rw [htail, getLastD_append_cons, getLastD_append_cons, List.getLastD_cons]


lemma list_remove_ok {l : list_t} {xs : List ptr} {a : ptr} (h : list_ok l xs) (ha : a ∈ xs) :
    ∃ l1, list_remove l a = some l1 ∧ list_ok l1 (xs.erase a) := by
  obtain ⟨pre, post, hxs, hpre⟩ := List.eq_append_cons_of_mem ha
  subst hxs
  rw [List.erase_append_right _ hpre, List.erase_cons_head]
  exact list_remove_split h

lemma list_find_remove_wf {l : list_t} (h : list_wf l) (d : ptr) :
    ∃ node, list_find l d = some node ∧
      (node ≠ 0 → ∃ l1, list_remove l node = some l1 ∧ list_wf l1) := by
  obtain ⟨xs, hok⟩ := h
  refine ⟨_, list_find_ok hok d, fun hne => ?_⟩
  rcases first_with_mem l.node d xs with h0 | hmem
  · exact absurd h0 hne
  · obtain ⟨l1, h1, hok1⟩ := list_remove_ok hok hmem
    exact ⟨l1, h1, _, hok1⟩

/-! ## The core sequences -/

lemma channel_send_core_spec {ch c : channel_t} {d : ptr} {st : channel_status}
    (h : channel_send_core ch d = some (c, st))
    (hroom : buffer_current_size ch.buffer < buffer_capacity ch.buffer) :
    st = .SUCCESS ∧
      c = { ch with buffer := { ch.buffer with data := ch.buffer.data ++ [d] } } := by
  unfold channel_send_core buffer_add at h
  rw [if_pos hroom] at h
  dsimp only at h
  cases hs : signal_all ch.sel_recvs <;>
    simp only [hs, Option.some.injEq, Prod.mk.injEq, reduceCtorEq] at h
  exact ⟨h.2.symm, h.1.symm⟩

lemma channel_send_core_ok {ch : channel_t} (d : ptr) (hwf : list_wf ch.sel_recvs) :
    ∃ r, channel_send_core ch d = some r := by
  obtain ⟨sig, hs⟩ := signal_all_ok hwf
  unfold channel_send_core buffer_add
  split <;> simp [hs]

lemma channel_receive_core_spec {ch c : channel_t} {slot out : ptr} {st : channel_status}
    (h : channel_receive_core ch slot = some (c, out, st))
    (hsome : 0 < buffer_current_size ch.buffer) :
    st = .SUCCESS ∧ ch.buffer.data = out :: c.buffer.data ∧
      c = { ch with buffer := { ch.buffer with data := ch.buffer.data.tail } } := by
  unfold channel_receive_core buffer_remove at h
  cases hd : ch.buffer.data with
  | nil => simp [buffer_current_size, hd] at hsome
  | cons x rest =>
    simp only [hd] at h
    cases hs : signal_all ch.sel_sends <;>
      simp only [hs, Option.some.injEq, Prod.mk.injEq, reduceCtorEq] at h
    obtain ⟨hc, hout, hst⟩ := h
    subst hc hout hst
    simp

lemma channel_receive_core_ok {ch : channel_t} (slot : ptr) (hwf : list_wf ch.sel_sends) :
    ∃ r, channel_receive_core ch slot = some r := by
  obtain ⟨sig, hs⟩ := signal_all_ok hwf
  unfold channel_receive_core buffer_remove
  split <;> simp [hs]

/-! ## Non-blocking send and receive -/

lemma non_blocking_send_success (ch : channel_t) (data : ptr)
    (hopen : ch.channel_status = true)
    (hroom : buffer_current_size ch.buffer < buffer_capacity ch.buffer)
    (hwf : list_wf ch.sel_recvs) :
    channel_non_blocking_send ch data
      = some ({ ch with buffer := { ch.buffer with data := ch.buffer.data ++ [data] } },
          .SUCCESS) := by
  obtain ⟨⟨c, st⟩, hr⟩ := channel_send_core_ok data hwf
  obtain ⟨hst, hc⟩ := channel_send_core_spec hr hroom
  subst hst hc
  simp [channel_non_blocking_send, hopen, Nat.ne_of_lt hroom, hr]

lemma non_blocking_receive_success (ch : channel_t) (slot x : ptr) (rest : List ptr)
    (hopen : ch.channel_status = true) (hdata : ch.buffer.data = x :: rest)
    (hwf : list_wf ch.sel_sends) :
    channel_non_blocking_receive ch slot
      = some ({ ch with buffer := { ch.buffer with data := rest } }, x, .SUCCESS) := by
  have hpos : 0 < buffer_current_size ch.buffer := by simp [buffer_current_size, hdata]
  obtain ⟨⟨c, out, st⟩, hr⟩ := channel_receive_core_ok slot hwf
  obtain ⟨hst, hd, hc⟩ := channel_receive_core_spec hr hpos
  subst hst
  rw [hdata] at hd hc
  have hx : x = out := (List.cons.inj hd).1
  subst hx
  simp only [List.tail_cons] at hc
  subst hc
  simp [channel_non_blocking_receive, hopen, Nat.ne_of_gt hpos, hr]

/-- C4: `channel_non_blocking_send` returns `CLOSED_ERROR` on a closed channel, otherwise
`CHANNEL_FULL` when `size == capacity`, both with the channel (buffer, open flag, waiter lists)
unchanged, and otherwise `SUCCESS` with the element appended at the tail of the buffer, the size
grown by exactly one and capacity, open flag and waiter lists unchanged.  The channel is a
valid one: its size does not exceed its capacity and its receive-side waiter list, which
send-core walks, is well formed. -/
theorem C4_non_blocking_send (ch : channel_t) (data : ptr)
    (hsize : buffer_current_size ch.buffer ≤ buffer_capacity ch.buffer)
    (hwf : list_wf ch.sel_recvs) :
    (ch.channel_status = false →
        channel_non_blocking_send ch data = some (ch, .CLOSED_ERROR))
      ∧ (ch.channel_status = true →
          buffer_current_size ch.buffer = buffer_capacity ch.buffer →
          channel_non_blocking_send ch data = some (ch, .CHANNEL_FULL))
      ∧ (ch.channel_status = true →
          buffer_current_size ch.buffer ≠ buffer_capacity ch.buffer →
          ∃ c, channel_non_blocking_send ch data = some (c, .SUCCESS)
            ∧ c.buffer.data = ch.buffer.data ++ [data]
            ∧ buffer_current_size c.buffer = buffer_current_size ch.buffer + 1
            ∧ buffer_capacity c.buffer = buffer_capacity ch.buffer
            ∧ c.channel_status = ch.channel_status
            ∧ c.sel_sends = ch.sel_sends ∧ c.sel_recvs = ch.sel_recvs) := by
  refine ⟨fun hc => ?_, fun ho hfull => ?_, fun ho hroom => ?_⟩
  · simp [channel_non_blocking_send, hc]
  · simp [channel_non_blocking_send, ho, hfull]
  · refine ⟨_, non_blocking_send_success ch data ho (lt_of_le_of_ne hsize hroom) hwf, rfl, ?_,
      rfl, rfl, rfl, rfl⟩
    simp [buffer_current_size]

/-- Witness of C4: a capacity-2 channel holding one element. -/
theorem C4_non_blocking_send_witness :
    buffer_current_size (chan_with 2 [5] true).buffer
        ≤ buffer_capacity (chan_with 2 [5] true).buffer
      ∧ ∃ c, channel_non_blocking_send (chan_with 2 [5] true) 9 = some (c, .SUCCESS)
          ∧ c.buffer.data = (chan_with 2 [5] true).buffer.data ++ [9]
          ∧ buffer_current_size c.buffer = buffer_current_size (chan_with 2 [5] true).buffer + 1
          ∧ buffer_capacity c.buffer = buffer_capacity (chan_with 2 [5] true).buffer
          ∧ c.channel_status = (chan_with 2 [5] true).channel_status
          ∧ c.sel_sends = (chan_with 2 [5] true).sel_sends
          ∧ c.sel_recvs = (chan_with 2 [5] true).sel_recvs :=
  ⟨by decide,
    (C4_non_blocking_send (chan_with 2 [5] true) 9 (by decide) list_create_wf).2.2 rfl
      (by decide)⟩

/-- C5: `channel_non_blocking_receive` returns `CLOSED_ERROR` on a closed channel, otherwise
`CHANNEL_EMPTY` when `size == 0`, both with the channel and the caller's output slot unchanged,
and otherwise `SUCCESS` with the oldest buffered element removed and written to the output slot,
the size shrunk by exactly one and everything else unchanged.  The send-side waiter list, which
receive-core walks, is well formed. -/
theorem C5_non_blocking_receive (ch : channel_t) (slot : ptr) (hwf : list_wf ch.sel_sends) :
    (ch.channel_status = false →
        channel_non_blocking_receive ch slot = some (ch, slot, .CLOSED_ERROR))
      ∧ (ch.channel_status = true → buffer_current_size ch.buffer = 0 →
          channel_non_blocking_receive ch slot = some (ch, slot, .CHANNEL_EMPTY))
      ∧ (ch.channel_status = true → buffer_current_size ch.buffer ≠ 0 →
          ∃ c out, channel_non_blocking_receive ch slot = some (c, out, .SUCCESS)
            ∧ ch.buffer.data = out :: c.buffer.data
            ∧ buffer_current_size c.buffer + 1 = buffer_current_size ch.buffer
            ∧ buffer_capacity c.buffer = buffer_capacity ch.buffer
            ∧ c.channel_status = ch.channel_status
            ∧ c.sel_sends = ch.sel_sends ∧ c.sel_recvs = ch.sel_recvs) := by
  refine ⟨fun hc => ?_, fun ho hempty => ?_, fun ho hsome => ?_⟩
  · simp [channel_non_blocking_receive, hc]
  · simp [channel_non_blocking_receive, ho, hempty]
  · cases hdata : ch.buffer.data with
    | nil => simp [buffer_current_size, hdata] at hsome
    | cons x rest =>
      refine ⟨_, x, non_blocking_receive_success ch slot x rest ho hdata hwf, rfl, ?_, rfl, rfl,
        rfl, rfl⟩
      simp [buffer_current_size, hdata]

/-- Witness of C5: a capacity-2 channel holding the elements 5 and 6. -/
theorem C5_non_blocking_receive_witness :
    ∃ c out, channel_non_blocking_receive (chan_with 2 [5, 6] true) 0 = some (c, out, .SUCCESS)
      ∧ (chan_with 2 [5, 6] true).buffer.data = out :: c.buffer.data
      ∧ buffer_current_size c.buffer + 1 = buffer_current_size (chan_with 2 [5, 6] true).buffer
      ∧ buffer_capacity c.buffer = buffer_capacity (chan_with 2 [5, 6] true).buffer
      ∧ c.channel_status = (chan_with 2 [5, 6] true).channel_status
      ∧ c.sel_sends = (chan_with 2 [5, 6] true).sel_sends
      ∧ c.sel_recvs = (chan_with 2 [5, 6] true).sel_recvs :=
  (C5_non_blocking_receive (chan_with 2 [5, 6] true) 0 list_create_wf).2.2 rfl (by decide)

/-- C6, as stated, fails: on an open capacity-2 channel holding the element 1, the pair
`channel_non_blocking_send(ch, 2)`, `channel_non_blocking_receive(ch, &out)` succeeds twice and
yields `out == 1`, not the element 2 just sent. -/
theorem C6_counterexample :
    (chan_with 2 [1] true).channel_status = true
      ∧ buffer_current_size (chan_with 2 [1] true).buffer
          < buffer_capacity (chan_with 2 [1] true).buffer
      ∧ channel_non_blocking_send (chan_with 2 [1] true) 2
          = some (chan_with 2 [1, 2] true, .SUCCESS)
      ∧ channel_non_blocking_receive (chan_with 2 [1, 2] true) 0
          = some (chan_with 2 [2] true, 1, .SUCCESS)
      ∧ (1 : ptr) ≠ 2 :=
  ⟨rfl, by decide, rfl, rfl, by decide⟩

/-- C6, amended: on an open channel that is not full, `channel_non_blocking_send(ch, e)` followed
immediately by `channel_non_blocking_receive(ch, &out)` returns `SUCCESS` twice and leaves the
buffer size as it was before the pair; `out` is the oldest element of the buffer extended by
`e`, so `out == e` when the buffer was empty before the pair, and otherwise `out` is the element
that was at the head while `e` stays at the tail. -/
theorem C6_send_then_receive (ch : channel_t) (e slot : ptr)
    (hopen : ch.channel_status = true)
    (hroom : buffer_current_size ch.buffer < buffer_capacity ch.buffer)
    (hwf : chan_ok ch) :
    ∃ c1 c2 out, channel_non_blocking_send ch e = some (c1, .SUCCESS)
      ∧ channel_non_blocking_receive c1 slot = some (c2, out, .SUCCESS)
      ∧ ch.buffer.data ++ [e] = out :: c2.buffer.data
      ∧ buffer_current_size c2.buffer = buffer_current_size ch.buffer
      ∧ (ch.buffer.data = [] → out = e ∧ c2.buffer.data = [])
      ∧ (∀ x rest, ch.buffer.data = x :: rest → out = x ∧ c2.buffer.data = rest ++ [e]) := by
  have h1 := non_blocking_send_success ch e hopen hroom hwf.2
  cases hd : ch.buffer.data with
  | nil =>
    have h2 := non_blocking_receive_success
      { ch with buffer := { ch.buffer with data := ch.buffer.data ++ [e] } } slot e [] hopen
      (by simp [hd]) hwf.1
    refine ⟨_, _, e, h1, h2, ?_, ?_, fun _ => ⟨rfl, rfl⟩, fun x rest hx => ?_⟩
    · simp [hd]
    · simp [buffer_current_size, hd]
    · cases hx
  | cons y ys =>
    have h2 := non_blocking_receive_success
      { ch with buffer := { ch.buffer with data := ch.buffer.data ++ [e] } } slot y (ys ++ [e])
      hopen (by simp [hd]) hwf.1
    refine ⟨_, _, y, h1, h2, ?_, ?_, fun hnil => ?_, fun x rest hx => ?_⟩
    · simp [hd]
    · simp [buffer_current_size, hd]
    · cases hnil
    · obtain ⟨hxy, hrest⟩ := List.cons.inj hx
      subst hxy hrest
      exact ⟨rfl, rfl⟩

/-- Witness of the amended C6: a capacity-2 channel holding the element 1. -/
theorem C6_send_then_receive_witness :
    ∃ c1 c2 out, channel_non_blocking_send (chan_with 2 [1] true) 2 = some (c1, .SUCCESS)
      ∧ channel_non_blocking_receive c1 0 = some (c2, out, .SUCCESS)
      ∧ (chan_with 2 [1] true).buffer.data ++ [2] = out :: c2.buffer.data
      ∧ buffer_current_size c2.buffer = buffer_current_size (chan_with 2 [1] true).buffer
      ∧ ((chan_with 2 [1] true).buffer.data = [] → out = 2 ∧ c2.buffer.data = [])
      ∧ (∀ x rest, (chan_with 2 [1] true).buffer.data = x :: rest →
          out = x ∧ c2.buffer.data = rest ++ [2]) :=
  C6_send_then_receive (chan_with 2 [1] true) 2 0 rfl (by decide)
    ⟨list_create_wf, list_create_wf⟩

/-! ## FIFO order on one channel -/

lemma channel_send_core_cases {ch c : channel_t} {d : ptr} {st : channel_status}
    (h : channel_send_core ch d = some (c, st)) :
    (st = .SUCCESS ∧ c.buffer.data = ch.buffer.data ++ [d]) ∨
      (st = .GENERIC_ERROR ∧ c = ch) := by
  unfold channel_send_core buffer_add at h
  split_ifs at h with hroom
  · dsimp only at h
    cases hs : signal_all ch.sel_recvs <;>
      simp only [hs, Option.some.injEq, Prod.mk.injEq, reduceCtorEq] at h
    obtain ⟨hc, hst⟩ := h
    subst hc hst
    exact Or.inl ⟨rfl, rfl⟩
  · simp only [Option.some.injEq, Prod.mk.injEq] at h
    exact Or.inr ⟨h.2.symm, h.1.symm⟩

lemma channel_receive_core_cases {ch c : channel_t} {slot out : ptr} {st : channel_status}
    (h : channel_receive_core ch slot = some (c, out, st)) :
    (st = .SUCCESS ∧ ch.buffer.data = out :: c.buffer.data) ∨
      (st = .GENERIC_ERROR ∧ c = ch) := by
  unfold channel_receive_core buffer_remove at h
  cases hd : ch.buffer.data with
  | nil =>
    simp only [hd, Option.some.injEq, Prod.mk.injEq] at h
    exact Or.inr ⟨h.2.2.symm, h.1.symm⟩
  | cons x rest =>
    simp only [hd] at h
    cases hs : signal_all ch.sel_sends <;>
      simp only [hs, Option.some.injEq, Prod.mk.injEq, reduceCtorEq] at h
    obtain ⟨hc, hout, hst⟩ := h
    subst hc hout hst
    exact Or.inl ⟨rfl, rfl⟩

/-- The bookkeeping invariant of a run: what was sent is what was delivered followed by what the
buffer still holds. -/
lemma record_fifo (t : history) (c : call) (r : channel_t × ptr × channel_status)
    (hr : exec [] c t.chan = some r) (hinv : t.sent = t.delivered ++ t.chan.buffer.data) :
    (t.record c r).sent = (t.record c r).delivered ++ (t.record c r).chan.buffer.data := by
  obtain ⟨c1, out, st⟩ := r
  cases c with
  | send data =>
    simp only [exec, channel_send, Option.map_eq_some', Prod.mk.injEq, Prod.exists] at hr
    obtain ⟨c2, st2, hr, hc, -, hst⟩ := hr
    subst hc hst
    split_ifs at hr with hclosed
    · simp only [Option.some.injEq, Prod.mk.injEq] at hr
      obtain ⟨hc, hst⟩ := hr
      subst hc hst
      simpa [history.record] using hinv
    · unfold channel_send_loop at hr
      by_cases hfull : buffer_current_size t.chan.buffer = buffer_capacity t.chan.buffer
      · rw [if_pos hfull] at hr
        cases hr
      · rw [if_neg hfull] at hr
        rcases channel_send_core_cases hr with ⟨hst, hd⟩ | ⟨hst, hc⟩
        · subst hst
          simp [history.record, hd, hinv]
        · subst hst hc
          simpa [history.record] using hinv
  | non_blocking_send data =>
    simp only [exec, channel_non_blocking_send, Option.map_eq_some', Prod.mk.injEq,
      Prod.exists] at hr
    obtain ⟨c2, st2, hr, hc, -, hst⟩ := hr
    subst hc hst
    split_ifs at hr with hclosed hfull
    · simp only [Option.some.injEq, Prod.mk.injEq] at hr
      obtain ⟨hc, hst⟩ := hr
      subst hc hst
      simpa [history.record] using hinv
    · simp only [Option.some.injEq, Prod.mk.injEq] at hr
      obtain ⟨hc, hst⟩ := hr
      subst hc hst
      simpa [history.record] using hinv
    · rcases channel_send_core_cases hr with ⟨hst, hd⟩ | ⟨hst, hc⟩
      · subst hst
        simp [history.record, hd, hinv]
      · subst hst hc
        simpa [history.record] using hinv
  | receive slot =>
    simp only [exec, channel_receive] at hr
    split_ifs at hr with hclosed
    · simp only [Option.some.injEq, Prod.mk.injEq] at hr
      obtain ⟨hc, -, hst⟩ := hr
      subst hc hst
      simpa [history.record] using hinv
    · unfold channel_receive_loop at hr
      by_cases hempty : buffer_current_size t.chan.buffer = 0
      · rw [if_pos hempty] at hr
        cases hr
      · rw [if_neg hempty] at hr
        rcases channel_receive_core_cases hr with ⟨hst, hd⟩ | ⟨hst, hc⟩
        · subst hst
          simp [history.record, hinv, hd]
        · subst hst hc
          simpa [history.record] using hinv
  | non_blocking_receive slot =>
    simp only [exec, channel_non_blocking_receive] at hr
    split_ifs at hr with hclosed hempty
    · simp only [Option.some.injEq, Prod.mk.injEq] at hr
      obtain ⟨hc, -, hst⟩ := hr
      subst hc hst
      simpa [history.record] using hinv
    · simp only [Option.some.injEq, Prod.mk.injEq] at hr
      obtain ⟨hc, -, hst⟩ := hr
      subst hc hst
      simpa [history.record] using hinv
    · rcases channel_receive_core_cases hr with ⟨hst, hd⟩ | ⟨hst, hc⟩
      · subst hst
        simp [history.record, hinv, hd]
      · subst hst hc
        simpa [history.record] using hinv
  | close =>
    simp only [exec, Option.map_eq_some', Prod.mk.injEq, Prod.exists] at hr
    obtain ⟨c2, st2, hr, hc, -, hst⟩ := hr
    subst hc hst
    have hbuf : c2.buffer = t.chan.buffer := by
      unfold channel_close at hr
      split_ifs at hr with hclosed
      · simp only [Option.some.injEq, Prod.mk.injEq] at hr
        rw [← hr.1]
      · dsimp only at hr
        cases h1 : signal_all t.chan.sel_recvs <;> cases h2 : signal_all t.chan.sel_sends <;>
          simp only [h1, h2, Option.some.injEq, Prod.mk.injEq, reduceCtorEq] at hr
        rw [← hr.1]
    cases st2 <;> simpa [history.record, hbuf] using hinv

lemma run_fifo (calls : List call) (t : history)
    (hinv : t.sent = t.delivered ++ t.chan.buffer.data) :
    (run calls t).sent = (run calls t).delivered ++ (run calls t).chan.buffer.data := by
  induction calls generalizing t with
  | nil => exact hinv
  | cons c rest ih =>
    unfold run
    cases hr : exec [] c t.chan with
    | none => exact hinv
    | some r => exact ih _ (record_fifo t c r hr hinv)

lemma exec_send_chan_with (capacity : Nat) (ds : List ptr) (c : call) (d : ptr)
    (hc : c = .send d ∨ c = .non_blocking_send d) (hlt : ds.length < capacity) :
    exec [] c (chan_with capacity ds true)
      = some (chan_with capacity (ds ++ [d]) true, d, .SUCCESS) := by
  rcases hc with rfl | rfl
  · simp [exec, channel_send, channel_send_loop, channel_send_core, buffer_add, signal_all,
      list_count, list_create, chan_with, buffer_current_size, buffer_capacity, hlt,
      Nat.ne_of_lt hlt]
  · simp [exec, channel_non_blocking_send, channel_send_core, buffer_add, signal_all,
      list_count, list_create, chan_with, buffer_current_size, buffer_capacity, hlt,
      Nat.ne_of_lt hlt]

lemma exec_receive_chan_with (capacity : Nat) (x : ptr) (ds : List ptr) (c : call) (s : ptr)
    (hc : c = .receive s ∨ c = .non_blocking_receive s) :
    exec [] c (chan_with capacity (x :: ds) true)
      = some (chan_with capacity ds true, x, .SUCCESS) := by
  rcases hc with rfl | rfl
  · simp [exec, channel_receive, channel_receive_loop, channel_receive_core, buffer_remove,
      signal_all, list_count, list_create, chan_with, buffer_current_size]
  · simp [exec, channel_non_blocking_receive, channel_receive_core, buffer_remove,
      signal_all, list_count, list_create, chan_with, buffer_current_size]

lemma run_sends (capacity : Nat) (rest : List call) (sends : List call) :
    ∀ (t : history) (ds : List ptr),
      (∀ c ∈ sends, ∃ d, c = .send d ∨ c = .non_blocking_send d) →
      t.chan = chan_with capacity ds true → ds.length + sends.length ≤ capacity →
      run (sends ++ rest) t
        = run rest { chan := chan_with capacity (ds ++ sends.map call.arg) true,
                     sent := t.sent ++ sends.map call.arg, delivered := t.delivered,
                     statuses := t.statuses ++ List.replicate sends.length .SUCCESS } := by
  induction sends with
  | nil =>
    intro t ds _ hch _
    simp [← hch]
  | cons c sends ih =>
    intro t ds hall hch hlen
    obtain ⟨d, hd⟩ := hall c (List.mem_cons_self _ _)
    have hlt : ds.length < capacity := by
      simp only [List.length_cons] at hlen
      omega
    have hexec := exec_send_chan_with capacity ds c d hd hlt
    have harg : c.arg = d := by rcases hd with rfl | rfl <;> rfl
    have hrec : t.record c (chan_with capacity (ds ++ [d]) true, d, .SUCCESS)
        = { chan := chan_with capacity (ds ++ [d]) true, sent := t.sent ++ [d],
            delivered := t.delivered, statuses := t.statuses ++ [.SUCCESS] } := by
      rcases hd with rfl | rfl <;> rfl
    rw [List.cons_append, run, hch, hexec]
    dsimp only
    rw [hrec, ih _ (ds ++ [d]) (fun c1 h1 => hall c1 (List.mem_cons_of_mem _ h1)) rfl
      (by simp only [List.length_append, List.length_cons, List.length_nil] at hlen ⊢; omega)]
    simp [harg, List.replicate_succ]

lemma run_receives (capacity : Nat) (recvs : List call) :
    ∀ (t : history) (ds : List ptr),
      (∀ c ∈ recvs, ∃ s, c = .receive s ∨ c = .non_blocking_receive s) →
      t.chan = chan_with capacity ds true → recvs.length ≤ ds.length →
      run recvs t
        = { chan := chan_with capacity (ds.drop recvs.length) true, sent := t.sent,
            delivered := t.delivered ++ ds.take recvs.length,
            statuses := t.statuses ++ List.replicate recvs.length .SUCCESS } := by
  induction recvs with
  | nil =>
    intro t ds _ hch _
    simp [run, ← hch]
  | cons c recvs ih =>
    intro t ds hall hch hlen
    obtain ⟨s, hs⟩ := hall c (List.mem_cons_self _ _)
    cases ds with
    | nil => simp at hlen
    | cons x ds =>
      have hexec := exec_receive_chan_with capacity x ds c s hs
      have hrec : t.record c (chan_with capacity ds true, x, .SUCCESS)
          = { chan := chan_with capacity ds true, sent := t.sent,
              delivered := t.delivered ++ [x], statuses := t.statuses ++ [.SUCCESS] } := by
        rcases hs with rfl | rfl <;> rfl
      rw [run, hch, hexec]
      dsimp only
      rw [hrec, ih _ ds (fun c1 h1 => hall c1 (List.mem_cons_of_mem _ h1)) rfl
        (by simpa using hlen)]
      simp [List.replicate_succ]

/-! ## channel_select: cleanup, scan and registration -/

lemma same_buffers_refl (h : heap) : same_buffers h h := fun _ => ⟨rfl, rfl⟩

lemma same_buffers_trans {h h1 h2 : heap} (a : same_buffers h h1) (b : same_buffers h1 h2) :
    same_buffers h h2 :=
  fun p => ⟨(b p).1.trans (a p).1, (b p).2.trans (a p).2⟩

lemma same_buffers_update_sends (h : heap) (p : ptr) (l : list_t) :
    same_buffers h (Function.update h p { h p with sel_sends := l }) := by
  intro q
  by_cases hq : q = p
  · subst hq
    simp
  · simp [Function.update_noteq hq]

lemma same_buffers_update_recvs (h : heap) (p : ptr) (l : list_t) :
    same_buffers h (Function.update h p { h p with sel_recvs := l }) := by
  intro q
  by_cases hq : q = p
  · subst hq
    simp
  · simp [Function.update_noteq hq]

lemma select_cleanup_step_frame {s : ptr} {h h1 : heap} {it : select_t}
    (hs : select_cleanup_step s h it = some h1) : same_buffers h h1 := by
  obtain ⟨p, dir, d⟩ := it
  cases dir
  · simp only [select_cleanup_step] at hs
    cases hf : list_find (h p).sel_sends s with
    | none => simp [hf] at hs
    | some node =>
      simp only [hf] at hs
      by_cases hn : node = 0
      · simp only [hn, ne_eq, not_true_eq_false, if_false, Option.some.injEq] at hs
        subst hs
        exact same_buffers_refl h
      · simp only [ne_eq, hn, not_false_eq_true, if_true] at hs
        cases hr : list_remove (h p).sel_sends node with
        | none => simp [hr] at hs
        | some l =>
          simp only [hr, Option.some.injEq] at hs
          subst hs
          exact same_buffers_update_sends h p l
  · simp only [select_cleanup_step] at hs
    cases hf : list_find (h p).sel_recvs s with
    | none => simp [hf] at hs
    | some node =>
      simp only [hf] at hs
      by_cases hn : node = 0
      · simp only [hn, ne_eq, not_true_eq_false, if_false, Option.some.injEq] at hs
        subst hs
        exact same_buffers_refl h
      · simp only [ne_eq, hn, not_false_eq_true, if_true] at hs
        cases hr : list_remove (h p).sel_recvs node with
        | none => simp [hr] at hs
        | some l =>
          simp only [hr, Option.some.injEq] at hs
          subst hs
          exact same_buffers_update_recvs h p l

lemma select_cleanup_frame {s : ptr} (cl : List select_t) :
    ∀ {h h1 : heap}, select_cleanup s cl h = some h1 → same_buffers h h1 := by
  induction cl with
  | nil =>
    intro h h1 hs
    simp only [select_cleanup, Option.some.injEq] at hs
    subst hs
    exact same_buffers_refl h
  | cons it rest ih =>
    intro h h1 hs
    simp only [select_cleanup] at hs
    cases hstep : select_cleanup_step s h it with
    | none => simp [hstep] at hs
    | some h2 =>
      simp only [hstep] at hs
      exact same_buffers_trans (select_cleanup_step_frame hstep) (ih hs)

lemma select_cleanup_step_ok (s : ptr) (h : heap) (it : select_t)
    (hok : chan_ok (h it.channel)) :
    ∃ h1, select_cleanup_step s h it = some h1 ∧ ∀ p, chan_ok (h p) → chan_ok (h1 p) := by
  obtain ⟨p, dir, d⟩ := it
  cases dir
  · obtain ⟨node, hf, hrm⟩ := list_find_remove_wf hok.1 s
    simp only [select_cleanup_step, hf]
    by_cases hn : node = 0
    · exact ⟨h, by simp [hn], fun _ hp => hp⟩
    · obtain ⟨l1, hr, hwf⟩ := hrm hn
      refine ⟨Function.update h p { h p with sel_sends := l1 }, by simp [hn, hr],
        fun q hq => ?_⟩
      by_cases hqp : q = p
      · subst hqp
        simpa [chan_ok] using ⟨hwf, hok.2⟩
      · simpa [Function.update_noteq hqp] using hq
  · obtain ⟨node, hf, hrm⟩ := list_find_remove_wf hok.2 s
    simp only [select_cleanup_step, hf]
    by_cases hn : node = 0
    · exact ⟨h, by simp [hn], fun _ hp => hp⟩
    · obtain ⟨l1, hr, hwf⟩ := hrm hn
      refine ⟨Function.update h p { h p with sel_recvs := l1 }, by simp [hn, hr],
        fun q hq => ?_⟩
      by_cases hqp : q = p
      · subst hqp
        simpa [chan_ok] using ⟨hok.1, hwf⟩
      · simpa [Function.update_noteq hqp] using hq

lemma select_cleanup_ok (s : ptr) (cl : List select_t) :
    ∀ h : heap, (∀ it ∈ cl, chan_ok (h it.channel)) →
      ∃ h1, select_cleanup s cl h = some h1 ∧ ∀ p, chan_ok (h p) → chan_ok (h1 p) := by
  induction cl with
  | nil => exact fun h _ => ⟨h, rfl, fun _ hp => hp⟩
  | cons it rest ih =>
    intro h hok
    obtain ⟨h1, hstep, hpres⟩ := select_cleanup_step_ok s h it (hok it (List.mem_cons_self _ _))
    obtain ⟨h2, hrest, hpres2⟩ :=
      ih h1 (fun x hx => hpres _ (hok x (List.mem_cons_of_mem _ hx)))
    exact ⟨h2, by simp [select_cleanup, hstep, hrest], fun p hp => hpres2 p (hpres p hp)⟩

lemma select_register_frame {s : ptr} (rest : List select_t) :
    ∀ {seen : List select_t} {h h2 : heap},
      select_register s seen rest h = some h2 → same_buffers h h2 := by
  induction rest with
  | nil =>
    intro seen h h2 hs
    simp only [select_register, Option.some.injEq] at hs
    subst hs
    exact same_buffers_refl h
  | cons it rest ih =>
    intro seen h h2 hs
    obtain ⟨p, dir, d⟩ := it
    simp only [select_register] at hs
    split_ifs at hs with hdup
    · exact ih hs
    · cases dir
      · simp only at hs
        cases hi : list_insert (h p).sel_sends s with
        | none => simp [hi] at hs
        | some r =>
          obtain ⟨l, n⟩ := r
          simp only [hi] at hs
          exact same_buffers_trans (same_buffers_update_sends h p l) (ih hs)
      · simp only at hs
        cases hi : list_insert (h p).sel_recvs s with
        | none => simp [hi] at hs
        | some r =>
          obtain ⟨l, n⟩ := r
          simp only [hi] at hs
          exact same_buffers_trans (same_buffers_update_recvs h p l) (ih hs)

lemma committed_send {h : heap} {cl : List select_t} {i : Nat} {p d : ptr} {c : channel_t}
    (hc : c = { h p with buffer := { (h p).buffer with data := (h p).buffer.data ++ [d] } }) :
    committed h cl i { channel := p, dir := .SEND, data := d }
      { chans := Function.update h p c, channel_list := cl, selected_index := i,
        status := .SUCCESS } := by
  subst hc
  refine ⟨rfl, fun q => ?_, fun q hq => ?_, ?_, Or.inl ⟨rfl, ?_, rfl⟩⟩
  · by_cases hqp : q = p
    · subst hqp
      simp
    · simp [Function.update_noteq hqp]
  · have hq1 : q ≠ p := hq
    simp [Function.update_noteq hq1]
  · simp [buffer_capacity]
  · simp

lemma committed_recv {h : heap} {cl : List select_t} {i : Nat} {p d out : ptr} {c : channel_t}
    (hdata : (h p).buffer.data = out :: c.buffer.data)
    (hc : c = { h p with buffer := { (h p).buffer with data := (h p).buffer.data.tail } }) :
    committed h cl i { channel := p, dir := .RECV, data := d }
      { chans := Function.update h p c,
        channel_list := cl.set i { channel := p, dir := .RECV, data := out },
        selected_index := i, status := .SUCCESS } := by
  refine ⟨rfl, fun q => ?_, fun q hq => ?_, ?_, Or.inr ⟨rfl, out, ?_, rfl⟩⟩
  · by_cases hqp : q = p
    · subst hqp
      simp [hc]
    · simp [Function.update_noteq hqp]
  · have hq1 : q ≠ p := hq
    simp [Function.update_noteq hq1]
  · simp [buffer_capacity, hc]
  · simpa using hdata

/-- The readiness scan returns at the first intent that is closed or feasible: with
`CLOSED_ERROR`, the channels, the intent array and `*selected_index` untouched, when that intent's
channel is closed, and with `SUCCESS` and the effect of that intent alone when it is open. -/
lemma select_scan_sound (h : heap) (cl : List select_t) (idx : Nat) :
    ∀ (rest : List select_t) (i : Nat) (res : Option select_ret),
      select_scan h cl idx i rest = some res →
      (res = none ∧ ∀ it ∈ rest, ¬ closed_at h it ∧ ¬ feasible h it) ∨
      ∃ r mid it tail, res = some r ∧ rest = mid ++ it :: tail
        ∧ (∀ x ∈ mid, ¬ closed_at h x ∧ ¬ feasible h x)
        ∧ ((closed_at h it ∧ r.chans = h ∧ r.channel_list = cl ∧ r.selected_index = idx
              ∧ r.status = .CLOSED_ERROR)
          ∨ (¬ closed_at h it ∧ feasible h it ∧ r.status = .SUCCESS
              ∧ committed h cl (i + mid.length) it r)) := by
  intro rest
  induction rest with
  | nil =>
    intro i res hs
    simp only [select_scan, Option.some.injEq] at hs
    exact Or.inl ⟨hs.symm, fun it hit => absurd hit (List.not_mem_nil _)⟩
  | cons it rest ih =>
    intro i res hs
    have hstep : ∀ res1, select_scan h cl idx (i + 1) rest = some res1 →
        ¬ closed_at h it → ¬ feasible h it →
        (res1 = none ∧ ∀ x ∈ it :: rest, ¬ closed_at h x ∧ ¬ feasible h x) ∨
        ∃ r mid it1 tail, res1 = some r ∧ it :: rest = mid ++ it1 :: tail
          ∧ (∀ x ∈ mid, ¬ closed_at h x ∧ ¬ feasible h x)
          ∧ ((closed_at h it1 ∧ r.chans = h ∧ r.channel_list = cl ∧ r.selected_index = idx
                ∧ r.status = .CLOSED_ERROR)
            ∨ (¬ closed_at h it1 ∧ feasible h it1 ∧ r.status = .SUCCESS
                ∧ committed h cl (i + mid.length) it1 r)) := by
      intro res1 hs1 hnc hnf
      rcases ih (i + 1) res1 hs1 with ⟨hnone, hall⟩ | ⟨r, mid, it1, tail, hr, hsplit, hmid, hcase⟩
      · refine Or.inl ⟨hnone, fun x hx => ?_⟩
        rcases List.mem_cons.1 hx with rfl | hx
        · exact ⟨hnc, hnf⟩
        · exact hall x hx
      · refine Or.inr ⟨r, it :: mid, it1, tail, hr, by rw [hsplit]; rfl, fun x hx => ?_, ?_⟩
        · rcases List.mem_cons.1 hx with rfl | hx
          · exact ⟨hnc, hnf⟩
          · exact hmid x hx
        · have hidx : i + 1 + mid.length = i + (it :: mid).length := by
            simp only [List.length_cons]
            omega
          rw [← hidx]
          exact hcase
    obtain ⟨p, dir, d⟩ := it
    cases dir
    · simp only [select_scan] at hs
      by_cases hclosed : (h p).channel_status = false
      · rw [if_pos hclosed] at hs
        simp only [Option.some.injEq] at hs
        subst hs
        exact Or.inr ⟨_, [], _, rest, rfl, rfl, fun x hx => absurd hx (List.not_mem_nil _),
          Or.inl ⟨hclosed, rfl, rfl, rfl, rfl⟩⟩
      · rw [if_neg hclosed] at hs
        by_cases hroom : buffer_current_size (h p).buffer < buffer_capacity (h p).buffer
        · rw [if_pos hroom] at hs
          cases hcore : channel_send_core (h p) d with
          | none => simp [hcore] at hs
          | some cs =>
            obtain ⟨c, st⟩ := cs
            simp only [hcore, Option.some.injEq] at hs
            obtain ⟨hst, hc⟩ := channel_send_core_spec hcore hroom
            subst hs hst
            exact Or.inr ⟨_, [], _, rest, rfl, rfl, fun x hx => absurd hx (List.not_mem_nil _),
              Or.inr ⟨hclosed, Or.inl ⟨rfl, hroom⟩, rfl, committed_send hc⟩⟩
        · rw [if_neg hroom] at hs
          refine hstep res hs hclosed ?_
          rintro (⟨_, hr⟩ | ⟨hd, _⟩)
          · exact hroom hr
          · cases hd
    · simp only [select_scan] at hs
      by_cases hclosed : (h p).channel_status = false
      · rw [if_pos hclosed] at hs
        simp only [Option.some.injEq] at hs
        subst hs
        exact Or.inr ⟨_, [], _, rest, rfl, rfl, fun x hx => absurd hx (List.not_mem_nil _),
          Or.inl ⟨hclosed, rfl, rfl, rfl, rfl⟩⟩
      · rw [if_neg hclosed] at hs
        by_cases hsome : 0 < buffer_current_size (h p).buffer
        · rw [if_pos hsome] at hs
          cases hcore : channel_receive_core (h p) d with
          | none => simp [hcore] at hs
          | some cs =>
            obtain ⟨c, out, st⟩ := cs
            simp only [hcore, Option.some.injEq] at hs
            obtain ⟨hst, hdata, hc⟩ := channel_receive_core_spec hcore hsome
            subst hs hst
            exact Or.inr ⟨_, [], _, rest, rfl, rfl, fun x hx => absurd hx (List.not_mem_nil _),
              Or.inr ⟨hclosed, Or.inr ⟨rfl, hsome⟩, rfl, committed_recv hdata hc⟩⟩
        · rw [if_neg hsome] at hs
          refine hstep res hs hclosed ?_
          rintro (⟨hd, _⟩ | ⟨_, hr⟩)
          · cases hd
          · exact hsome hr

lemma select_scan_ok (h : heap) (cl : List select_t) (idx : Nat) :
    ∀ (rest : List select_t) (i : Nat), (∀ it ∈ rest, chan_ok (h it.channel)) →
      ∃ res, select_scan h cl idx i rest = some res := by
  intro rest
  induction rest with
  | nil => exact fun i _ => ⟨none, rfl⟩
  | cons it rest ih =>
    intro i hok
    have hit := hok it (List.mem_cons_self _ _)
    obtain ⟨res1, h1⟩ := ih (i + 1) (fun x hx => hok x (List.mem_cons_of_mem _ hx))
    obtain ⟨p, dir, d⟩ := it
    cases dir
    · obtain ⟨⟨c, st⟩, hcore⟩ := channel_send_core_ok d hit.2
      dsimp only at hcore
      simp only [select_scan]
      split_ifs
      · exact ⟨_, rfl⟩
      · exact ⟨_, by rw [hcore]⟩
      · exact ⟨res1, h1⟩
    · obtain ⟨⟨c, out, st⟩, hcore⟩ := channel_receive_core_ok d hit.1
      dsimp only at hcore
      simp only [select_scan]
      split_ifs
      · exact ⟨_, rfl⟩
      · exact ⟨_, by rw [hcore]⟩
      · exact ⟨res1, h1⟩

lemma closed_at_congr {h h1 : heap} (hb : same_buffers h h1) (it : select_t) :
    closed_at h1 it ↔ closed_at h it := by
  unfold closed_at
  rw [(hb it.channel).2]

lemma feasible_congr {h h1 : heap} (hb : same_buffers h h1) (it : select_t) :
    feasible h1 it ↔ feasible h it := by
  unfold feasible
  rw [(hb it.channel).1]

lemma committed_congr {h h1 : heap} (hb : same_buffers h h1) {cl : List select_t} {i : Nat}
    {it : select_t} {r : select_ret} (hc : committed h1 cl i it r) : committed h cl i it r := by
  obtain ⟨hidx, hst, hbuf, hcap, heff⟩ := hc
  refine ⟨hidx, fun p => (hst p).trans (hb p).2, fun p hp => (hbuf p hp).trans (hb p).1, ?_, ?_⟩
  · rw [hcap, (hb it.channel).1]
  · rw [(hb it.channel).1] at heff
    exact heff

/-- A pass of `channel_select` that returns does so at the first intent that is closed or
feasible in the channels it found. -/
lemma round_returned {s : ptr} {h : heap} {cl : List select_t} {idx : Nat} {r : select_ret}
    (hr : channel_select_round s h cl idx = some (.returned r)) :
    ∃ mid it tail, cl = mid ++ it :: tail
      ∧ (∀ x ∈ mid, ¬ closed_at h x ∧ ¬ feasible h x)
      ∧ ((closed_at h it ∧ same_buffers h r.chans ∧ r.channel_list = cl
            ∧ r.selected_index = idx ∧ r.status = .CLOSED_ERROR)
        ∨ (¬ closed_at h it ∧ feasible h it ∧ r.status = .SUCCESS
            ∧ committed h cl mid.length it r)) := by
  unfold channel_select_round at hr
  cases hc : select_cleanup s cl h with
  | none => simp [hc] at hr
  | some h1 =>
    have hb := select_cleanup_frame cl hc
    simp only [hc] at hr
    cases hscan : select_scan h1 cl idx 0 cl with
    | none => simp [hscan] at hr
    | some res =>
      rcases select_scan_sound h1 cl idx cl 0 res hscan with
        ⟨hnone, _⟩ | ⟨r1, mid, it, tail, hres, hsplit, hmid, hcase⟩
      · subst hnone
        simp only [hscan] at hr
        cases hreg : select_register s [] cl h1 <;> simp [hreg] at hr
      · subst hres
        simp only [hscan, Option.some.injEq, round_result.returned.injEq] at hr
        subst hr
        refine ⟨mid, it, tail, hsplit, fun x hx => ?_, ?_⟩
        · rw [← closed_at_congr hb, ← feasible_congr hb]
          exact hmid x hx
        · rw [← closed_at_congr hb, ← feasible_congr hb]
          rcases hcase with ⟨hcl, hch, hrest⟩ | ⟨hcl, hf, hst, hcom⟩
          · exact Or.inl ⟨hcl, hch ▸ hb, hrest⟩
          · refine Or.inr ⟨hcl, hf, hst, committed_congr hb ?_⟩
            simpa using hcom

/-- A pass of `channel_select` that goes to sleep found every intent open and not feasible and
changed no buffer and no open flag. -/
lemma round_sleeping {s : ptr} {h h2 : heap} {cl : List select_t} {idx : Nat}
    (hr : channel_select_round s h cl idx = some (.sleeping h2)) :
    same_buffers h h2 ∧ ∀ it ∈ cl, ¬ closed_at h it ∧ ¬ feasible h it := by
  unfold channel_select_round at hr
  cases hc : select_cleanup s cl h with
  | none => simp [hc] at hr
  | some h1 =>
    have hb := select_cleanup_frame cl hc
    simp only [hc] at hr
    cases hscan : select_scan h1 cl idx 0 cl with
    | none => simp [hscan] at hr
    | some res =>
      rcases select_scan_sound h1 cl idx cl 0 res hscan with
        ⟨hnone, hall⟩ | ⟨r1, mid, it, tail, hres, _⟩
      · subst hnone
        simp only [hscan] at hr
        cases hreg : select_register s [] cl h1 with
        | none => simp [hreg] at hr
        | some h3 =>
          simp only [hreg, Option.some.injEq, round_result.sleeping.injEq] at hr
          subst hr
          refine ⟨same_buffers_trans hb (select_register_frame cl hreg), fun it hit => ?_⟩
          rw [← closed_at_congr hb, ← feasible_congr hb]
          exact hall it hit
      · subst hres
        simp [hscan] at hr

/-- With well-formed waiter lists, a pass of `channel_select` over intents one of which is
closed or feasible returns. -/
lemma round_ok (s : ptr) (h : heap) (cl : List select_t) (idx : Nat)
    (hok : ∀ it ∈ cl, chan_ok (h it.channel))
    (hdec : ∃ it ∈ cl, closed_at h it ∨ feasible h it) :
    ∃ r, channel_select_round s h cl idx = some (.returned r) := by
  obtain ⟨h1, hc, hpres⟩ := select_cleanup_ok s cl h hok
  have hb := select_cleanup_frame cl hc
  obtain ⟨res, hscan⟩ := select_scan_ok h1 cl idx cl 0 (fun it hit => hpres _ (hok it hit))
  rcases select_scan_sound h1 cl idx cl 0 res hscan with
    ⟨_, hall⟩ | ⟨r1, mid, it, tail, hres, _⟩
  · obtain ⟨it, hit, hd⟩ := hdec
    have := hall it hit
    rw [closed_at_congr hb, feasible_congr hb] at this
    rcases hd with hd | hd
    · exact absurd hd this.1
    · exact absurd hd this.2
  · subst hres
    exact ⟨r1, by simp [channel_select_round, hc, hscan]⟩

lemma select_of_round_returned {s : ptr} {h : heap} {cl : List select_t} {idx : Nat}
    {r : select_ret} (hr : channel_select_round s h cl idx = some (.returned r))
    (env : List (heap → heap)) :
    channel_select s env h cl idx = some r ∧ select_snapshot s env h cl idx = h := by
  cases env with
  | nil => simp [channel_select, select_snapshot, hr]
  | cons f env => simp [channel_select, select_snapshot, hr]

lemma select_snapshot_round {s : ptr} {cl : List select_t} {idx : Nat} {r : select_ret} :
    ∀ (env : List (heap → heap)) (h : heap), channel_select s env h cl idx = some r →
      channel_select_round s (select_snapshot s env h cl idx) cl idx = some (.returned r) := by
  intro env
  induction env with
  | nil =>
    intro h hs
    simp only [channel_select] at hs
    simp only [select_snapshot]
    cases hr : channel_select_round s h cl idx with
    | none => simp [hr] at hs
    | some res =>
      cases res with
      | returned r1 =>
        simp only [hr, Option.some.injEq] at hs
        rw [hs]
      | sleeping h2 => simp [hr] at hs
  | cons f env ih =>
    intro h hs
    simp only [channel_select] at hs
    simp only [select_snapshot]
    cases hr : channel_select_round s h cl idx with
    | none => simp [hr] at hs
    | some res =>
      cases res with
      | returned r1 =>
        simp only [hr, Option.some.injEq] at hs
        simp only [hr]
        rw [hs]
      | sleeping h2 =>
        simp only [hr] at hs
        simp only [hr]
        exact ih (f h2) hs

/-! ## channel_select: the claims -/

/-- A list splits in only one way at the first element that satisfies `P`. -/
lemma first_split_unique {P : select_t → Prop} :
    ∀ {mid mid1 : List select_t} {it it1 : select_t} {tail tail1 : List select_t},
      mid ++ it :: tail = mid1 ++ it1 :: tail1 →
      (∀ x ∈ mid, ¬ P x) → P it → (∀ x ∈ mid1, ¬ P x) → P it1 →
      mid = mid1 ∧ it = it1 ∧ tail = tail1 := by
  intro mid
  induction mid with
  | nil =>
    intro mid1 it it1 tail tail1 hsplit _ hit hmid1 _
    cases mid1 with
    | nil =>
      simp only [List.nil_append, List.cons.injEq] at hsplit
      exact ⟨rfl, hsplit.1, hsplit.2⟩
    | cons y mid1 =>
      simp only [List.nil_append, List.cons_append, List.cons.injEq] at hsplit
      exact absurd hit (hsplit.1 ▸ hmid1 y (List.mem_cons_self _ _))
  | cons x mid ih =>
    intro mid1 it it1 tail tail1 hsplit hmid hit hmid1 hit1
    cases mid1 with
    | nil =>
      simp only [List.nil_append, List.cons_append, List.cons.injEq] at hsplit
      exact absurd hit1 (hsplit.1 ▸ hmid x (List.mem_cons_self _ _))
    | cons y mid1 =>
      simp only [List.cons_append, List.cons.injEq] at hsplit
      obtain ⟨hm, hi, ht⟩ := ih hsplit.2 (fun z hz => hmid z (List.mem_cons_of_mem _ hz)) hit
        (fun z hz => hmid1 z (List.mem_cons_of_mem _ hz)) hit1
      exact ⟨by rw [hsplit.1, hm], hi, ht⟩

/-- C7: when the channels of all intents are open and at least one intent is immediately
feasible, `channel_select` returns `SUCCESS` whatever the environment (it never sleeps),
`*selected_index` is the lowest index of a feasible intent (the intents before it, `mid`, are
not feasible) and exactly that intent is performed.  The waiter lists of the referenced channels,
which the call walks, are well formed. -/
theorem C7_select_first_feasible (sel_sync : ptr) (env : List (heap → heap)) (h : heap)
    (channel_list : List select_t) (selected_index : Nat)
    (hok : ∀ it ∈ channel_list, chan_ok (h it.channel))
    (hopen : ∀ it ∈ channel_list, (h it.channel).channel_status = true)
    (hfeas : ∃ it ∈ channel_list, feasible h it) :
    ∃ r mid it tail,
      channel_select sel_sync env h channel_list selected_index = some r
        ∧ r.status = .SUCCESS
        ∧ channel_list = mid ++ it :: tail
        ∧ feasible h it ∧ (∀ x ∈ mid, ¬ feasible h x)
        ∧ r.selected_index = mid.length
        ∧ committed h channel_list mid.length it r := by
  obtain ⟨it0, hit0, hf0⟩ := hfeas
  obtain ⟨r, hr⟩ := round_ok sel_sync h channel_list selected_index hok ⟨it0, hit0, Or.inr hf0⟩
  obtain ⟨mid, it, tail, hsplit, hmid, hcase⟩ := round_returned hr
  have hit : it ∈ channel_list := by
    rw [hsplit]
    simp
  rcases hcase with ⟨hcl, _⟩ | ⟨_, hf, hst, hcom⟩
  · have := hopen it hit
    rw [closed_at] at hcl
    rw [hcl] at this
    cases this
  · exact ⟨r, mid, it, tail, (select_of_round_returned hr env).1, hst, hsplit, hf,
      fun x hx => (hmid x hx).2, hcom.1, hcom⟩

/-- Witness of C7: the scenario S4, `X` (address 1) empty with capacity 1, `Y` (address 2)
holding `7`, intents `[SEND X <- 3, RECV Y]`. -/
theorem C7_select_first_feasible_witness :
    (∃ r mid it tail,
      channel_select 100 [] (two_chans (chan_with 1 [] true) (chan_with 1 [7] true))
          [⟨1, .SEND, 3⟩, ⟨2, .RECV, 0⟩] 9 = some r
        ∧ r.status = .SUCCESS
        ∧ [⟨1, .SEND, 3⟩, ⟨2, .RECV, 0⟩] = mid ++ it :: tail
        ∧ feasible (two_chans (chan_with 1 [] true) (chan_with 1 [7] true)) it
        ∧ (∀ x ∈ mid, ¬ feasible (two_chans (chan_with 1 [] true) (chan_with 1 [7] true)) x)
        ∧ r.selected_index = mid.length
        ∧ committed (two_chans (chan_with 1 [] true) (chan_with 1 [7] true))
            [⟨1, .SEND, 3⟩, ⟨2, .RECV, 0⟩] mid.length it r)
      ∧ (channel_select 100 [] (two_chans (chan_with 1 [] true) (chan_with 1 [7] true))
            [⟨1, .SEND, 3⟩, ⟨2, .RECV, 0⟩] 9).map
          (fun r => (r.status, r.selected_index, (r.chans 1).buffer.data,
            (r.chans 2).buffer.data))
          = some (.SUCCESS, 0, [3], [7]) :=
  ⟨C7_select_first_feasible 100 [] (two_chans (chan_with 1 [] true) (chan_with 1 [7] true))
      [⟨1, .SEND, 3⟩, ⟨2, .RECV, 0⟩] 9
      (by
        intro it hit
        simp only [List.mem_cons, List.mem_singleton, List.not_mem_nil, or_false] at hit
        rcases hit with rfl | rfl <;> exact ⟨list_create_wf, list_create_wf⟩)
      (by
        intro it hit
        simp only [List.mem_cons, List.mem_singleton, List.not_mem_nil, or_false] at hit
        rcases hit with rfl | rfl <;> rfl)
      ⟨⟨1, .SEND, 3⟩, by simp, Or.inl ⟨rfl, by decide⟩⟩,
    rfl⟩

/-- C8 fails on the code: with intents `[RECV X, RECV Y]`, `X` (address 1) open and empty, `Y`
(address 2) closed and `*selected_index == 9` before the call, `channel_select` returns
`CLOSED_ERROR` and `*selected_index` is still `9`, not the position `1` of the closed channel. -/
theorem C8_selected_index_not_set_on_closed :
    (channel_select 100 [] (two_chans (chan_with 1 [] true) (chan_with 1 [] false))
        [⟨1, .RECV, 0⟩, ⟨2, .RECV, 0⟩] 9).map (fun r => (r.status, r.selected_index))
      = some (.CLOSED_ERROR, 9) :=
  rfl

/-- C9, as stated, fails: with intents `[SEND X <- 3, RECV Y]`, `X` (address 1) open and empty
and `Y` (address 2) closed, `channel_select` does not abort: it returns `SUCCESS` with
`*selected_index == 0` and has appended `3` to the buffer of `X`. -/
theorem C9_counterexample :
    closed_at (two_chans (chan_with 1 [] true) (chan_with 1 [7] false)) ⟨2, .RECV, 0⟩
      ∧ (channel_select 100 [] (two_chans (chan_with 1 [] true) (chan_with 1 [7] false))
            [⟨1, .SEND, 3⟩, ⟨2, .RECV, 0⟩] 9).map
          (fun r => (r.status, r.selected_index, (r.chans 1).buffer.data))
          = some (.SUCCESS, 0, [3]) :=
  ⟨rfl, rfl⟩

/-- C9, amended: when the readiness scan meets an intent on a closed channel before any feasible
intent on an open channel (every intent of `mid`, the ones at lower indices, is open and not
feasible), `channel_select` returns `CLOSED_ERROR` whatever the environment and commits no
intent: buffer and open flag of every channel and the intent array are as before the call,
regardless of whether intents at higher indices are feasible.  The waiter lists of the referenced
channels are well formed. -/
theorem C9_select_closed_first (sel_sync : ptr) (env : List (heap → heap)) (h : heap)
    (mid : List select_t) (it : select_t) (tail : List select_t) (selected_index : Nat)
    (hok : ∀ x ∈ mid ++ it :: tail, chan_ok (h x.channel))
    (hmid : ∀ x ∈ mid, ¬ closed_at h x ∧ ¬ feasible h x)
    (hclosed : closed_at h it) :
    ∃ r, channel_select sel_sync env h (mid ++ it :: tail) selected_index = some r
      ∧ r.status = .CLOSED_ERROR
      ∧ same_buffers h r.chans
      ∧ r.channel_list = mid ++ it :: tail := by
  obtain ⟨r, hr⟩ := round_ok sel_sync h (mid ++ it :: tail) selected_index hok
    ⟨it, by simp, Or.inl hclosed⟩
  obtain ⟨mid1, it1, tail1, hsplit, hmid1, hcase⟩ := round_returned hr
  refine ⟨r, (select_of_round_returned hr env).1, ?_⟩
  rcases hcase with ⟨_, hb, hcl, _, hst⟩ | ⟨hnc, hf, _, _⟩
  · exact ⟨hst, hb, hcl⟩
  · -- the first closed-or-feasible intent is `it`, which is closed
    have huniq := first_split_unique (P := fun x => closed_at h x ∨ feasible h x) hsplit
      (fun x hx hp => hp.elim (hmid x hx).1 (hmid x hx).2) (Or.inl hclosed)
      (fun x hx hp => hp.elim (hmid1 x hx).1 (hmid1 x hx).2) (Or.inr hf)
    exact absurd (huniq.2.1 ▸ hclosed) hnc

/-- Witness of the amended C9: intents `[RECV X, RECV Y, SEND X <- 3]`, `X` open and empty, `Y`
closed; the feasible `SEND` comes after the closed channel. -/
theorem C9_select_closed_first_witness :
    ∃ r, channel_select 100 [] (two_chans (chan_with 1 [] true) (chan_with 1 [7] false))
        ([⟨1, .RECV, 0⟩] ++ ⟨2, .RECV, 0⟩ :: [⟨1, .SEND, 3⟩]) 9 = some r
      ∧ r.status = .CLOSED_ERROR
      ∧ same_buffers (two_chans (chan_with 1 [] true) (chan_with 1 [7] false)) r.chans
      ∧ r.channel_list = [⟨1, .RECV, 0⟩] ++ ⟨2, .RECV, 0⟩ :: [⟨1, .SEND, 3⟩] :=
  C9_select_closed_first 100 [] (two_chans (chan_with 1 [] true) (chan_with 1 [7] false))
    [⟨1, .RECV, 0⟩] ⟨2, .RECV, 0⟩ [⟨1, .SEND, 3⟩] 9
    (by
      intro x hx
      simp only [List.cons_append, List.nil_append, List.mem_cons, List.mem_singleton,
        List.not_mem_nil, or_false] at hx
      rcases hx with rfl | rfl | rfl <;> exact ⟨list_create_wf, list_create_wf⟩)
    (by
      intro x hx
      simp only [List.mem_singleton] at hx
      subst hx
      refine ⟨by simp [closed_at, two_chans, chan_with], ?_⟩
      rintro (⟨hd, _⟩ | ⟨_, hs⟩)
      · cases hd
      · simp [two_chans, chan_with, buffer_current_size] at hs)
    rfl

/-! ## The size bound -/

lemma channel_send_core_bound {c c1 : channel_t} {d : ptr} {st : channel_status}
    (h : channel_send_core c d = some (c1, st))
    (hinv : buffer_current_size c.buffer ≤ buffer_capacity c.buffer) :
    buffer_current_size c1.buffer ≤ buffer_capacity c1.buffer := by
  by_cases hroom : buffer_current_size c.buffer < buffer_capacity c.buffer
  · obtain ⟨_, hc⟩ := channel_send_core_spec h hroom
    subst hc
    simp only [buffer_current_size, buffer_capacity, List.length_append, List.length_singleton]
      at hroom ⊢
    omega
  · rcases channel_send_core_cases h with ⟨hst, _⟩ | ⟨_, hc⟩
    · exfalso
      unfold channel_send_core buffer_add at h
      rw [if_neg hroom] at h
      simp only [Option.some.injEq, Prod.mk.injEq] at h
      rw [hst] at h
      cases h.2
    · rw [hc]
      exact hinv

lemma channel_receive_core_bound {c c1 : channel_t} {slot out : ptr} {st : channel_status}
    (h : channel_receive_core c slot = some (c1, out, st))
    (hinv : buffer_current_size c.buffer ≤ buffer_capacity c.buffer) :
    buffer_current_size c1.buffer ≤ buffer_capacity c1.buffer := by
  by_cases hsome : 0 < buffer_current_size c.buffer
  · obtain ⟨_, _, hc⟩ := channel_receive_core_spec h hsome
    subst hc
    simp only [buffer_current_size, buffer_capacity, List.length_tail] at hinv ⊢
    omega
  · rcases channel_receive_core_cases h with ⟨_, hd⟩ | ⟨_, hc⟩
    · simp [buffer_current_size, hd] at hsome
    · rw [hc]
      exact hinv

lemma channel_send_loop_bound (cap : Nat) (d : ptr) {c1 : channel_t} {st : channel_status} :
    ∀ (env : List wake) (c : channel_t),
      buffer_current_size c.buffer ≤ buffer_capacity c.buffer →
      (∀ w, w ∈ env → buffer_current_size w.chan.buffer ≤ buffer_capacity w.chan.buffer) →
      channel_send_loop cap d env c = some (c1, st) →
      buffer_current_size c1.buffer ≤ buffer_capacity c1.buffer := by
  intro env
  induction env with
  | nil =>
    intro c hinv _ hs
    unfold channel_send_loop at hs
    by_cases hfull : buffer_current_size c.buffer = cap
    · rw [if_pos hfull] at hs
      cases hs
    · rw [if_neg hfull] at hs
      exact channel_send_core_bound hs hinv
  | cons w rest ih =>
    intro c hinv henv hs
    unfold channel_send_loop at hs
    have hw := henv w (List.mem_cons_self _ _)
    by_cases hfull : buffer_current_size c.buffer = cap
    · rw [if_pos hfull] at hs
      dsimp only at hs
      by_cases hrc : w.rc ≠ 0
      · rw [if_pos hrc] at hs
        simp only [Option.some.injEq, Prod.mk.injEq] at hs
        rw [← hs.1]
        exact hw
      · rw [if_neg hrc] at hs
        by_cases hcl : w.chan.channel_status = false
        · rw [if_pos hcl] at hs
          simp only [Option.some.injEq, Prod.mk.injEq] at hs
          rw [← hs.1]
          exact hw
        · rw [if_neg hcl] at hs
          exact ih w.chan hw (fun x hx => henv x (List.mem_cons_of_mem _ hx)) hs
    · rw [if_neg hfull] at hs
      exact channel_send_core_bound hs hinv

lemma channel_receive_loop_bound (slot : ptr) {c1 : channel_t} {out : ptr}
    {st : channel_status} :
    ∀ (env : List wake) (c : channel_t),
      buffer_current_size c.buffer ≤ buffer_capacity c.buffer →
      (∀ w, w ∈ env → buffer_current_size w.chan.buffer ≤ buffer_capacity w.chan.buffer) →
      channel_receive_loop slot env c = some (c1, out, st) →
      buffer_current_size c1.buffer ≤ buffer_capacity c1.buffer := by
  intro env
  induction env with
  | nil =>
    intro c hinv _ hs
    unfold channel_receive_loop at hs
    by_cases hempty : buffer_current_size c.buffer = 0
    · rw [if_pos hempty] at hs
      cases hs
    · rw [if_neg hempty] at hs
      exact channel_receive_core_bound hs hinv
  | cons w rest ih =>
    intro c hinv henv hs
    unfold channel_receive_loop at hs
    have hw := henv w (List.mem_cons_self _ _)
    by_cases hfull : buffer_current_size c.buffer = 0
    · rw [if_pos hfull] at hs
      dsimp only at hs
      by_cases hrc : w.rc ≠ 0
      · rw [if_pos hrc] at hs
        simp only [Option.some.injEq, Prod.mk.injEq] at hs
        rw [← hs.1]
        exact hw
      · rw [if_neg hrc] at hs
        by_cases hcl : w.chan.channel_status = false
        · rw [if_pos hcl] at hs
          simp only [Option.some.injEq, Prod.mk.injEq] at hs
          rw [← hs.1]
          exact hw
        · rw [if_neg hcl] at hs
          exact ih w.chan hw (fun x hx => henv x (List.mem_cons_of_mem _ hx)) hs
    · rw [if_neg hfull] at hs
      exact channel_receive_core_bound hs hinv

lemma channel_close_buffer {c c1 : channel_t} {st : channel_status}
    (h : channel_close c = some (c1, st)) : c1.buffer = c.buffer := by
  unfold channel_close at h
  split_ifs at h with hclosed
  · simp only [Option.some.injEq, Prod.mk.injEq] at h
    rw [← h.1]
  · dsimp only at h
    cases h1 : signal_all c.sel_recvs <;> cases h2 : signal_all c.sel_sends <;>
      simp only [h1, h2, Option.some.injEq, Prod.mk.injEq, reduceCtorEq] at h
    rw [← h.1]

lemma committed_bound {h : heap} {cl : List select_t} {i : Nat} {it : select_t}
    {r : select_ret} (hcom : committed h cl i it r) (hf : feasible h it)
    (hinv : ∀ q, buffer_current_size (h q).buffer ≤ buffer_capacity (h q).buffer) (p : ptr) :
    buffer_current_size (r.chans p).buffer ≤ buffer_capacity (r.chans p).buffer := by
  obtain ⟨_, _, hbuf, hcap, heff⟩ := hcom
  by_cases hp : p = it.channel
  · subst hp
    rw [hcap]
    rcases heff with ⟨hdir, hdata, _⟩ | ⟨_, x, hdata, _⟩
    · rcases hf with ⟨_, hroom⟩ | ⟨hd, _⟩
      · simp only [buffer_current_size, hdata, List.length_append, List.length_singleton]
          at hroom ⊢
        omega
      · rw [hdir] at hd
        cases hd
    · have := hinv it.channel
      simp only [buffer_current_size, hdata, List.length_cons] at this ⊢
      omega
  · rw [hbuf p hp]
    exact hinv p

lemma reachable_bound {c : channel_t} (hreach : Reachable c) :
    buffer_current_size c.buffer ≤ buffer_capacity c.buffer := by
  induction hreach with
  | create capacity _ => exact Nat.zero_le _
  | send env c d c1 st _ _ hs ih ihenv =>
    unfold channel_send at hs
    split_ifs at hs
    · simp only [Option.some.injEq, Prod.mk.injEq] at hs
      rw [← hs.1]
      exact ih
    · exact channel_send_loop_bound _ d env c ih ihenv hs
  | receive env c slot c1 out st _ _ hs ih ihenv =>
    unfold channel_receive at hs
    split_ifs at hs
    · simp only [Option.some.injEq, Prod.mk.injEq] at hs
      rw [← hs.1]
      exact ih
    · exact channel_receive_loop_bound slot env c ih ihenv hs
  | non_blocking_send c d c1 st _ hs ih =>
    unfold channel_non_blocking_send at hs
    split_ifs at hs
    · simp only [Option.some.injEq, Prod.mk.injEq] at hs
      rw [← hs.1]
      exact ih
    · simp only [Option.some.injEq, Prod.mk.injEq] at hs
      rw [← hs.1]
      exact ih
    · exact channel_send_core_bound hs ih
  | non_blocking_receive c slot c1 out st _ hs ih =>
    unfold channel_non_blocking_receive at hs
    split_ifs at hs
    · simp only [Option.some.injEq, Prod.mk.injEq] at hs
      rw [← hs.1]
      exact ih
    · simp only [Option.some.injEq, Prod.mk.injEq] at hs
      rw [← hs.1]
      exact ih
    · exact channel_receive_core_bound hs ih
  | close c c1 st _ hs ih =>
    rw [channel_close_buffer hs]
    exact ih
  | select sel_sync env h cl idx r p _ _ hs _ ihsnap =>
    obtain ⟨mid, it, tail, _, _, hcase⟩ := round_returned (select_snapshot_round env h hs)
    rcases hcase with ⟨_, hb, _⟩ | ⟨_, hf, _, hcom⟩
    · rw [(hb p).1]
      exact ihsnap p
    · exact committed_bound hcom hf ihsnap p
  | select_sleep sel_sync h cl idx h2 p _ hs ih =>
    rw [((round_sleeping hs).1 p).1]
    exact ih p

/-! ## Waiter lists stay well formed -/

lemma seg_nil_of_start_zero {m : ptr → Option list_node_t} {xs : List ptr} {q e : ptr}
    (h : seg m 0 q xs e) : xs = [] := by
  cases xs with
  | nil => rfl
  | cons a rest =>
    obtain ⟨hp, ha, _⟩ := h
    exact absurd hp.symm ha

lemma list_insert_ok {l l1 : list_t} {xs : List ptr} {d n : ptr} (h : list_ok l xs)
    (hi : list_insert l d = some (l1, n)) : list_ok l1 (xs ++ [n]) := by
  unfold list_insert at hi
  dsimp only at hi
  by_cases hbrk : l.brk = 0 ∨ SIZE_RANGE ≤ l.brk
  · rw [if_pos hbrk] at hi
    cases hi
  · rw [if_neg hbrk] at hi
    have hb0 : l.brk ≠ 0 := fun e => hbrk (Or.inl e)
    have hblt : l.brk < SIZE_RANGE := by
      by_contra hcon
      exact hbrk (Or.inr (not_lt.1 hcon))
    have hlen := h.len_lt
    have hcount : (l.count + 1) % SIZE_RANGE = (xs ++ [l.brk]).length := by
      rw [h.count_eq, List.length_append, List.length_singleton]
      exact Nat.mod_eq_of_lt (by omega)
    have hfresh : l.brk ∉ xs := fun hmem => absurd (h.lt_brk _ hmem) (Nat.lt_irrefl _)
    have hnd : (xs ++ [l.brk]).Nodup :=
      List.nodup_append.2 ⟨h.nodup, List.nodup_singleton _, fun x hx hy => by
        rw [List.mem_singleton] at hy
        exact hfresh (hy ▸ hx)⟩
    have hlt1 : ∀ a ∈ xs ++ [l.brk], a < l.brk + 1 := fun a ha => by
      rcases List.mem_append.1 ha with ha | ha
      · exact Nat.lt_succ_of_lt (h.lt_brk a ha)
      · rw [List.mem_singleton] at ha
        rw [ha]
        exact Nat.lt_succ_self _
    have hlen1 : (xs ++ [l.brk]).length < l.brk + 1 := by
      rw [List.length_append, List.length_singleton]
      omega
    by_cases hhead : l.head = 0
    · rw [if_pos hhead] at hi
      simp only [Option.some.injEq, Prod.mk.injEq] at hi
      obtain ⟨hl, hn⟩ := hi
      subst hl hn
      have hxs : xs = [] := seg_nil_of_start_zero (hhead ▸ h.chain)
      subst hxs
      exact
        { chain := ⟨rfl, hb0, _, Function.update_same _ _ _, rfl, rfl⟩, tail_eq := rfl,
          count_eq := hcount, nodup := hnd, lt_brk := hlt1, len_lt := hlen1,
          brk_le := hblt }
    · rw [if_neg hhead] at hi
      rcases List.eq_nil_or_concat xs with hnil | ⟨pre, t, hcc⟩
      · subst hnil
        exact absurd h.chain hhead
      · rw [List.concat_eq_append] at hcc
        subst hcc
        have htail : l.tail = t := by simpa using h.tail_eq
        obtain ⟨p1, hpre, ht⟩ := seg_append.1 h.chain
        obtain ⟨hp1, ht0, nt, hnt, htprev, _⟩ := ht
        subst hp1
        have htb : p1 ≠ l.brk := fun e => hfresh (e ▸ by simp)
        have ht_pre : p1 ∉ pre := fun hmem =>
          (List.nodup_append.1 h.nodup).2.2 hmem (List.mem_singleton_self _)
        have e1 : deref (Function.update l.node l.brk
            (some { next := 0, prev := 0, data := d })) l.tail = some nt := by
          rw [htail]
          simp [deref, ht0, Function.update_apply, htb, hnt]
        rw [e1] at hi
        dsimp only at hi
        have e2 : deref (Function.update (Function.update l.node l.brk
            (some { next := 0, prev := 0, data := d })) l.tail
            (some { nt with next := l.brk })) l.brk
            = some { next := 0, prev := 0, data := d } := by
          rw [htail]
          simp [deref, hb0, Function.update_apply, htb.symm]
        rw [e2] at hi
        simp only [Option.some.injEq, Prod.mk.injEq] at hi
        obtain ⟨hl, hn⟩ := hi
        subst hl hn
        refine
          { chain := ?_, tail_eq := by simp, count_eq := hcount, nodup := hnd, lt_brk := hlt1,
            len_lt := hlen1, brk_le := hblt }
        refine seg_append.2 ⟨l.brk, seg_append.2 ⟨p1, seg_frame hpre (fun x hx => ?_), ?_⟩, ?_⟩
        · have hxt : x ≠ p1 := fun e => ht_pre (e ▸ hx)
          have hxb : x ≠ l.brk := fun e => hfresh (e ▸ by simp [hx])
          simp [Function.update_apply, hxt, hxb, htail]
        · exact ⟨rfl, ht0, { nt with next := l.brk },
            by simp [Function.update_apply, htb, htail], htprev, rfl⟩
        · exact ⟨rfl, hb0, { next := 0, prev := l.tail, data := d },
            by simp [Function.update_apply], by simp [htail], rfl⟩

lemma select_register_wf {s : ptr} (rest : List select_t) :
    ∀ {seen : List select_t} {h h2 : heap},
      select_register s seen rest h = some h2 → (∀ p, chan_ok (h p)) → ∀ p, chan_ok (h2 p) := by
  induction rest with
  | nil =>
    intro seen h h2 hs hok
    simp only [select_register, Option.some.injEq] at hs
    subst hs
    exact hok
  | cons it rest ih =>
    intro seen h h2 hs hok
    obtain ⟨p, dir, d⟩ := it
    simp only [select_register] at hs
    split_ifs at hs with hdup
    · exact ih hs hok
    · cases dir
      · simp only at hs
        cases hi : list_insert (h p).sel_sends s with
        | none => simp [hi] at hs
        | some r =>
          obtain ⟨l, n⟩ := r
          simp only [hi] at hs
          obtain ⟨xs, hxs⟩ := (hok p).1
          refine ih hs (fun q => ?_)
          by_cases hq : q = p
          · subst hq
            simpa [chan_ok] using ⟨⟨_, list_insert_ok hxs hi⟩, (hok q).2⟩
          · simpa [Function.update_noteq hq] using hok q
      · simp only at hs
        cases hi : list_insert (h p).sel_recvs s with
        | none => simp [hi] at hs
        | some r =>
          obtain ⟨l, n⟩ := r
          simp only [hi] at hs
          obtain ⟨xs, hxs⟩ := (hok p).2
          refine ih hs (fun q => ?_)
          by_cases hq : q = p
          · subst hq
            simpa [chan_ok] using ⟨(hok q).1, ⟨_, list_insert_ok hxs hi⟩⟩
          · simpa [Function.update_noteq hq] using hok q

lemma channel_send_core_lists {c c1 : channel_t} {d : ptr} {st : channel_status}
    (h : channel_send_core c d = some (c1, st)) :
    c1.sel_sends = c.sel_sends ∧ c1.sel_recvs = c.sel_recvs := by
  unfold channel_send_core at h
  split at h
  · simp only [Option.some.injEq, Prod.mk.injEq] at h
    rw [← h.1]
    exact ⟨rfl, rfl⟩
  · cases hs : signal_all c.sel_recvs <;>
      simp only [hs, Option.some.injEq, Prod.mk.injEq, reduceCtorEq] at h
    rw [← h.1]
    exact ⟨rfl, rfl⟩

lemma channel_receive_core_lists {c c1 : channel_t} {slot out : ptr} {st : channel_status}
    (h : channel_receive_core c slot = some (c1, out, st)) :
    c1.sel_sends = c.sel_sends ∧ c1.sel_recvs = c.sel_recvs := by
  unfold channel_receive_core at h
  split at h
  · simp only [Option.some.injEq, Prod.mk.injEq] at h
    rw [← h.1]
    exact ⟨rfl, rfl⟩
  · cases hs : signal_all c.sel_sends <;>
      simp only [hs, Option.some.injEq, Prod.mk.injEq, reduceCtorEq] at h
    rw [← h.1]
    exact ⟨rfl, rfl⟩

lemma chan_ok_of_lists {c c1 : channel_t} (hok : chan_ok c)
    (hl : c1.sel_sends = c.sel_sends ∧ c1.sel_recvs = c.sel_recvs) : chan_ok c1 := by
  unfold chan_ok
  rw [hl.1, hl.2]
  exact hok

lemma channel_send_loop_cases (cap : Nat) (d : ptr) {c1 : channel_t} {st : channel_status} :
    ∀ (env : List wake) (c : channel_t), channel_send_loop cap d env c = some (c1, st) →
      ∃ c0, (c0 = c ∨ ∃ w, w ∈ env ∧ c0 = w.chan)
        ∧ (c1 = c0 ∨ channel_send_core c0 d = some (c1, st)) := by
  intro env
  induction env with
  | nil =>
    intro c hs
    unfold channel_send_loop at hs
    by_cases hfull : buffer_current_size c.buffer = cap
    · rw [if_pos hfull] at hs
      cases hs
    · rw [if_neg hfull] at hs
      exact ⟨c, Or.inl rfl, Or.inr hs⟩
  | cons w rest ih =>
    intro c hs
    unfold channel_send_loop at hs
    by_cases hfull : buffer_current_size c.buffer = cap
    · rw [if_pos hfull] at hs
      dsimp only at hs
      by_cases hrc : w.rc ≠ 0
      · rw [if_pos hrc] at hs
        simp only [Option.some.injEq, Prod.mk.injEq] at hs
        exact ⟨w.chan, Or.inr ⟨w, List.mem_cons_self _ _, rfl⟩, Or.inl hs.1.symm⟩
      · rw [if_neg hrc] at hs
        by_cases hcl : w.chan.channel_status = false
        · rw [if_pos hcl] at hs
          simp only [Option.some.injEq, Prod.mk.injEq] at hs
          exact ⟨w.chan, Or.inr ⟨w, List.mem_cons_self _ _, rfl⟩, Or.inl hs.1.symm⟩
        · rw [if_neg hcl] at hs
          obtain ⟨c0, hc0, hres⟩ := ih w.chan hs
          refine ⟨c0, Or.inr ?_, hres⟩
          rcases hc0 with rfl | ⟨w1, hw1, rfl⟩
          · exact ⟨w, List.mem_cons_self _ _, rfl⟩
          · exact ⟨w1, List.mem_cons_of_mem _ hw1, rfl⟩
    · rw [if_neg hfull] at hs
      exact ⟨c, Or.inl rfl, Or.inr hs⟩

lemma channel_receive_loop_cases (slot : ptr) {c1 : channel_t} {out : ptr}
    {st : channel_status} :
    ∀ (env : List wake) (c : channel_t), channel_receive_loop slot env c = some (c1, out, st) →
      ∃ c0, (c0 = c ∨ ∃ w, w ∈ env ∧ c0 = w.chan)
        ∧ (c1 = c0 ∨ channel_receive_core c0 slot = some (c1, out, st)) := by
  intro env
  induction env with
  | nil =>
    intro c hs
    unfold channel_receive_loop at hs
    by_cases hempty : buffer_current_size c.buffer = 0
    · rw [if_pos hempty] at hs
      cases hs
    · rw [if_neg hempty] at hs
      exact ⟨c, Or.inl rfl, Or.inr hs⟩
  | cons w rest ih =>
    intro c hs
    unfold channel_receive_loop at hs
    by_cases hempty : buffer_current_size c.buffer = 0
    · rw [if_pos hempty] at hs
      dsimp only at hs
      by_cases hrc : w.rc ≠ 0
      · rw [if_pos hrc] at hs
        simp only [Option.some.injEq, Prod.mk.injEq] at hs
        exact ⟨w.chan, Or.inr ⟨w, List.mem_cons_self _ _, rfl⟩, Or.inl hs.1.symm⟩
      · rw [if_neg hrc] at hs
        by_cases hcl : w.chan.channel_status = false
        · rw [if_pos hcl] at hs
          simp only [Option.some.injEq, Prod.mk.injEq] at hs
          exact ⟨w.chan, Or.inr ⟨w, List.mem_cons_self _ _, rfl⟩, Or.inl hs.1.symm⟩
        · rw [if_neg hcl] at hs
          obtain ⟨c0, hc0, hres⟩ := ih w.chan hs
          refine ⟨c0, Or.inr ?_, hres⟩
          rcases hc0 with rfl | ⟨w1, hw1, rfl⟩
          · exact ⟨w, List.mem_cons_self _ _, rfl⟩
          · exact ⟨w1, List.mem_cons_of_mem _ hw1, rfl⟩
    · rw [if_neg hempty] at hs
      exact ⟨c, Or.inl rfl, Or.inr hs⟩

lemma select_scan_wf (h : heap) (cl : List select_t) (idx : Nat)
    (hok : ∀ p, chan_ok (h p)) :
    ∀ (rest : List select_t) (i : Nat) (r : select_ret),
      select_scan h cl idx i rest = some (some r) → ∀ p, chan_ok (r.chans p) := by
  intro rest
  induction rest with
  | nil =>
    intro i r hs
    simp [select_scan] at hs
  | cons it rest ih =>
    intro i r hs
    obtain ⟨p, dir, d⟩ := it
    cases dir
    · simp only [select_scan] at hs
      by_cases hclosed : (h p).channel_status = false
      · rw [if_pos hclosed] at hs
        simp only [Option.some.injEq] at hs
        subst hs
        exact hok
      · rw [if_neg hclosed] at hs
        by_cases hroom : buffer_current_size (h p).buffer < buffer_capacity (h p).buffer
        · rw [if_pos hroom] at hs
          cases hcore : channel_send_core (h p) d with
          | none => simp [hcore] at hs
          | some cs =>
            obtain ⟨c, st⟩ := cs
            simp only [hcore, Option.some.injEq] at hs
            subst hs
            intro q
            by_cases hq : q = p
            · subst hq
              simpa using chan_ok_of_lists (hok q) (channel_send_core_lists hcore)
            · simpa [Function.update_noteq hq] using hok q
        · rw [if_neg hroom] at hs
          exact ih (i + 1) r hs
    · simp only [select_scan] at hs
      by_cases hclosed : (h p).channel_status = false
      · rw [if_pos hclosed] at hs
        simp only [Option.some.injEq] at hs
        subst hs
        exact hok
      · rw [if_neg hclosed] at hs
        by_cases hsome : 0 < buffer_current_size (h p).buffer
        · rw [if_pos hsome] at hs
          cases hcore : channel_receive_core (h p) d with
          | none => simp [hcore] at hs
          | some cs =>
            obtain ⟨c, out, st⟩ := cs
            simp only [hcore, Option.some.injEq] at hs
            subst hs
            intro q
            by_cases hq : q = p
            · subst hq
              simpa using chan_ok_of_lists (hok q) (channel_receive_core_lists hcore)
            · simpa [Function.update_noteq hq] using hok q
        · rw [if_neg hsome] at hs
          exact ih (i + 1) r hs

lemma round_wf {s : ptr} {h : heap} {cl : List select_t} {idx : Nat} {res : round_result}
    (hr : channel_select_round s h cl idx = some res) (hok : ∀ p, chan_ok (h p)) :
    (∀ r, res = .returned r → ∀ p, chan_ok (r.chans p))
      ∧ (∀ h2, res = .sleeping h2 → ∀ p, chan_ok (h2 p)) := by
  obtain ⟨h1, hc, hpres⟩ := select_cleanup_ok s cl h (fun it _ => hok it.channel)
  have hok1 : ∀ p, chan_ok (h1 p) := fun p => hpres p (hok p)
  unfold channel_select_round at hr
  simp only [hc] at hr
  cases hscan : select_scan h1 cl idx 0 cl with
  | none => simp [hscan] at hr
  | some sres =>
    cases sres with
    | some r1 =>
      simp only [hscan, Option.some.injEq] at hr
      subst hr
      refine ⟨fun r hr1 => ?_, fun h2 hh => by cases hh⟩
      cases hr1
      exact select_scan_wf h1 cl idx hok1 cl 0 r1 hscan
    | none =>
      simp only [hscan] at hr
      cases hreg : select_register s [] cl h1 with
      | none => simp [hreg] at hr
      | some h3 =>
        simp only [hreg, Option.some.injEq] at hr
        subst hr
        refine ⟨fun r hr1 => (by cases hr1), fun h2 hh => ?_⟩
        cases hh
        exact select_register_wf cl hreg hok1

/-- Every reachable channel state has well-formed waiter lists: the validity assumed of the
channels in the properties of the non-blocking operations and of `channel_select`. -/
lemma reachable_chan_ok {c : channel_t} (hreach : Reachable c) : chan_ok c := by
  induction hreach with
  | create capacity _ => exact ⟨list_create_wf, list_create_wf⟩
  | send env c d c1 st _ _ hs ih ihenv =>
    unfold channel_send at hs
    split_ifs at hs
    · simp only [Option.some.injEq, Prod.mk.injEq] at hs
      rw [← hs.1]
      exact ih
    · obtain ⟨c0, hc0, hres⟩ := channel_send_loop_cases _ d env c hs
      have hok0 : chan_ok c0 := by
        rcases hc0 with rfl | ⟨w, hw, rfl⟩
        · exact ih
        · exact ihenv w hw
      rcases hres with rfl | hcore
      · exact hok0
      · exact chan_ok_of_lists hok0 (channel_send_core_lists hcore)
  | receive env c slot c1 out st _ _ hs ih ihenv =>
    unfold channel_receive at hs
    split_ifs at hs
    · simp only [Option.some.injEq, Prod.mk.injEq] at hs
      rw [← hs.1]
      exact ih
    · obtain ⟨c0, hc0, hres⟩ := channel_receive_loop_cases slot env c hs
      have hok0 : chan_ok c0 := by
        rcases hc0 with rfl | ⟨w, hw, rfl⟩
        · exact ih
        · exact ihenv w hw
      rcases hres with rfl | hcore
      · exact hok0
      · exact chan_ok_of_lists hok0 (channel_receive_core_lists hcore)
  | non_blocking_send c d c1 st _ hs ih =>
    unfold channel_non_blocking_send at hs
    split_ifs at hs
    · simp only [Option.some.injEq, Prod.mk.injEq] at hs
      rw [← hs.1]
      exact ih
    · simp only [Option.some.injEq, Prod.mk.injEq] at hs
      rw [← hs.1]
      exact ih
    · exact chan_ok_of_lists ih (channel_send_core_lists hs)
  | non_blocking_receive c slot c1 out st _ hs ih =>
    unfold channel_non_blocking_receive at hs
    split_ifs at hs
    · simp only [Option.some.injEq, Prod.mk.injEq] at hs
      rw [← hs.1]
      exact ih
    · simp only [Option.some.injEq, Prod.mk.injEq] at hs
      rw [← hs.1]
      exact ih
    · exact chan_ok_of_lists ih (channel_receive_core_lists hs)
  | close c c1 st _ hs ih =>
    unfold channel_close at hs
    split_ifs at hs with hclosed
    · simp only [Option.some.injEq, Prod.mk.injEq] at hs
      rw [← hs.1]
      exact ih
    · dsimp only at hs
      cases h1 : signal_all c.sel_recvs <;> cases h2 : signal_all c.sel_sends <;>
        simp only [h1, h2, Option.some.injEq, Prod.mk.injEq, reduceCtorEq] at hs
      rw [← hs.1]
      exact ih
  | select sel_sync env h cl idx r p _ _ hs _ ihsnap =>
    exact (round_wf (select_snapshot_round env h hs) ihsnap).1 r rfl p
  | select_sleep sel_sync h cl idx h2 p _ hs ih =>
    exact (round_wf hs ih).2 h2 rfl p

/-! ## The waiter list refines a sequence -/

lemma update_data_eq (m : ptr → Option list_node_t) (a x : ptr) (n v : list_node_t)
    (hm : m a = some n) (hv : v.data = n.data) :
    (Function.update m a (some v) x).map (fun k => k.data) = (m x).map (fun k => k.data) := by
  by_cases hx : x = a
  · subst hx
    simp [hm, hv]
  · simp [Function.update_noteq hx]

lemma deref_some {m : ptr → Option list_node_t} {p : ptr} {n : list_node_t}
    (h : deref m p = some n) : m p = some n := by
  unfold deref at h
  split_ifs at h
  exact h

lemma list_insert_data {l l1 : list_t} {d n : ptr} (hi : list_insert l d = some (l1, n)) :
    n = l.brk ∧ l1.brk = l.brk + 1 ∧ (l1.node n).map (fun k => k.data) = some d
      ∧ ∀ x, x ≠ n → (l1.node x).map (fun k => k.data) = (l.node x).map (fun k => k.data) := by
  unfold list_insert at hi
  dsimp only at hi
  by_cases hbrk : l.brk = 0 ∨ SIZE_RANGE ≤ l.brk
  · rw [if_pos hbrk] at hi
    cases hi
  · rw [if_neg hbrk] at hi
    by_cases hhead : l.head = 0
    · rw [if_pos hhead] at hi
      simp only [Option.some.injEq, Prod.mk.injEq] at hi
      obtain ⟨hl, hn⟩ := hi
      subst hl hn
      refine ⟨rfl, rfl, by simp, fun x hx => ?_⟩
      simp [Function.update_noteq hx]
    · rw [if_neg hhead] at hi
      cases e1 : deref (Function.update l.node l.brk
          (some { next := 0, prev := 0, data := d })) l.tail with
      | none => simp [e1] at hi
      | some t =>
        simp only [e1] at hi
        cases e2 : deref (Function.update (Function.update l.node l.brk
            (some { next := 0, prev := 0, data := d })) l.tail
            (some { t with next := l.brk })) l.brk with
        | none => simp [e2] at hi
        | some n0 =>
          simp only [e2, Option.some.injEq, Prod.mk.injEq] at hi
          obtain ⟨hl, hn⟩ := hi
          subst hl hn
          have ht := deref_some e1
          have hn0 := deref_some e2
          have hn0d : n0.data = d := by
            by_cases htb : l.brk = l.tail
            · rw [htb, Function.update_same] at hn0
              rw [htb, Function.update_same] at ht
              cases hn0
              cases ht
              rfl
            · rw [Function.update_noteq htb, Function.update_same] at hn0
              cases hn0
              rfl
          refine ⟨rfl, rfl, by simp [hn0d], fun x hx => ?_⟩
          simp only [Function.update_noteq hx]
          by_cases hxt : x = l.tail
          · subst hxt
            rw [Function.update_noteq hx] at ht
            simp [ht]
          · simp [Function.update_noteq hxt, Function.update_noteq hx]

lemma list_remove_data {l l1 : list_t} {a : ptr} (hr : list_remove l a = some l1) :
    l1.brk = l.brk
      ∧ ∀ x, x ≠ a → (l1.node x).map (fun k => k.data) = (l.node x).map (fun k => k.data) := by
  unfold list_remove at hr
  by_cases ha : a = 0
  · rw [if_pos ha] at hr
    cases hr
    exact ⟨rfl, fun _ _ => rfl⟩
  · rw [if_neg ha] at hr
    cases hn : l.node a with
    | none => simp [hn] at hr
    | some n =>
      simp only [hn] at hr
      by_cases hhead : a = l.head
      · rw [if_pos hhead] at hr
        by_cases hnx : n.next ≠ 0
        · rw [if_pos hnx] at hr
          cases hh : l.node n.next with
          | none => simp [hh] at hr
          | some k =>
            simp only [hh, Option.some.injEq] at hr
            subst hr
            refine ⟨rfl, fun x hx => ?_⟩
            simp only [Function.update_noteq hx]
            exact update_data_eq l.node n.next x k { k with prev := 0 } hh rfl
        · rw [if_neg hnx] at hr
          simp only [Option.some.injEq] at hr
          subst hr
          exact ⟨rfl, fun x hx => by simp [Function.update_noteq hx]⟩
      · rw [if_neg hhead] at hr
        by_cases htail : a = l.tail
        · rw [if_pos htail] at hr
          by_cases hpv : n.prev ≠ 0
          · rw [if_pos hpv] at hr
            cases hh : l.node n.prev with
            | none => simp [hh] at hr
            | some k =>
              simp only [hh, Option.some.injEq] at hr
              subst hr
              refine ⟨rfl, fun x hx => ?_⟩
              simp only [Function.update_noteq hx]
              exact update_data_eq l.node n.prev x k { k with next := 0 } hh rfl
          · rw [if_neg hpv] at hr
            simp only [Option.some.injEq] at hr
            subst hr
            exact ⟨rfl, fun x hx => by simp [Function.update_noteq hx]⟩
        · rw [if_neg htail] at hr
          cases e1 : deref l.node n.prev with
          | none => simp [e1] at hr
          | some k =>
            simp only [e1] at hr
            cases e2 : deref (Function.update l.node n.prev (some { k with next := n.next })) a
              with
            | none => simp [e2] at hr
            | some n1 =>
              simp only [e2] at hr
              cases e3 : deref (Function.update l.node n.prev
                  (some { k with next := n.next })) n1.next with
              | none => simp [e3] at hr
              | some y =>
                simp only [e3, Option.some.injEq] at hr
                subst hr
                refine ⟨rfl, fun x hx => ?_⟩
                simp only [Function.update_noteq hx]
                rw [update_data_eq _ n1.next x y { y with prev := n1.prev } (deref_some e3) rfl]
                exact update_data_eq l.node n.prev x k { k with next := n.next } (deref_some e1) rfl

lemma seg_alloc {m : ptr → Option list_node_t} {xs : List ptr} {p q e : ptr}
    (h : seg m p q xs e) : ∀ x ∈ xs, ∃ n, m x = some n := by
  induction xs generalizing p q with
  | nil => intro x hx; cases hx
  | cons a rest ih =>
    obtain ⟨_, _, n, hn, _, hrest⟩ := h
    intro x hx
    rcases List.mem_cons.1 hx with rfl | hx
    · exact ⟨n, hn⟩
    · exact ih hrest x hx

lemma node_data_iff (m : ptr → Option list_node_t) (a d : ptr) :
    (∃ n, m a = some n ∧ n.data = d) ↔ (m a).map (fun k => k.data) = some d := by
  simp [Option.map_eq_some']

lemma list_walk_loop_seg (l : list_t) :
    ∀ (ps : List (ptr × ptr)) (p q : ptr) (fuel : Nat),
      seg l.node p q (ps.map Prod.fst) 0 →
      (∀ pr ∈ ps, ∃ n, l.node pr.1 = some n ∧ n.data = pr.2) → ps.length < fuel →
      list_walk_loop l fuel p = some ps := by
  intro ps
  induction ps with
  | nil =>
    intro p q fuel h _ hfuel
    have hp : p = 0 := h
    subst hp
    cases fuel with
    | zero => exact absurd hfuel (Nat.lt_irrefl _)
    | succ f => simp [list_walk_loop]
  | cons pr rest ih =>
    intro p q fuel h hdata hfuel
    obtain ⟨a, d⟩ := pr
    obtain ⟨hp, ha, n, hn, _, hrest⟩ := h
    have hp1 : p = a := hp
    subst hp1
    have ha1 : p ≠ 0 := ha
    have hn1 : l.node p = some n := hn
    obtain ⟨n2, hn2, hd⟩ := hdata (p, d) (List.mem_cons_self _ _)
    have hn2' : l.node p = some n2 := hn2
    rw [hn1] at hn2'
    cases hn2'
    have hd1 : n.data = d := hd
    cases fuel with
    | zero => exact absurd hfuel (Nat.not_lt_zero _)
    | succ f =>
      have hf : rest.length < f := by simpa using hfuel
      have hrec := ih n.next p f hrest
        (fun x hx => hdata x (List.mem_cons_of_mem _ hx)) hf
      simp [list_walk_loop, ha1, list_data, list_next, hn1, hrec, hd1]

lemma list_walk_repr {l : list_t} {ps : List (ptr × ptr)} (h : list_repr l ps) :
    list_walk l = some ps :=
  list_walk_loop_seg l ps l.head 0 l.brk h.1.chain h.2 (by simpa using h.1.len_lt)

lemma list_repr_unique {l : list_t} {ps ps1 : List (ptr × ptr)} (h : list_repr l ps)
    (h1 : list_repr l ps1) : ps = ps1 := by
  have e := list_walk_repr h
  rw [list_walk_repr h1] at e
  exact (Option.some.inj e).symm

lemma list_ok_to_repr {l : list_t} {xs : List ptr} (h : list_ok l xs) :
    ∃ ps, ps.map Prod.fst = xs ∧ list_repr l ps := by
  have hmap : (xs.map (fun a => (a, ((l.node a).map (fun k => k.data)).getD 0))).map Prod.fst
      = xs := by
    rw [List.map_map]
    exact List.map_id'' (fun _ => rfl) xs
  refine ⟨xs.map (fun a => (a, ((l.node a).map (fun k => k.data)).getD 0)), hmap, ?_, ?_⟩
  · rw [hmap]
    exact h
  · intro pr hpr
    obtain ⟨a, ha, rfl⟩ := List.mem_map.1 hpr
    obtain ⟨n, hn⟩ := seg_alloc h.chain a ha
    exact ⟨n, hn, by simp [hn]⟩

lemma list_create_repr : list_repr list_create [] :=
  ⟨list_create_ok, fun p hp => absurd hp (List.not_mem_nil p)⟩

lemma list_insert_repr {l l1 : list_t} {ps : List (ptr × ptr)} {d n : ptr}
    (h : list_repr l ps) (hi : list_insert l d = some (l1, n)) :
    list_repr l1 (ps ++ [(n, d)]) := by
  obtain ⟨hn, _, hnew, hold⟩ := list_insert_data hi
  refine ⟨?_, fun pr hpr => ?_⟩
  · rw [List.map_append]
    exact list_insert_ok h.1 hi
  · rw [node_data_iff]
    rcases List.mem_append.1 hpr with hpr | hpr
    · have hlt : pr.1 < l.brk := h.1.lt_brk pr.1 (List.mem_map_of_mem _ hpr)
      have hne : pr.1 ≠ n := by
        rw [hn]
        exact Nat.ne_of_lt hlt
      rw [hold pr.1 hne]
      exact (node_data_iff _ _ _).1 (h.2 pr hpr)
    · rw [List.mem_singleton] at hpr
      subst hpr
      exact hnew

lemma list_insert_some {l : list_t} {xs : List ptr} (h : list_ok l xs) (d : ptr)
    (hb : l.brk < SIZE_RANGE) : ∃ r, list_insert l d = some r := by
  have hlen := h.len_lt
  have hb0 : l.brk ≠ 0 := Nat.ne_of_gt (Nat.lt_of_le_of_lt (Nat.zero_le _) hlen)
  have hbrk : ¬ (l.brk = 0 ∨ SIZE_RANGE ≤ l.brk) := by
    rintro (e | e)
    · exact hb0 e
    · exact absurd hb (not_lt.2 e)
  unfold list_insert
  dsimp only
  rw [if_neg hbrk]
  by_cases hhead : l.head = 0
  · rw [if_pos hhead]
    exact ⟨_, rfl⟩
  · rw [if_neg hhead]
    rcases List.eq_nil_or_concat xs with hnil | ⟨pre, t, hcc⟩
    · subst hnil
      exact absurd h.chain hhead
    · rw [List.concat_eq_append] at hcc
      subst hcc
      have htail : l.tail = t := by simpa using h.tail_eq
      obtain ⟨nt, hnt⟩ := seg_alloc h.chain t (by simp)
      have ht0 : t ≠ 0 := seg_ne_zero h.chain t (by simp)
      have htb : t ≠ l.brk := Nat.ne_of_lt (h.lt_brk t (by simp))
      have e1 : deref (Function.update l.node l.brk
          (some { next := 0, prev := 0, data := d })) l.tail = some nt := by
        rw [htail]
        simp [deref, ht0, Function.update_apply, htb, hnt]
      rw [e1]
      dsimp only
      have e2 : deref (Function.update (Function.update l.node l.brk
          (some { next := 0, prev := 0, data := d })) l.tail
          (some { nt with next := l.brk })) l.brk
          = some { next := 0, prev := 0, data := d } := by
        rw [htail]
        simp [deref, hb0, Function.update_apply, htb.symm]
      rw [e2]
      exact ⟨_, rfl⟩

lemma list_remove_repr_split {l : list_t} {pre post : List (ptr × ptr)} {a d : ptr}
    (h : list_repr l (pre ++ (a, d) :: post)) :
    ∃ l1, list_remove l a = some l1 ∧ list_repr l1 (pre ++ post) ∧ l1.brk = l.brk := by
  have hok : list_ok l (pre.map Prod.fst ++ a :: post.map Prod.fst) := by
    simpa [List.map_append] using h.1
  obtain ⟨l1, hr, hok1⟩ := list_remove_split hok
  obtain ⟨hbrk, hold⟩ := list_remove_data hr
  refine ⟨l1, hr, ⟨by simpa [List.map_append] using hok1, fun pr hpr => ?_⟩, hbrk⟩
  have hnd := hok.nodup
  have hne : pr.1 ≠ a := by
    obtain ⟨_, hnd2, hdisj⟩ := List.nodup_append.1 hnd
    rcases List.mem_append.1 hpr with hpr | hpr
    · intro e
      exact hdisj (List.mem_map_of_mem Prod.fst hpr) (e ▸ List.mem_cons_self _ _)
    · intro e
      exact (List.nodup_cons.1 hnd2).1 (e ▸ List.mem_map_of_mem Prod.fst hpr)
  rw [node_data_iff, hold pr.1 hne]
  refine (node_data_iff _ _ _).1 (h.2 pr ?_)
  rcases List.mem_append.1 hpr with hpr | hpr
  · exact List.mem_append_left _ hpr
  · exact List.mem_append_right _ (List.mem_cons_of_mem _ hpr)

lemma first_with_repr (m : ptr → Option list_node_t) (d : ptr) :
    ∀ ps : List (ptr × ptr), (∀ pr ∈ ps, ∃ n, m pr.1 = some n ∧ n.data = pr.2) →
      first_with m d (ps.map Prod.fst) = spec_find ps d := by
  intro ps
  induction ps with
  | nil => intro _; rfl
  | cons pr rest ih =>
    intro hdata
    obtain ⟨a, da⟩ := pr
    have hrest := ih (fun x hx => hdata x (List.mem_cons_of_mem _ hx))
    have ha := (node_data_iff m a da).1 (hdata (a, da) (List.mem_cons_self _ _))
    simp only [List.map_cons, first_with, ha, Option.some.injEq]
    by_cases hd : da = d
    · simp [spec_find, hd]
    · rw [if_neg hd, hrest]
      simp [spec_find, List.find?_cons, hd]

lemma list_find_repr {l : list_t} {ps : List (ptr × ptr)} (h : list_repr l ps) (d : ptr) :
    list_find l d = some (spec_find ps d) := by
  rw [list_find_ok h.1 d, first_with_repr l.node d ps h.2]

lemma split_at_pos {α : Type} :
    ∀ (ps : List α) (pos : Nat), pos < ps.length →
      ∃ pre x post, ps = pre ++ x :: post ∧ pre.length = pos := by
  intro ps
  induction ps with
  | nil => intro pos h; exact absurd h (Nat.not_lt_zero _)
  | cons y rest ih =>
    intro pos h
    cases pos with
    | zero => exact ⟨[], y, rest, rfl, rfl⟩
    | succ k =>
      obtain ⟨pre, x, post, hs, hl⟩ := ih k (by simpa using h)
      exact ⟨y :: pre, x, post, by rw [hs]; rfl, by simp [hl]⟩

lemma getD_append_cons_length {α : Type} (pre : List α) (x : α) (post : List α) (d : α) :
    (pre ++ x :: post).getD pre.length d = x := by
  induction pre with
  | nil => rfl
  | cons y pre ih => simpa using ih

lemma eraseIdx_append_cons_length {α : Type} (pre : List α) (x : α) (post : List α) :
    (pre ++ x :: post).eraseIdx pre.length = pre ++ post := by
  induction pre with
  | nil => rfl
  | cons y pre ih => simp [ih]

lemma eraseIdx_out_of_range {α : Type} :
    ∀ (ps : List α) (pos : Nat), ps.length ≤ pos → ps.eraseIdx pos = ps := by
  intro ps
  induction ps with
  | nil => intro pos _; rfl
  | cons y rest ih =>
    intro pos h
    cases pos with
    | zero => simp at h
    | succ k => simp [ih k (by simpa using h)]

lemma getD_out_of_range {α : Type} :
    ∀ (ps : List α) (pos : Nat) (d : α), ps.length ≤ pos → ps.getD pos d = d := by
  intro ps
  induction ps with
  | nil => intro pos d _; rfl
  | cons y rest ih =>
    intro pos d h
    cases pos with
    | zero => simp at h
    | succ k => simpa using ih k d (by simpa using h)

/-- One call keeps the linked list a representation of the specification's sequence. -/
lemma list_step_repr {l : list_t} {ps : List (ptr × ptr)} (h : list_repr l ps) (op : list_op)
    (hb : l.brk < SIZE_RANGE) :
    ∃ l1 ps1, list_step op l = some l1 ∧ list_repr l1 ps1
      ∧ ps1.map Prod.snd = spec_step op (ps.map Prod.snd) ∧ l1.brk ≤ l.brk + 1 := by
  cases op with
  | insert d =>
    obtain ⟨⟨l1, n⟩, hi⟩ := list_insert_some h.1 d hb
    refine ⟨l1, ps ++ [(n, d)], by simp [list_step, hi], list_insert_repr h hi, ?_, ?_⟩
    · simp [spec_step]
    · rw [(list_insert_data hi).2.1]
  | remove pos =>
    have hwalk := list_walk_repr h
    by_cases hpos : pos < ps.length
    · obtain ⟨pre, x, post, hs, hl⟩ := split_at_pos ps pos hpos
      obtain ⟨a, d⟩ := x
      subst hs
      obtain ⟨l1, hr, hrep, hbrk⟩ := list_remove_repr_split h
      have hnode : ((pre ++ (a, d) :: post).map Prod.fst).getD pos 0 = a := by
        have := getD_append_cons_length (pre.map Prod.fst) a (post.map Prod.fst) 0
        simpa [List.map_append, hl] using this
      refine ⟨l1, pre ++ post, by simp only [list_step, hwalk, hnode, hr], hrep, ?_, ?_⟩
      · have := eraseIdx_append_cons_length (pre.map Prod.snd) d (post.map Prod.snd)
        simpa [spec_step, List.map_append, hl] using this.symm
      · rw [hbrk]
        exact Nat.le_succ _
    · have hle : ps.length ≤ pos := not_lt.1 hpos
      have hnode : (ps.map Prod.fst).getD pos 0 = 0 :=
        getD_out_of_range _ pos 0 (by simpa using hle)
      have hrm : list_remove l 0 = some l := by simp [list_remove]
      refine ⟨l, ps, by simp only [list_step, hwalk, hnode, hrm], h, ?_, Nat.le_succ _⟩
      simp only [spec_step]
      exact (eraseIdx_out_of_range _ pos (by simpa using hle)).symm

lemma fit_head (b k s : Nat) (h : b + (k + 1) ≤ s) : b < s := by omega

lemma fit_tail (b b1 k s : Nat) (h : b + (k + 1) ≤ s) (h1 : b1 ≤ b + 1) : b1 + k ≤ s := by
  omega

lemma list_run_repr (ops : List list_op) :
    ∀ (l : list_t) (ps : List (ptr × ptr)), list_repr l ps →
      l.brk + ops.length ≤ SIZE_RANGE →
      ∃ l1 ps1, list_run ops l = some l1 ∧ list_repr l1 ps1
        ∧ ps1.map Prod.snd = spec_run ops (ps.map Prod.snd) := by
  induction ops with
  | nil => exact fun l ps h _ => ⟨l, ps, rfl, h, rfl⟩
  | cons op rest ih =>
    intro l ps h hfit
    simp only [List.length_cons] at hfit
    obtain ⟨l1, ps1, hstep, hrep, hspec, hbrk⟩ := list_step_repr h op (fit_head _ _ _ hfit)
    obtain ⟨l2, ps2, hrun, hrep2, hspec2⟩ := ih l1 ps1 hrep (fit_tail _ _ _ _ hfit hbrk)
    exact ⟨l2, ps2, by simp [list_run, hstep, hrun], hrep2, by rw [hspec2, hspec]; rfl⟩

/-- C14: the waiter list refines a sequence.  For every sequence of `list_insert` and
`list_remove` calls (the removed node being the one at any position of the list: head, tail,
middle or the only node) starting from `list_create`, the calls return and walking from
`list_head` via `list_next` yields pairwise distinct, non-`NULL` nodes whose data are the inserted
data in insertion order with the removed ones deleted; `list_head` is the first and `list_tail`
the last of these nodes (`NULL` when there is none), `list_count` is their number and
`list_find(data)` returns the first node in that order whose data pointer equals the argument,
`NULL` when there is none.  The calls are fewer than the `size_t` range, so `malloc` does not
run out of addresses. -/
theorem C14_list_refines_sequence (ops : List list_op) (hfit : ops.length < SIZE_RANGE) :
    ∃ l ps, list_run ops list_create = some l
      ∧ list_walk l = some ps
      ∧ ps.map Prod.snd = spec_run ops []
      ∧ (ps.map Prod.fst).Nodup ∧ (∀ p ∈ ps, p.1 ≠ 0)
      ∧ list_head l = (ps.map Prod.fst).headD 0
      ∧ list_tail l = (ps.map Prod.fst).getLastD 0
      ∧ list_count l = ps.length
      ∧ ∀ data, list_find l data = some (spec_find ps data) := by
  obtain ⟨l, ps, hrun, hrep, hspec⟩ := list_run_repr ops list_create [] list_create_repr
    (by
      show 1 + ops.length ≤ SIZE_RANGE
      rw [Nat.add_comm]
      exact hfit)
  refine ⟨l, ps, hrun, list_walk_repr hrep, hspec, hrep.1.nodup, fun p hp => ?_, ?_,
    hrep.1.tail_eq, ?_, fun d => list_find_repr hrep d⟩
  · exact seg_ne_zero hrep.1.chain p.1 (List.mem_map_of_mem _ hp)
  · have hchain := hrep.1.chain
    cases hps : ps.map Prod.fst with
    | nil =>
      rw [hps] at hchain
      exact hchain
    | cons a rest =>
      rw [hps] at hchain
      exact hchain.1
  · rw [list_count, hrep.1.count_eq, List.length_map]

/-- Witness of C14: three inserts, removal of the middle node, an insert, removal of the head,
removal of the tail and removal of the only node left. -/
theorem C14_list_refines_sequence_witness :
    (∃ l ps, list_run [.insert 10, .insert 20, .insert 30, .remove 1, .insert 40, .remove 0,
          .remove 1, .remove 0] list_create = some l
        ∧ list_walk l = some ps
        ∧ ps.map Prod.snd = spec_run [.insert 10, .insert 20, .insert 30, .remove 1, .insert 40,
            .remove 0, .remove 1, .remove 0] []
        ∧ (ps.map Prod.fst).Nodup ∧ (∀ p ∈ ps, p.1 ≠ 0)
        ∧ list_head l = (ps.map Prod.fst).headD 0
        ∧ list_tail l = (ps.map Prod.fst).getLastD 0
        ∧ list_count l = ps.length
        ∧ ∀ data, list_find l data = some (spec_find ps data))
      ∧ (list_run [.insert 10, .insert 20, .insert 30, .remove 1, .insert 40] list_create).map
          (fun l => (list_walk l, list_head l, list_tail l, list_count l, list_find l 30,
            list_find l 20))
          = some (some [(1, 10), (3, 30), (4, 40)], 1, 4, 3, some 3, some 0) :=
  ⟨C14_list_refines_sequence [.insert 10, .insert 20, .insert 30, .remove 1, .insert 40,
      .remove 0, .remove 1, .remove 0] (by norm_num [SIZE_RANGE]),
    rfl⟩

/-! ## Inserts and the channel locks -/

lemma lock_events_held :
    ∀ (rest seen : List select_t) (held : List ptr),
      (∀ x ∈ seen, x.channel ∈ held) →
      ∃ held1, (∀ x ∈ seen ++ rest, x.channel ∈ held1)
        ∧ ∀ es, inserts_locked held (lock_events seen rest ++ es) = inserts_locked held1 es := by
  intro rest
  induction rest with
  | nil =>
    intro seen held hseen
    exact ⟨held, by simpa using hseen, fun es => rfl⟩
  | cons it rest ih =>
    intro seen held hseen
    by_cases hdup : seen.any (fun j => decide (j.channel = it.channel)) = true
    · have hit : it.channel ∈ held := by
        obtain ⟨j, hj, hc⟩ := List.any_eq_true.1 hdup
        have hc1 : j.channel = it.channel := of_decide_eq_true hc
        exact hc1 ▸ hseen j hj
      obtain ⟨held1, hall, hev⟩ := ih (seen ++ [it]) held (fun x hx => by
        rcases List.mem_append.1 hx with hx | hx
        · exact hseen x hx
        · rw [List.mem_singleton] at hx
          exact hx ▸ hit)
      refine ⟨held1, by simpa using hall, fun es => ?_⟩
      simp only [lock_events, hdup, if_true, List.nil_append]
      exact hev es
    · obtain ⟨held1, hall, hev⟩ := ih (seen ++ [it]) (it.channel :: held) (fun x hx => by
        rcases List.mem_append.1 hx with hx | hx
        · exact List.mem_cons_of_mem _ (hseen x hx)
        · rw [List.mem_singleton] at hx
          exact hx ▸ List.mem_cons_self _ _)
      refine ⟨held1, by simpa using hall, fun es => ?_⟩
      simp only [lock_events, hdup, List.cons_append, List.nil_append, inserts_locked]
      exact hev es

lemma unlock_events_locked :
    ∀ (rest seen : List select_t) (held : List ptr),
      inserts_locked held (unlock_events seen rest) = true := by
  intro rest
  induction rest with
  | nil => intro seen held; rfl
  | cons it rest ih =>
    intro seen held
    by_cases hdup : seen.any (fun j => decide (j.channel = it.channel)) = true
    · simp only [unlock_events, hdup, if_true, List.nil_append]
      exact ih _ _
    · simp only [unlock_events, hdup, List.cons_append, List.nil_append, inserts_locked]
      exact ih _ _

lemma register_events_locked :
    ∀ (rest seen : List select_t) (held : List ptr),
      (∀ a ∈ seen ++ rest, ∀ b ∈ seen ++ rest, a.channel = b.channel → a.dir = b.dir) →
      (∀ x ∈ rest, (∀ j ∈ seen, j.channel ≠ x.channel) → x.channel ∈ held) →
      inserts_locked held (register_events seen rest) = true := by
  intro rest
  induction rest with
  | nil => intro seen held _ _; rfl
  | cons it rest ih =>
    intro seen held hdir hheld
    have hdir1 : ∀ a ∈ (seen ++ [it]) ++ rest, ∀ b ∈ (seen ++ [it]) ++ rest,
        a.channel = b.channel → a.dir = b.dir := by
      simpa using hdir
    by_cases hdupc : seen.any (fun j => decide (j.channel = it.channel)) = true
    · have hdupcd : seen.any (fun j => decide (j.channel = it.channel ∧ j.dir = it.dir))
          = true := by
        obtain ⟨j, hj, hc⟩ := List.any_eq_true.1 hdupc
        have hc1 : j.channel = it.channel := of_decide_eq_true hc
        have hd : j.dir = it.dir :=
          hdir j (List.mem_append_left _ hj) it
            (List.mem_append_right _ (List.mem_cons_self _ _)) hc1
        exact List.any_eq_true.2 ⟨j, hj, decide_eq_true ⟨hc1, hd⟩⟩
      simp only [register_events, hdupc, hdupcd, if_true, List.nil_append]
      refine ih (seen ++ [it]) held hdir1 (fun x hx hnew => ?_)
      exact hheld x (List.mem_cons_of_mem _ hx)
        (fun j hj => hnew j (List.mem_append_left _ hj))
    · have hfirst : ∀ j ∈ seen, j.channel ≠ it.channel := by
        intro j hj e
        exact hdupc (List.any_eq_true.2 ⟨j, hj, decide_eq_true e⟩)
      have hdupcd : ¬ seen.any (fun j => decide (j.channel = it.channel ∧ j.dir = it.dir))
          = true := by
        intro hcd
        obtain ⟨j, hj, hc⟩ := List.any_eq_true.1 hcd
        exact hfirst j hj (of_decide_eq_true hc).1
      have hit : it.channel ∈ held := hheld it (List.mem_cons_self _ _) hfirst
      simp only [register_events, hdupc, hdupcd, List.cons_append, List.nil_append,
        inserts_locked, hit, decide_True, Bool.true_and]
      refine ih (seen ++ [it]) (held.erase it.channel) hdir1 (fun x hx hnew => ?_)
      have hne : x.channel ≠ it.channel := fun e =>
        hnew it (List.mem_append_right _ (List.mem_singleton_self _)) e.symm
      exact (List.mem_erase_of_ne hne).2
        (hheld x (List.mem_cons_of_mem _ hx) (fun j hj => hnew j (List.mem_append_left _ hj)))

/-- On channels of positive capacity a vector naming one channel with both directions always has
a feasible intent, so a pass that reaches the registration loop inserts on each channel only at
its first intent, before that channel is unlocked.  Every insert of every pass then happens with
the channel lock held. -/
lemma inserts_locked_of_positive_capacity (sel_sync : ptr) (h : heap)
    (channel_list : List select_t) (selected_index : Nat) (evs : List sel_event)
    (hcap : ∀ it ∈ channel_list, 0 < buffer_capacity (h it.channel).buffer)
    (hev : channel_select_round_events sel_sync h channel_list selected_index = some evs) :
    inserts_locked [] evs = true := by
  obtain ⟨held1, hall, hlock⟩ := lock_events_held channel_list [] []
    (fun x hx => absurd hx (List.not_mem_nil x))
  unfold channel_select_round_events at hev
  cases hr : channel_select_round sel_sync h channel_list selected_index with
  | none => simp [hr] at hev
  | some res =>
    cases res with
    | returned r =>
      simp only [hr, Option.some.injEq] at hev
      rw [← hev, hlock]
      exact unlock_events_locked _ _ _
    | sleeping h2 =>
      simp only [hr, Option.some.injEq] at hev
      rw [← hev, hlock]
      have hinf := (round_sleeping hr).2
      refine register_events_locked channel_list [] held1 (fun a ha b hb hc => ?_)
        (fun x hx _ => hall x (by simpa using hx))
      have ha1 : a ∈ channel_list := by simpa using ha
      have hb1 : b ∈ channel_list := by simpa using hb
      have hfa := (hinf a ha1).2
      have hfb := (hinf b hb1).2
      have hcapa := hcap a ha1
      unfold feasible at hfa hfb
      rw [← hc] at hfb
      cases hda : a.dir <;> cases hdb : b.dir
      · rfl
      · exfalso
        simp only [hda, hdb, true_and, false_and, or_false, false_or, reduceCtorEq] at hfa hfb
        omega
      · exfalso
        simp only [hda, hdb, true_and, false_and, or_false, false_or, reduceCtorEq] at hfa hfb
        omega
      · rfl

/-! ## The select's record: registered once, gone on return -/

lemma occurrences_repr {l : list_t} {ps : List (ptr × ptr)} (h : list_repr l ps) (s : ptr) :
    occurrences s l = (ps.map Prod.snd).count s := by
  unfold occurrences
  rw [list_walk_repr h]
  rfl

lemma spec_find_none {ps : List (ptr × ptr)} {s : ptr}
    (h : ps.find? (fun p => decide (p.2 = s)) = none) : (ps.map Prod.snd).count s = 0 := by
  rw [List.count_eq_zero]
  intro hmem
  obtain ⟨pr, hpr, hs⟩ := List.mem_map.1 hmem
  have := List.find?_eq_none.1 h pr hpr
  simp [hs] at this

/-- The find-and-remove of the waiter cleanup on one list: when the record is not found it does
not occur in the list, and when it is found the removal takes one occurrence away. -/
lemma list_find_remove_occ {l : list_t} (h : list_wf l) (s : ptr) :
    ∃ node, list_find l s = some node
      ∧ (node = 0 → occurrences s l = 0)
      ∧ (node ≠ 0 → ∃ l1, list_remove l node = some l1 ∧ list_wf l1
          ∧ occurrences s l1 + 1 = occurrences s l) := by
  obtain ⟨xs, hok⟩ := h
  obtain ⟨ps, _, hrep⟩ := list_ok_to_repr hok
  refine ⟨spec_find ps s, list_find_repr hrep s, ?_, ?_⟩
  · intro h0
    rw [occurrences_repr hrep]
    cases hf : ps.find? (fun p => decide (p.2 = s)) with
    | none => exact spec_find_none hf
    | some pr =>
      exfalso
      have hmem := List.mem_of_find?_eq_some hf
      simp only [spec_find, hf] at h0
      exact seg_ne_zero hrep.1.chain pr.1 (List.mem_map_of_mem _ hmem) h0
  · intro hne
    cases hf : ps.find? (fun p => decide (p.2 = s)) with
    | none => simp [spec_find, hf] at hne
    | some pr =>
      have hmem := List.mem_of_find?_eq_some hf
      have hs : pr.2 = s := by simpa using List.find?_some hf
      have hnode : spec_find ps s = pr.1 := by simp [spec_find, hf]
      obtain ⟨pre, post, hsplit, _⟩ := List.eq_append_cons_of_mem hmem
      obtain ⟨a, d⟩ := pr
      subst hsplit
      obtain ⟨l1, hr, hrep1, _⟩ := list_remove_repr_split hrep
      rw [hnode]
      refine ⟨l1, hr, ⟨_, hrep1.1⟩, ?_⟩
      rw [occurrences_repr hrep1, occurrences_repr hrep]
      have hd : d = s := hs
      subst hd
      simp [List.count_append, List.count_cons]
      omega

lemma list_insert_occ {l l1 : list_t} {s n : ptr} (h : list_wf l)
    (hi : list_insert l s = some (l1, n)) :
    list_wf l1 ∧ ∀ r, occurrences r l1 = occurrences r l + (if r = s then 1 else 0) := by
  obtain ⟨xs, hok⟩ := h
  obtain ⟨ps, _, hrep⟩ := list_ok_to_repr hok
  have hrep1 := list_insert_repr hrep hi
  refine ⟨⟨_, hrep1.1⟩, fun r => ?_⟩
  rw [occurrences_repr hrep1, occurrences_repr hrep]
  by_cases hr : r = s
  · subst hr
    simp [List.count_append]
  · have hsr : ¬ s = r := fun e => hr e.symm
    simp [List.count_append, List.count_cons, hr, hsr]

lemma waiter_list_update_sends (h : heap) (p : ptr) (l : list_t) (q : ptr) (dir : direction) :
    waiter_list (Function.update h p { h p with sel_sends := l } q) dir
      = if q = p ∧ dir = .SEND then l else waiter_list (h q) dir := by
  by_cases hq : q = p
  · subst hq
    cases dir <;> simp [waiter_list]
  · simp [Function.update_noteq hq, hq]

lemma waiter_list_update_recvs (h : heap) (p : ptr) (l : list_t) (q : ptr) (dir : direction) :
    waiter_list (Function.update h p { h p with sel_recvs := l } q) dir
      = if q = p ∧ dir = .RECV then l else waiter_list (h q) dir := by
  by_cases hq : q = p
  · subst hq
    cases dir <;> simp [waiter_list]
  · simp [Function.update_noteq hq, hq]

/-- One iteration of the waiter cleanup takes one occurrence of the record out of the list of
the intent's channel and direction and leaves every other list alone. -/
lemma select_cleanup_step_occ {s : ptr} {h h1 : heap} {it : select_t}
    (hok : chan_ok (h it.channel)) (hs : select_cleanup_step s h it = some h1) :
    ∀ p dir, occurrences s (waiter_list (h1 p) dir)
      = if p = it.channel ∧ dir = it.dir then occurrences s (waiter_list (h p) dir) - 1
        else occurrences s (waiter_list (h p) dir) := by
  obtain ⟨c, d0, dat⟩ := it
  dsimp only at hok
  cases d0
  · obtain ⟨node, hf, h0, hrm⟩ := list_find_remove_occ hok.1 s
    simp only [select_cleanup_step, hf] at hs
    by_cases hn : node = 0
    · simp only [hn, ne_eq, not_true_eq_false, if_false, Option.some.injEq] at hs
      subst hs
      intro p dir
      by_cases hpd : p = c ∧ dir = .SEND
      · obtain ⟨hp, hd⟩ := hpd
        subst hp hd
        simp [waiter_list, h0 hn]
      · simp [hpd]
    · obtain ⟨l1, hr, _, hocc⟩ := hrm hn
      simp only [ne_eq, hn, not_false_eq_true, if_true, hr, Option.some.injEq] at hs
      subst hs
      intro p dir
      rw [waiter_list_update_sends]
      by_cases hpd : p = c ∧ dir = .SEND
      · obtain ⟨hp, hd⟩ := hpd
        subst hp hd
        simp only [and_self, if_true, waiter_list]
        omega
      · simp [hpd]
  · obtain ⟨node, hf, h0, hrm⟩ := list_find_remove_occ hok.2 s
    simp only [select_cleanup_step, hf] at hs
    by_cases hn : node = 0
    · simp only [hn, ne_eq, not_true_eq_false, if_false, Option.some.injEq] at hs
      subst hs
      intro p dir
      by_cases hpd : p = c ∧ dir = .RECV
      · obtain ⟨hp, hd⟩ := hpd
        subst hp hd
        simp [waiter_list, h0 hn]
      · simp [hpd]
    · obtain ⟨l1, hr, _, hocc⟩ := hrm hn
      simp only [ne_eq, hn, not_false_eq_true, if_true, hr, Option.some.injEq] at hs
      subst hs
      intro p dir
      rw [waiter_list_update_recvs]
      by_cases hpd : p = c ∧ dir = .RECV
      · obtain ⟨hp, hd⟩ := hpd
        subst hp hd
        simp only [and_self, if_true, waiter_list]
        omega
      · simp [hpd]

lemma names_cons (it : select_t) (rest : List select_t) (p : ptr) (dir : direction) :
    names (it :: rest) p dir = true
      ↔ (it.channel = p ∧ it.dir = dir) ∨ names rest p dir = true := by
  simp [names]

lemma names_append_singleton (seen : List select_t) (it : select_t) (p : ptr)
    (dir : direction) :
    names (seen ++ [it]) p dir = true
      ↔ names seen p dir = true ∨ (it.channel = p ∧ it.dir = dir) := by
  simp [names]

/-- The waiter cleanup never adds the record, and it leaves no occurrence in a list named by
the vector that held the record at most once. -/
lemma select_cleanup_occ {s : ptr} (rest : List select_t) :
    ∀ {h h1 : heap}, (∀ p, chan_ok (h p)) → select_cleanup s rest h = some h1 →
      ∀ p dir, occurrences s (waiter_list (h1 p) dir) ≤ occurrences s (waiter_list (h p) dir)
        ∧ (names rest p dir = true → occurrences s (waiter_list (h p) dir) ≤ 1 →
            occurrences s (waiter_list (h1 p) dir) = 0) := by
  induction rest with
  | nil =>
    intro h h1 _ hs
    simp only [select_cleanup, Option.some.injEq] at hs
    subst hs
    intro p dir
    exact ⟨Nat.le_refl _, fun hn _ => by simp [names] at hn⟩
  | cons it rest ih =>
    intro h h1 hok hs
    simp only [select_cleanup] at hs
    obtain ⟨h2, hstep, hpres⟩ := select_cleanup_step_ok s h it (hok it.channel)
    simp only [hstep] at hs
    have hocc := select_cleanup_step_occ (hok it.channel) hstep
    have hrest := ih (fun p => hpres p (hok p)) hs
    intro p dir
    obtain ⟨hle, hzero⟩ := hrest p dir
    have h2occ := hocc p dir
    by_cases hpd : p = it.channel ∧ dir = it.dir
    · rw [if_pos hpd] at h2occ
      refine ⟨by omega, fun _ h1le => ?_⟩
      omega
    · rw [if_neg hpd] at h2occ
      refine ⟨by omega, fun hn h1le => ?_⟩
      rcases (names_cons it rest p dir).1 hn with hit | hn
      · exact absurd ⟨hit.1.symm, hit.2.symm⟩ hpd
      · exact hzero hn (by omega)

lemma select_scan_lists (h : heap) (cl : List select_t) (idx : Nat) :
    ∀ (rest : List select_t) (i : Nat) (r : select_ret),
      select_scan h cl idx i rest = some (some r) →
      ∀ p dir, waiter_list (r.chans p) dir = waiter_list (h p) dir := by
  intro rest
  induction rest with
  | nil =>
    intro i r hs
    simp [select_scan] at hs
  | cons it rest ih =>
    intro i r hs
    obtain ⟨c, d0, dat⟩ := it
    cases d0
    · simp only [select_scan] at hs
      by_cases hclosed : (h c).channel_status = false
      · rw [if_pos hclosed] at hs
        simp only [Option.some.injEq] at hs
        subst hs
        exact fun _ _ => rfl
      · rw [if_neg hclosed] at hs
        by_cases hroom : buffer_current_size (h c).buffer < buffer_capacity (h c).buffer
        · rw [if_pos hroom] at hs
          cases hcore : channel_send_core (h c) dat with
          | none => simp [hcore] at hs
          | some cs =>
            obtain ⟨c1, st⟩ := cs
            simp only [hcore, Option.some.injEq] at hs
            subst hs
            have hl := channel_send_core_lists hcore
            intro p dir
            by_cases hp : p = c
            · subst hp
              cases dir <;> simp [waiter_list, hl.1, hl.2]
            · simp [Function.update_noteq hp]
        · rw [if_neg hroom] at hs
          exact ih (i + 1) r hs
    · simp only [select_scan] at hs
      by_cases hclosed : (h c).channel_status = false
      · rw [if_pos hclosed] at hs
        simp only [Option.some.injEq] at hs
        subst hs
        exact fun _ _ => rfl
      · rw [if_neg hclosed] at hs
        by_cases hsome : 0 < buffer_current_size (h c).buffer
        · rw [if_pos hsome] at hs
          cases hcore : channel_receive_core (h c) dat with
          | none => simp [hcore] at hs
          | some cs =>
            obtain ⟨c1, out, st⟩ := cs
            simp only [hcore, Option.some.injEq] at hs
            subst hs
            have hl := channel_receive_core_lists hcore
            intro p dir
            by_cases hp : p = c
            · subst hp
              cases dir <;> simp [waiter_list, hl.1, hl.2]
            · simp [Function.update_noteq hp]
        · rw [if_neg hsome] at hs
          exact ih (i + 1) r hs

/-- The registration loop adds the record exactly once to each list named by the intents still
to visit and not named by an intent already visited, and to no other list. -/
lemma select_register_occ {s : ptr} (rest : List select_t) :
    ∀ {seen : List select_t} {h h2 : heap}, (∀ p, chan_ok (h p)) →
      select_register s seen rest h = some h2 →
      ∀ p dir, occurrences s (waiter_list (h2 p) dir)
        = occurrences s (waiter_list (h p) dir)
          + (if names rest p dir = true ∧ ¬ names seen p dir = true then 1 else 0) := by
  induction rest with
  | nil =>
    intro seen h h2 _ hs
    simp only [select_register, Option.some.injEq] at hs
    subst hs
    intro p dir
    simp [names]
  | cons it rest ih =>
    intro seen h h2 hok hs
    simp only [select_register] at hs
    by_cases hdup : seen.any (fun j => decide (j.channel = it.channel ∧ j.dir = it.dir)) = true
    · rw [if_pos hdup] at hs
      have hdup1 : names seen it.channel it.dir = true := hdup
      intro p dir
      rw [ih hok hs p dir]
      have key : (names rest p dir = true ∧ ¬ names (seen ++ [it]) p dir = true)
          ↔ (names (it :: rest) p dir = true ∧ ¬ names seen p dir = true) := by
        rw [names_cons, names_append_singleton]
        constructor
        · rintro ⟨hr, hn⟩
          exact ⟨Or.inr hr, fun hs1 => hn (Or.inl hs1)⟩
        · rintro ⟨hr, hn⟩
          have hne : ¬ (it.channel = p ∧ it.dir = dir) := by
            rintro ⟨hc, hd⟩
            rw [hc, hd] at hdup1
            exact hn hdup1
          rcases hr with hr | hr
          · exact absurd hr hne
          · exact ⟨hr, fun hs1 => hs1.elim hn hne⟩
      simp only [key]
    · rw [if_neg hdup] at hs
      have hdup1 : ¬ names seen it.channel it.dir = true := hdup
      obtain ⟨c, d0, dat⟩ := it
      dsimp only at hs hdup1
      have hstep : ∀ (l : list_t) (h1 : heap), list_wf (waiter_list (h c) d0) →
          (∃ n, list_insert (waiter_list (h c) d0) s = some (l, n)) →
          (∀ p, chan_ok (h1 p)) →
          (∀ p dir, waiter_list (h1 p) dir
            = if p = c ∧ dir = d0 then l else waiter_list (h p) dir) →
          select_register s (seen ++ [⟨c, d0, dat⟩]) rest h1 = some h2 →
          ∀ p dir, occurrences s (waiter_list (h2 p) dir)
            = occurrences s (waiter_list (h p) dir)
              + (if names (⟨c, d0, dat⟩ :: rest) p dir = true ∧ ¬ names seen p dir = true
                  then 1 else 0) := by
        intro l h1 hwf hins hok1 hlists hs1 p dir
        obtain ⟨n, hi⟩ := hins
        have hocc := (list_insert_occ hwf hi).2 s
        rw [ih hok1 hs1 p dir, hlists p dir]
        by_cases hpd : p = c ∧ dir = d0
        · obtain ⟨hp, hd⟩ := hpd
          subst hp hd
          have h1' : names (seen ++ [⟨p, dir, dat⟩]) p dir = true :=
            (names_append_singleton _ _ _ _).2 (Or.inr ⟨rfl, rfl⟩)
          have h2' : names (⟨p, dir, dat⟩ :: rest) p dir = true :=
            (names_cons _ _ _ _).2 (Or.inl ⟨rfl, rfl⟩)
          simp [hocc, h1', h2', hdup1]
        · rw [if_neg hpd]
          have key : (names rest p dir = true ∧ ¬ names (seen ++ [⟨c, d0, dat⟩]) p dir = true)
              ↔ (names (⟨c, d0, dat⟩ :: rest) p dir = true ∧ ¬ names seen p dir = true) := by
            rw [names_cons, names_append_singleton]
            have hne : ¬ (c = p ∧ d0 = dir) := fun e => hpd ⟨e.1.symm, e.2.symm⟩
            constructor
            · rintro ⟨hr, hn⟩
              exact ⟨Or.inr hr, fun hs2 => hn (Or.inl hs2)⟩
            · rintro ⟨hr, hn⟩
              rcases hr with hr | hr
              · exact absurd hr hne
              · exact ⟨hr, fun hs2 => hs2.elim hn hne⟩
          simp only [key]
      cases d0
      · simp only at hs
        cases hi : list_insert (h c).sel_sends s with
        | none => simp [hi] at hs
        | some r =>
          obtain ⟨l, n⟩ := r
          simp only [hi] at hs
          refine hstep l _ (hok c).1 ⟨n, hi⟩ (fun q => ?_)
            (fun p dir => waiter_list_update_sends h c l p dir) hs
          by_cases hq : q = c
          · subst hq
            simpa [chan_ok] using ⟨(list_insert_occ (hok q).1 hi).1, (hok q).2⟩
          · simpa [Function.update_noteq hq] using hok q
      · simp only at hs
        cases hi : list_insert (h c).sel_recvs s with
        | none => simp [hi] at hs
        | some r =>
          obtain ⟨l, n⟩ := r
          simp only [hi] at hs
          refine hstep l _ (hok c).2 ⟨n, hi⟩ (fun q => ?_)
            (fun p dir => waiter_list_update_recvs h c l p dir) hs
          by_cases hq : q = c
          · subst hq
            simpa [chan_ok] using ⟨(hok q).1, (list_insert_occ (hok q).2 hi).1⟩
          · simpa [Function.update_noteq hq] using hok q

/-- One pass of `channel_select` started with the record at most once in each list, and only in
lists named by the vector: on return the record is in no list; on going to sleep it is exactly
once in each list named by the vector and in no other. -/
lemma round_occ {s : ptr} {h : heap} {cl : List select_t} {idx : Nat} {res : round_result}
    (hok : ∀ p, chan_ok (h p))
    (hreg : ∀ p dir, occurrences s (waiter_list (h p) dir) ≤ 1
      ∧ (occurrences s (waiter_list (h p) dir) = 1 → names cl p dir = true))
    (hr : channel_select_round s h cl idx = some res) :
    (∀ r, res = .returned r → ∀ p dir, occurrences s (waiter_list (r.chans p) dir) = 0)
      ∧ (∀ h2, res = .sleeping h2 → ∀ p dir,
          occurrences s (waiter_list (h2 p) dir) = if names cl p dir = true then 1 else 0) := by
  obtain ⟨h1, hc, hpres⟩ := select_cleanup_ok s cl h (fun it _ => hok it.channel)
  have hok1 : ∀ p, chan_ok (h1 p) := fun p => hpres p (hok p)
  have hclean : ∀ p dir, occurrences s (waiter_list (h1 p) dir) = 0 := by
    intro p dir
    obtain ⟨hle, hzero⟩ := select_cleanup_occ cl hok hc p dir
    obtain ⟨h1le, hnamed⟩ := hreg p dir
    by_cases hn : names cl p dir = true
    · exact hzero hn h1le
    · have : occurrences s (waiter_list (h p) dir) ≠ 1 := fun e => hn (hnamed e)
      omega
  unfold channel_select_round at hr
  simp only [hc] at hr
  cases hscan : select_scan h1 cl idx 0 cl with
  | none => simp [hscan] at hr
  | some sres =>
    cases sres with
    | some r1 =>
      simp only [hscan, Option.some.injEq] at hr
      subst hr
      refine ⟨fun r hr1 p dir => ?_, fun h2 hh => by cases hh⟩
      cases hr1
      rw [select_scan_lists h1 cl idx cl 0 r1 hscan p dir]
      exact hclean p dir
    | none =>
      simp only [hscan] at hr
      cases hreg1 : select_register s [] cl h1 with
      | none => simp [hreg1] at hr
      | some h3 =>
        simp only [hreg1, Option.some.injEq] at hr
        subst hr
        refine ⟨fun r hr1 => (by cases hr1), fun h2 hh p dir => ?_⟩
        cases hh
        rw [select_register_occ cl hok1 hreg1 p dir, hclean p dir]
        simp [names]

lemma select_occ (s : ptr) (cl : List select_t) (idx : Nat) :
    ∀ (env : List (heap → heap)) (h : heap), (∀ p, chan_ok (h p)) →
      (∀ p dir, occurrences s (waiter_list (h p) dir) ≤ 1
        ∧ (occurrences s (waiter_list (h p) dir) = 1 → names cl p dir = true)) →
      (∀ f ∈ env, env_respects s f) →
      (∀ h2 ∈ select_sleeps s env h cl idx, ∀ p dir,
          occurrences s (waiter_list (h2 p) dir) = if names cl p dir = true then 1 else 0)
        ∧ (∀ r, channel_select s env h cl idx = some r →
            ∀ p dir, occurrences s (waiter_list (r.chans p) dir) = 0) := by
  intro env
  induction env with
  | nil =>
    intro h hok hreg _
    cases hr : channel_select_round s h cl idx with
    | none => simp [select_sleeps, channel_select, hr]
    | some res =>
      have hocc := round_occ hok hreg hr
      cases res with
      | returned r1 =>
        refine ⟨by simp [select_sleeps, hr], fun r hsel => ?_⟩
        simp only [channel_select, hr, Option.some.injEq] at hsel
        subst hsel
        exact hocc.1 r1 rfl
      | sleeping h2 =>
        refine ⟨fun h3 hmem => ?_, by simp [channel_select, hr]⟩
        simp only [select_sleeps, hr, List.mem_singleton] at hmem
        subst hmem
        exact hocc.2 h3 rfl
  | cons f env ih =>
    intro h hok hreg henv
    cases hr : channel_select_round s h cl idx with
    | none => simp [select_sleeps, channel_select, hr]
    | some res =>
      have hocc := round_occ hok hreg hr
      cases res with
      | returned r1 =>
        refine ⟨by simp [select_sleeps, hr], fun r hsel => ?_⟩
        simp only [channel_select, hr, Option.some.injEq] at hsel
        subst hsel
        exact hocc.1 r1 rfl
      | sleeping h2 =>
        have hok2 : ∀ p, chan_ok (h2 p) := (round_wf hr hok).2 h2 rfl
        obtain ⟨hokf, hoccf⟩ := henv f (List.mem_cons_self _ _) h2 hok2
        have hregf : ∀ p dir, occurrences s (waiter_list (f h2 p) dir) ≤ 1
            ∧ (occurrences s (waiter_list (f h2 p) dir) = 1 → names cl p dir = true) := by
          intro p dir
          rw [hoccf p dir, hocc.2 h2 rfl p dir]
          by_cases hn : names cl p dir = true
          · simp [hn]
          · simp [hn]
        obtain ⟨ih1, ih2⟩ := ih (f h2) hokf hregf
          (fun g hg => henv g (List.mem_cons_of_mem _ hg))
        refine ⟨fun h3 hmem => ?_, fun r hsel => ?_⟩
        · simp only [select_sleeps, hr, List.mem_cons] at hmem
          rcases hmem with rfl | hmem
          · exact hocc.2 h3 rfl
          · exact ih1 h3 hmem
        · simp only [channel_select, hr] at hsel
          exact ih2 r hsel

lemma env_respects_peer_send (s p d : ptr) : env_respects s (peer_send p d) := by
  intro g hok
  have hl : ∀ q dir, waiter_list (peer_send p d g q) dir = waiter_list (g q) dir := by
    intro q dir
    unfold peer_send
    by_cases hq : q = p
    · subst hq
      cases dir <;> simp [waiter_list]
    · simp [Function.update_noteq hq]
  refine ⟨fun q => ?_, fun q dir => by rw [hl q dir]⟩
  have h1 := hl q .SEND
  have h2 := hl q .RECV
  simp only [waiter_list] at h1 h2
  unfold chan_ok
  rw [h1, h2]
  exact hok q

/-- C13: for every intent vector, with or without duplicate channels or duplicate (channel,
direction) pairs, and any number of sleep-and-retry rounds: each time `channel_select` has
registered and sleeps, its waiter record is present at most once in any waiter list (exactly
once in the lists named by an intent, in no other), and when `channel_select` returns, with
whatever status, the record is present in neither `sel_sends` nor `sel_recvs` of any channel.
The call starts on well-formed waiter lists that do not hold its record, and the other threads
keep the lists well formed and neither insert nor remove that record. -/
theorem C13_record_once_then_unlinked (sel_sync : ptr) (env : List (heap → heap)) (h : heap)
    (channel_list : List select_t) (selected_index : Nat)
    (hok : ∀ p, chan_ok (h p))
    (hfresh : ∀ p dir, occurrences sel_sync (waiter_list (h p) dir) = 0)
    (henv : ∀ f ∈ env, env_respects sel_sync f) :
    (∀ h2 ∈ select_sleeps sel_sync env h channel_list selected_index, ∀ p dir,
        occurrences sel_sync (waiter_list (h2 p) dir) ≤ 1
          ∧ (occurrences sel_sync (waiter_list (h2 p) dir) = 1
              ↔ names channel_list p dir = true))
      ∧ (∀ r, channel_select sel_sync env h channel_list selected_index = some r →
          ∀ p, occurrences sel_sync (r.chans p).sel_sends = 0
            ∧ occurrences sel_sync (r.chans p).sel_recvs = 0) := by
  obtain ⟨hsleep, hret⟩ := select_occ sel_sync channel_list selected_index env h hok
    (fun p dir => by rw [hfresh p dir]; exact ⟨Nat.zero_le _, fun e => by cases e⟩) henv
  refine ⟨fun h2 hmem p dir => ?_, fun r hr p => ⟨hret r hr p .SEND, hret r hr p .RECV⟩⟩
  rw [hsleep h2 hmem p dir]
  by_cases hn : names channel_list p dir = true
  · simp [hn]
  · simp [hn]

/-- Witness of C13: intents `[RECV X, RECV Y, RECV X]` on two empty channels (`X` at address 1,
`Y` at 2); the first pass registers and sleeps, another thread sends `8` on `Y`, the second
pass commits `RECV Y`. -/
theorem C13_record_once_then_unlinked_witness :
    (select_sleeps 100 [peer_send 2 8] (two_chans (channel_create 1) (channel_create 1))
        [⟨1, .RECV, 0⟩, ⟨2, .RECV, 0⟩, ⟨1, .RECV, 0⟩] 9).map
        (fun h2 => (occurrences 100 (h2 1).sel_sends, occurrences 100 (h2 1).sel_recvs,
          occurrences 100 (h2 2).sel_sends, occurrences 100 (h2 2).sel_recvs))
        = [(0, 1, 0, 1)]
      ∧ (channel_select 100 [peer_send 2 8] (two_chans (channel_create 1) (channel_create 1))
          [⟨1, .RECV, 0⟩, ⟨2, .RECV, 0⟩, ⟨1, .RECV, 0⟩] 9).map
          (fun r => (r.status, r.selected_index, r.channel_list,
            occurrences 100 (r.chans 1).sel_recvs, occurrences 100 (r.chans 2).sel_recvs))
          = some (.SUCCESS, 1, [⟨1, .RECV, 0⟩, ⟨2, .RECV, 8⟩, ⟨1, .RECV, 0⟩], 0, 0)
      ∧ ((∀ h2 ∈ select_sleeps 100 [peer_send 2 8]
            (two_chans (channel_create 1) (channel_create 1))
            [⟨1, .RECV, 0⟩, ⟨2, .RECV, 0⟩, ⟨1, .RECV, 0⟩] 9, ∀ p dir,
          occurrences 100 (waiter_list (h2 p) dir) ≤ 1
            ∧ (occurrences 100 (waiter_list (h2 p) dir) = 1
                ↔ names [⟨1, .RECV, 0⟩, ⟨2, .RECV, 0⟩, ⟨1, .RECV, 0⟩] p dir = true))
        ∧ (∀ r, channel_select 100 [peer_send 2 8]
            (two_chans (channel_create 1) (channel_create 1))
            [⟨1, .RECV, 0⟩, ⟨2, .RECV, 0⟩, ⟨1, .RECV, 0⟩] 9 = some r →
            ∀ p, occurrences 100 (r.chans p).sel_sends = 0
              ∧ occurrences 100 (r.chans p).sel_recvs = 0)) :=
  ⟨rfl, rfl,
    C13_record_once_then_unlinked 100 [peer_send 2 8]
      (two_chans (channel_create 1) (channel_create 1))
      [⟨1, .RECV, 0⟩, ⟨2, .RECV, 0⟩, ⟨1, .RECV, 0⟩] 9
      (by
        intro p
        unfold two_chans
        split <;> exact ⟨list_create_wf, list_create_wf⟩)
      (by
        intro p dir
        unfold two_chans
        split <;> cases dir <;> rfl)
      (by
        intro f hf
        rw [List.mem_singleton] at hf
        subst hf
        exact env_respects_peer_send 100 2 8)⟩

/-- The insert events of the registration loop are the insertions `select_register` performs
(compare `select_register_occ`): one for each list named by an intent still to visit and not
named by an intent already visited. -/
lemma register_events_insert_iff :
    ∀ (rest seen : List select_t) (p : ptr) (dir : direction),
      sel_event.insert p dir ∈ register_events seen rest
        ↔ (names rest p dir = true ∧ ¬ names seen p dir = true) := by
  intro rest
  induction rest with
  | nil =>
    intro seen p dir
    simp [register_events, names]
  | cons it rest ih =>
    intro seen p dir
    have hrec := ih (seen ++ [it]) p dir
    rw [names_append_singleton] at hrec
    have hA : sel_event.insert p dir ∈
        (if seen.any (fun j => decide (j.channel = it.channel ∧ j.dir = it.dir)) then []
          else [sel_event.insert it.channel it.dir])
        ↔ (¬ names seen it.channel it.dir = true ∧ p = it.channel ∧ dir = it.dir) := by
      by_cases hd : seen.any (fun j => decide (j.channel = it.channel ∧ j.dir = it.dir)) = true
      · have hd1 : names seen it.channel it.dir = true := hd
        rw [if_pos hd]
        constructor
        · intro hm
          cases hm
        · rintro ⟨hn, _⟩
          exact absurd hd1 hn
      · have hd1 : ¬ names seen it.channel it.dir = true := hd
        rw [if_neg hd, List.mem_singleton]
        constructor
        · intro e
          cases e
          exact ⟨hd1, rfl, rfl⟩
        · rintro ⟨_, hp, hdir⟩
          rw [hp, hdir]
    have hB : sel_event.insert p dir ∉
        (if seen.any (fun j => decide (j.channel = it.channel)) then []
          else [sel_event.unlock it.channel]) := by
      by_cases hd : seen.any (fun j => decide (j.channel = it.channel)) = true
      · rw [if_pos hd]
        exact List.not_mem_nil _
      · rw [if_neg hd, List.mem_singleton]
        intro e
        cases e
    rw [register_events, List.mem_append, List.mem_append, hA, hrec, names_cons]
    constructor
    · rintro ((⟨hn, hp, hd⟩ | hb) | ⟨hr, hn⟩)
      · subst hp hd
        exact ⟨Or.inl ⟨rfl, rfl⟩, hn⟩
      · exact absurd hb hB
      · exact ⟨Or.inr hr, fun hs => hn (Or.inl hs)⟩
    · rintro ⟨hr, hn⟩
      by_cases hpd : it.channel = p ∧ it.dir = dir
      · refine Or.inl (Or.inl ⟨?_, hpd.1.symm, hpd.2.symm⟩)
        rw [hpd.1, hpd.2]
        exact hn
      · rcases hr with hr | hr
        · exact absurd hr hpd
        · exact Or.inr ⟨hr, fun hs => hs.elim hn hpd⟩

/-! ## Call sites of send-core and receive-core -/

/-- `channel_send_loop` is its loop up to the call site followed by `channel_send_core`. -/
lemma channel_send_loop_factor (cap : Nat) (d : ptr) :
    ∀ (env : List wake) (c : channel_t),
      channel_send_loop cap d env c
        = (channel_send_loop_site cap env c).bind (call_site.send d) := by
  intro env
  induction env with
  | nil =>
    intro c
    unfold channel_send_loop channel_send_loop_site
    by_cases hfull : buffer_current_size c.buffer = cap
    · rw [if_pos hfull, if_pos hfull]
      rfl
    · rw [if_neg hfull, if_neg hfull]
      rfl
  | cons w rest ih =>
    intro c
    unfold channel_send_loop channel_send_loop_site
    by_cases hfull : buffer_current_size c.buffer = cap
    · rw [if_pos hfull, if_pos hfull]
      dsimp only
      by_cases hrc : w.rc ≠ 0
      · rw [if_pos hrc, if_pos hrc]
        rfl
      · rw [if_neg hrc, if_neg hrc]
        by_cases hcl : w.chan.channel_status = false
        · rw [if_pos hcl, if_pos hcl]
          rfl
        · rw [if_neg hcl, if_neg hcl]
          exact ih w.chan
    · rw [if_neg hfull, if_neg hfull]
      rfl

/-- `channel_send` is `channel_send_site` followed by `channel_send_core` at an `invokes` site. -/
lemma channel_send_factor (env : List wake) (c : channel_t) (d : ptr) :
    channel_send env c d = (channel_send_site env c).bind (call_site.send d) := by
  unfold channel_send channel_send_site
  by_cases hcl : c.channel_status = false
  · rw [if_pos hcl, if_pos hcl]
    rfl
  · rw [if_neg hcl, if_neg hcl]
    exact channel_send_loop_factor _ d env c

/-- `channel_receive_loop` is its loop up to the call site followed by `channel_receive_core`. -/
lemma channel_receive_loop_factor (slot : ptr) :
    ∀ (env : List wake) (c : channel_t),
      channel_receive_loop slot env c
        = (channel_receive_loop_site env c).bind (call_site.receive slot) := by
  intro env
  induction env with
  | nil =>
    intro c
    unfold channel_receive_loop channel_receive_loop_site
    by_cases hempty : buffer_current_size c.buffer = 0
    · rw [if_pos hempty, if_pos hempty]
      rfl
    · rw [if_neg hempty, if_neg hempty]
      rfl
  | cons w rest ih =>
    intro c
    unfold channel_receive_loop channel_receive_loop_site
    by_cases hempty : buffer_current_size c.buffer = 0
    · rw [if_pos hempty, if_pos hempty]
      dsimp only
      by_cases hrc : w.rc ≠ 0
      · rw [if_pos hrc, if_pos hrc]
        rfl
      · rw [if_neg hrc, if_neg hrc]
        by_cases hcl : w.chan.channel_status = false
        · rw [if_pos hcl, if_pos hcl]
          rfl
        · rw [if_neg hcl, if_neg hcl]
          exact ih w.chan
    · rw [if_neg hempty, if_neg hempty]
      rfl

/-- `channel_receive` is `channel_receive_site` followed by `channel_receive_core` at an
`invokes` site. -/
lemma channel_receive_factor (env : List wake) (c : channel_t) (slot : ptr) :
    channel_receive env c slot = (channel_receive_site env c).bind (call_site.receive slot) := by
  unfold channel_receive channel_receive_site
  by_cases hcl : c.channel_status = false
  · rw [if_pos hcl, if_pos hcl]
    rfl
  · rw [if_neg hcl, if_neg hcl]
    exact channel_receive_loop_factor slot env c

/-- `channel_non_blocking_send` is its site followed by `channel_send_core`. -/
lemma channel_non_blocking_send_factor (c : channel_t) (d : ptr) :
    channel_non_blocking_send c d = (channel_non_blocking_send_site c).send d := by
  unfold channel_non_blocking_send channel_non_blocking_send_site
  by_cases hcl : c.channel_status = false
  · rw [if_pos hcl, if_pos hcl]
    rfl
  · rw [if_neg hcl, if_neg hcl]
    by_cases hfull : buffer_current_size c.buffer = buffer_capacity c.buffer
    · rw [if_pos hfull, if_pos hfull]
      rfl
    · rw [if_neg hfull, if_neg hfull]
      rfl

/-- `channel_non_blocking_receive` is its site followed by `channel_receive_core`. -/
lemma channel_non_blocking_receive_factor (c : channel_t) (slot : ptr) :
    channel_non_blocking_receive c slot = (channel_non_blocking_receive_site c).receive slot := by
  unfold channel_non_blocking_receive channel_non_blocking_receive_site
  by_cases hcl : c.channel_status = false
  · rw [if_pos hcl, if_pos hcl]
    rfl
  · rw [if_neg hcl, if_neg hcl]
    by_cases hempty : buffer_current_size c.buffer = 0
    · rw [if_pos hempty, if_pos hempty]
      rfl
    · rw [if_neg hempty, if_neg hempty]
      rfl

/-- The sites of the loop of `channel_send`: send-core is called on the channel of the call or on
a wake state, found with `size != cap`; an early return happens on a wake state, with
`GENERIC_ERROR` after a failed `pthread_cond_wait` or `CLOSED_ERROR` on a closed channel. -/
lemma channel_send_loop_site_cases (cap : Nat) :
    ∀ (env : List wake) (c : channel_t) (site : call_site),
      channel_send_loop_site cap env c = some site →
      (site = .invokes c ∧ buffer_current_size c.buffer ≠ cap)
        ∨ ∃ w ∈ env,
            (site = .returns w.chan .GENERIC_ERROR ∧ w.rc ≠ 0)
              ∨ (site = .returns w.chan .CLOSED_ERROR ∧ w.chan.channel_status = false)
              ∨ (site = .invokes w.chan ∧ buffer_current_size w.chan.buffer ≠ cap) := by
  intro env
  induction env with
  | nil =>
    intro c site hs
    unfold channel_send_loop_site at hs
    by_cases hfull : buffer_current_size c.buffer = cap
    · rw [if_pos hfull] at hs
      cases hs
    · rw [if_neg hfull] at hs
      simp only [Option.some.injEq] at hs
      exact Or.inl ⟨hs.symm, hfull⟩
  | cons w rest ih =>
    intro c site hs
    unfold channel_send_loop_site at hs
    by_cases hfull : buffer_current_size c.buffer = cap
    · rw [if_pos hfull] at hs
      dsimp only at hs
      by_cases hrc : w.rc ≠ 0
      · rw [if_pos hrc] at hs
        simp only [Option.some.injEq] at hs
        exact Or.inr ⟨w, List.mem_cons_self _ _, Or.inl ⟨hs.symm, hrc⟩⟩
      · rw [if_neg hrc] at hs
        by_cases hcl : w.chan.channel_status = false
        · rw [if_pos hcl] at hs
          simp only [Option.some.injEq] at hs
          exact Or.inr ⟨w, List.mem_cons_self _ _, Or.inr (Or.inl ⟨hs.symm, hcl⟩)⟩
        · rw [if_neg hcl] at hs
          rcases ih w.chan site hs with ⟨h1, h2⟩ | ⟨w1, hw1, hcase⟩
          · exact Or.inr ⟨w, List.mem_cons_self _ _, Or.inr (Or.inr ⟨h1, h2⟩)⟩
          · exact Or.inr ⟨w1, List.mem_cons_of_mem _ hw1, hcase⟩
    · rw [if_neg hfull] at hs
      simp only [Option.some.injEq] at hs
      exact Or.inl ⟨hs.symm, hfull⟩

/-- The sites of the loop of `channel_receive`: receive-core is called on the channel of the call
or on a wake state, found with `size != 0`; an early return happens on a wake state. -/
lemma channel_receive_loop_site_cases :
    ∀ (env : List wake) (c : channel_t) (site : call_site),
      channel_receive_loop_site env c = some site →
      (site = .invokes c ∧ buffer_current_size c.buffer ≠ 0)
        ∨ ∃ w ∈ env,
            (site = .returns w.chan .GENERIC_ERROR ∧ w.rc ≠ 0)
              ∨ (site = .returns w.chan .CLOSED_ERROR ∧ w.chan.channel_status = false)
              ∨ (site = .invokes w.chan ∧ buffer_current_size w.chan.buffer ≠ 0) := by
  intro env
  induction env with
  | nil =>
    intro c site hs
    unfold channel_receive_loop_site at hs
    by_cases hempty : buffer_current_size c.buffer = 0
    · rw [if_pos hempty] at hs
      cases hs
    · rw [if_neg hempty] at hs
      simp only [Option.some.injEq] at hs
      exact Or.inl ⟨hs.symm, hempty⟩
  | cons w rest ih =>
    intro c site hs
    unfold channel_receive_loop_site at hs
    by_cases hempty : buffer_current_size c.buffer = 0
    · rw [if_pos hempty] at hs
      dsimp only at hs
      by_cases hrc : w.rc ≠ 0
      · rw [if_pos hrc] at hs
        simp only [Option.some.injEq] at hs
        exact Or.inr ⟨w, List.mem_cons_self _ _, Or.inl ⟨hs.symm, hrc⟩⟩
      · rw [if_neg hrc] at hs
        by_cases hcl : w.chan.channel_status = false
        · rw [if_pos hcl] at hs
          simp only [Option.some.injEq] at hs
          exact Or.inr ⟨w, List.mem_cons_self _ _, Or.inr (Or.inl ⟨hs.symm, hcl⟩)⟩
        · rw [if_neg hcl] at hs
          rcases ih w.chan site hs with ⟨h1, h2⟩ | ⟨w1, hw1, hcase⟩
          · exact Or.inr ⟨w, List.mem_cons_self _ _, Or.inr (Or.inr ⟨h1, h2⟩)⟩
          · exact Or.inr ⟨w1, List.mem_cons_of_mem _ hw1, hcase⟩
    · rw [if_neg hempty] at hs
      simp only [Option.some.injEq] at hs
      exact Or.inl ⟨hs.symm, hempty⟩

/-- The sites of `channel_send`. -/
lemma channel_send_site_cases {env : List wake} {c : channel_t} {site : call_site}
    (hs : channel_send_site env c = some site) :
    (site = .returns c .CLOSED_ERROR ∧ c.channel_status = false)
      ∨ (site = .invokes c ∧ buffer_current_size c.buffer ≠ buffer_capacity c.buffer)
      ∨ ∃ w ∈ env,
          (site = .returns w.chan .GENERIC_ERROR ∧ w.rc ≠ 0)
            ∨ (site = .returns w.chan .CLOSED_ERROR ∧ w.chan.channel_status = false)
            ∨ (site = .invokes w.chan
                ∧ buffer_current_size w.chan.buffer ≠ buffer_capacity c.buffer) := by
  unfold channel_send_site at hs
  by_cases hcl : c.channel_status = false
  · rw [if_pos hcl] at hs
    simp only [Option.some.injEq] at hs
    exact Or.inl ⟨hs.symm, hcl⟩
  · rw [if_neg hcl] at hs
    exact Or.inr (channel_send_loop_site_cases _ env c site hs)

/-- The sites of `channel_receive`. -/
lemma channel_receive_site_cases {env : List wake} {c : channel_t} {site : call_site}
    (hs : channel_receive_site env c = some site) :
    (site = .returns c .CLOSED_ERROR ∧ c.channel_status = false)
      ∨ (site = .invokes c ∧ buffer_current_size c.buffer ≠ 0)
      ∨ ∃ w ∈ env,
          (site = .returns w.chan .GENERIC_ERROR ∧ w.rc ≠ 0)
            ∨ (site = .returns w.chan .CLOSED_ERROR ∧ w.chan.channel_status = false)
            ∨ (site = .invokes w.chan ∧ buffer_current_size w.chan.buffer ≠ 0) := by
  unfold channel_receive_site at hs
  by_cases hcl : c.channel_status = false
  · rw [if_pos hcl] at hs
    simp only [Option.some.injEq] at hs
    exact Or.inl ⟨hs.symm, hcl⟩
  · rw [if_neg hcl] at hs
    exact Or.inr (channel_receive_loop_site_cases env c site hs)

/-- What a returned `channel_send` did to the buffer it found in its last critical section:
with `SUCCESS` the element is appended at the tail, with any other status nothing changed. -/
lemma channel_send_effect {env : List wake} {c c1 : channel_t} {d : ptr} {site : call_site}
    {st : channel_status} (hsite : channel_send_site env c = some site)
    (hs : channel_send env c d = some (c1, st)) :
    (st = .SUCCESS ∧ c1.buffer.data = site.channel.buffer.data ++ [d])
      ∨ (st ≠ .SUCCESS ∧ c1.buffer = site.channel.buffer) := by
  rw [channel_send_factor, hsite, Option.some_bind] at hs
  rcases channel_send_site_cases hsite with ⟨h1, _⟩ | ⟨h1, _⟩ | ⟨w, _, ⟨h1, _⟩ | ⟨h1, _⟩ | ⟨h1, _⟩⟩
  all_goals subst h1
  all_goals simp only [call_site.send, call_site.channel, Option.some.injEq, Prod.mk.injEq] at hs ⊢
  · exact Or.inr ⟨by rw [← hs.2]; decide, by rw [← hs.1]⟩
  · rcases channel_send_core_cases hs with ⟨hst, hd⟩ | ⟨hst, hc⟩
    · exact Or.inl ⟨hst, hd⟩
    · exact Or.inr ⟨by rw [hst]; decide, by rw [hc]⟩
  · exact Or.inr ⟨by rw [← hs.2]; decide, by rw [← hs.1]⟩
  · exact Or.inr ⟨by rw [← hs.2]; decide, by rw [← hs.1]⟩
  · rcases channel_send_core_cases hs with ⟨hst, hd⟩ | ⟨hst, hc⟩
    · exact Or.inl ⟨hst, hd⟩
    · exact Or.inr ⟨by rw [hst]; decide, by rw [hc]⟩

/-- What a returned `channel_receive` did to the buffer it found in its last critical section:
with `SUCCESS` the head is removed and handed out, with any other status nothing changed. -/
lemma channel_receive_effect {env : List wake} {c c1 : channel_t} {slot out : ptr}
    {site : call_site} {st : channel_status} (hsite : channel_receive_site env c = some site)
    (hs : channel_receive env c slot = some (c1, out, st)) :
    (st = .SUCCESS ∧ site.channel.buffer.data = out :: c1.buffer.data)
      ∨ (st ≠ .SUCCESS ∧ c1.buffer = site.channel.buffer ∧ out = slot) := by
  rw [channel_receive_factor, hsite, Option.some_bind] at hs
  rcases channel_receive_site_cases hsite with
    ⟨h1, _⟩ | ⟨h1, hne⟩ | ⟨w, _, ⟨h1, _⟩ | ⟨h1, _⟩ | ⟨h1, hne⟩⟩
  all_goals subst h1
  all_goals
    simp only [call_site.receive, call_site.channel, Option.some.injEq, Prod.mk.injEq] at hs ⊢
  · exact Or.inr ⟨by rw [← hs.2.2]; decide, by rw [← hs.1], hs.2.1.symm⟩
  · obtain ⟨hst, hd, _⟩ := channel_receive_core_spec hs (Nat.pos_of_ne_zero hne)
    exact Or.inl ⟨hst, hd⟩
  · exact Or.inr ⟨by rw [← hs.2.2]; decide, by rw [← hs.1], hs.2.1.symm⟩
  · exact Or.inr ⟨by rw [← hs.2.2]; decide, by rw [← hs.1], hs.2.1.symm⟩
  · obtain ⟨hst, hd, _⟩ := channel_receive_core_spec hs (Nat.pos_of_ne_zero hne)
    exact Or.inl ⟨hst, hd⟩

/-- What a returned `channel_non_blocking_send` did to the buffer. -/
lemma channel_non_blocking_send_effect {c c1 : channel_t} {d : ptr} {st : channel_status}
    (hs : channel_non_blocking_send c d = some (c1, st)) :
    (st = .SUCCESS ∧ c1.buffer.data = c.buffer.data ++ [d])
      ∨ (st ≠ .SUCCESS ∧ c1.buffer = c.buffer) := by
  unfold channel_non_blocking_send at hs
  split_ifs at hs with hclosed hfull
  · simp only [Option.some.injEq, Prod.mk.injEq] at hs
    exact Or.inr ⟨by rw [← hs.2]; decide, by rw [← hs.1]⟩
  · simp only [Option.some.injEq, Prod.mk.injEq] at hs
    exact Or.inr ⟨by rw [← hs.2]; decide, by rw [← hs.1]⟩
  · rcases channel_send_core_cases hs with ⟨hst, hd⟩ | ⟨hst, hc⟩
    · exact Or.inl ⟨hst, hd⟩
    · exact Or.inr ⟨by rw [hst]; decide, by rw [hc]⟩

/-- What a returned `channel_non_blocking_receive` did to the buffer. -/
lemma channel_non_blocking_receive_effect {c c1 : channel_t} {slot out : ptr}
    {st : channel_status} (hs : channel_non_blocking_receive c slot = some (c1, out, st)) :
    (st = .SUCCESS ∧ c.buffer.data = out :: c1.buffer.data)
      ∨ (st ≠ .SUCCESS ∧ c1.buffer = c.buffer ∧ out = slot) := by
  unfold channel_non_blocking_receive at hs
  split_ifs at hs with hclosed hempty
  · simp only [Option.some.injEq, Prod.mk.injEq] at hs
    exact Or.inr ⟨by rw [← hs.2.2]; decide, by rw [← hs.1], hs.2.1.symm⟩
  · simp only [Option.some.injEq, Prod.mk.injEq] at hs
    exact Or.inr ⟨by rw [← hs.2.2]; decide, by rw [← hs.1], hs.2.1.symm⟩
  · obtain ⟨hst, hd, _⟩ := channel_receive_core_spec hs (Nat.pos_of_ne_zero hempty)
    exact Or.inl ⟨hst, hd⟩

/-! ## FIFO order over the histories of a channel -/

/-- In every history what was sent is what was delivered followed by what the buffer holds. -/
lemma history_fifo {capacity : Nat} {c : channel_t} {sent delivered : List ptr}
    (hh : History capacity c sent delivered) : sent = delivered ++ c.buffer.data := by
  induction hh with
  | create => rfl
  | send env c d site c1 st s0 d0 s dl _ hsite _ _ _ hs _ ih =>
    rcases channel_send_effect hsite hs with ⟨hst, hd⟩ | ⟨hst, hb⟩
    · rw [if_pos hst, hd, ih, List.append_assoc]
    · rw [if_neg hst, hb]
      exact ih
  | receive env c slot site c1 out st s0 d0 s dl _ hsite _ _ _ hs _ ih =>
    rcases channel_receive_effect hsite hs with ⟨hst, hd⟩ | ⟨hst, hb, _⟩
    · rw [if_pos hst, ih, hd]
      simp
    · rw [if_neg hst, hb]
      exact ih
  | non_blocking_send c d c1 st s dl _ hs ih =>
    rcases channel_non_blocking_send_effect hs with ⟨hst, hd⟩ | ⟨hst, hb⟩
    · rw [if_pos hst, hd, ih, List.append_assoc]
    · rw [if_neg hst, hb]
      exact ih
  | non_blocking_receive c slot c1 out st s dl _ hs ih =>
    rcases channel_non_blocking_receive_effect hs with ⟨hst, hd⟩ | ⟨hst, hb, _⟩
    · rw [if_pos hst, ih, hd]
      simp
    · rw [if_neg hst, hb]
      exact ih
  | close c c1 st s dl _ hs ih =>
    rw [channel_close_buffer hs]
    exact ih

/-- A call that does not wait runs its last critical section on the channel it was issued on. -/
lemma channel_send_site_nil {c : channel_t} {site : call_site}
    (hs : channel_send_site [] c = some site) : site.channel = c := by
  rcases channel_send_site_cases hs with ⟨h1, _⟩ | ⟨h1, _⟩ | ⟨w, hw, _⟩
  · rw [h1]
    rfl
  · rw [h1]
    rfl
  · cases hw

lemma channel_receive_site_nil {c : channel_t} {site : call_site}
    (hs : channel_receive_site [] c = some site) : site.channel = c := by
  rcases channel_receive_site_cases hs with ⟨h1, _⟩ | ⟨h1, _⟩ | ⟨w, hw, _⟩
  · rw [h1]
    rfl
  · rw [h1]
    rfl
  · cases hw

/-- One call of a single-threaded run extends a history of the channel. -/
lemma record_history (capacity : Nat) (t : history) (c : call)
    (r : channel_t × ptr × channel_status) (hr : exec [] c t.chan = some r)
    (hh : History capacity t.chan t.sent t.delivered) :
    History capacity (t.record c r).chan (t.record c r).sent (t.record c r).delivered := by
  obtain ⟨c1, out, st⟩ := r
  cases c with
  | send data =>
    simp only [exec, Option.map_eq_some', Prod.mk.injEq, Prod.exists] at hr
    obtain ⟨c2, st2, hr, hc, -, hst⟩ := hr
    subst hc hst
    have hfac := channel_send_factor [] t.chan data
    rw [hr] at hfac
    cases hsite : channel_send_site [] t.chan with
    | none => simp [hsite] at hfac
    | some site =>
      have hchan := channel_send_site_nil hsite
      have := History.send [] t.chan data site c2 st2 t.sent t.delivered t.sent t.delivered hh
        hsite (hchan ▸ hh) (List.prefix_refl _) (List.prefix_refl _) hr
      cases st2 <;> simpa [history.record] using this
  | receive slot =>
    simp only [exec] at hr
    have hfac := channel_receive_factor [] t.chan slot
    rw [hr] at hfac
    cases hsite : channel_receive_site [] t.chan with
    | none => simp [hsite] at hfac
    | some site =>
      have hchan := channel_receive_site_nil hsite
      have := History.receive [] t.chan slot site c1 out st t.sent t.delivered t.sent
        t.delivered hh hsite (hchan ▸ hh) (List.prefix_refl _) (List.prefix_refl _) hr
      cases st <;> simpa [history.record] using this
  | non_blocking_send data =>
    simp only [exec, Option.map_eq_some', Prod.mk.injEq, Prod.exists] at hr
    obtain ⟨c2, st2, hr, hc, -, hst⟩ := hr
    subst hc hst
    have := History.non_blocking_send t.chan data c2 st2 t.sent t.delivered hh hr
    cases st2 <;> simpa [history.record] using this
  | non_blocking_receive slot =>
    simp only [exec] at hr
    have := History.non_blocking_receive t.chan slot c1 out st t.sent t.delivered hh hr
    cases st <;> simpa [history.record] using this
  | close =>
    simp only [exec, Option.map_eq_some', Prod.mk.injEq, Prod.exists] at hr
    obtain ⟨c2, st2, hr, hc, -, hst⟩ := hr
    subst hc hst
    have := History.close t.chan c2 st2 t.sent t.delivered hh hr
    cases st2 <;> simpa [history.record] using this

/-- The run of a single thread is one of the histories of the channel. -/
lemma run_history (capacity : Nat) (calls : List call) :
    ∀ t : history, History capacity t.chan t.sent t.delivered →
      History capacity (run calls t).chan (run calls t).sent (run calls t).delivered := by
  induction calls with
  | nil => intro t hh; exact hh
  | cons c rest ih =>
    intro t hh
    unfold run
    cases hr : exec [] c t.chan with
    | none => exact hh
    | some r => exact ih _ (record_history capacity t c r hr hh)

/-- C2: FIFO order on one channel.  `History capacity c sent delivered` ranges over every
sequence of send / receive / non-blocking send / non-blocking receive (and close) calls of any
number of threads on the channel created by `channel_create(capacity)`, `capacity > 0`,
including blocking calls that waited and were woken: `sent` are the elements handed to the
successful sends, `delivered` the elements handed out by the successful receives, `c` the
channel at the end.  In every such history the delivered elements are, in order, the first `m`
sent elements, `m` the number of successful receives, and the buffer holds exactly the remaining
sent elements in send order.  The run of a single thread is such a history, and in particular
`capacity` sends followed by `capacity` receives, blocking or not, all return `SUCCESS`, deliver
the sent elements in order and leave `size = 0`. -/
theorem C2_fifo_order (capacity : Nat) (_hcap : 0 < capacity) (calls : List call) :
    (∀ (c : channel_t) (sent delivered : List ptr), History capacity c sent delivered →
        delivered = sent.take delivered.length ∧ c.buffer.data = sent.drop delivered.length)
      ∧ History capacity (run calls (history.init capacity)).chan
          (run calls (history.init capacity)).sent (run calls (history.init capacity)).delivered
      ∧ (run calls (history.init capacity)).delivered
        = (run calls (history.init capacity)).sent.take
            (run calls (history.init capacity)).delivered.length
      ∧ (run calls (history.init capacity)).chan.buffer.data
        = (run calls (history.init capacity)).sent.drop
            (run calls (history.init capacity)).delivered.length
      ∧ ∀ sends recvs : List call,
          (∀ c ∈ sends, ∃ d, c = .send d ∨ c = .non_blocking_send d) →
          (∀ c ∈ recvs, ∃ s, c = .receive s ∨ c = .non_blocking_receive s) →
          sends.length = capacity → recvs.length = capacity →
          (run (sends ++ recvs) (history.init capacity)).statuses
              = List.replicate (2 * capacity) .SUCCESS
            ∧ (run (sends ++ recvs) (history.init capacity)).sent = sends.map call.arg
            ∧ (run (sends ++ recvs) (history.init capacity)).delivered = sends.map call.arg
            ∧ buffer_current_size (run (sends ++ recvs) (history.init capacity)).chan.buffer
                = 0 := by
  have hfifo := run_fifo calls (history.init capacity) rfl
  refine ⟨fun c sent delivered hh => ?_, run_history capacity calls (history.init capacity)
    History.create, ?_, ?_, ?_⟩
  · rw [history_fifo hh]
    simp
  · rw [hfifo]
    simp
  · rw [hfifo]
    simp
  · intro sends recvs hs hr hls hlr
    have h1 := run_sends capacity recvs sends (history.init capacity) [] hs rfl
      (by simp [hls])
    have h2 := run_receives capacity recvs
      { chan := chan_with capacity ([] ++ sends.map call.arg) true,
        sent := (history.init capacity).sent ++ sends.map call.arg,
        delivered := (history.init capacity).delivered,
        statuses := (history.init capacity).statuses ++ List.replicate sends.length .SUCCESS }
      ([] ++ sends.map call.arg) hr rfl (by simp [hls, hlr])
    rw [h1, h2]
    rw [Nat.two_mul, List.replicate_add]
    simp [history.init, hls, hlr, chan_with, buffer_current_size]

/-- Witness of C2.  On a capacity-1 channel holding `1`, a `channel_send` of `2` finds the buffer
full and waits; another thread receives `1`; the sender is woken on the empty channel and appends
`2`: sent `[1, 2]`, delivered `[1]`, buffer `[2]`.  On the empty channel a `channel_receive`
waits; another thread sends `7`; the receiver is woken and is handed `7`.  Then a run of one
thread mixing the four operations on a capacity-2 channel, and two sends followed by two
receives. -/
theorem C2_fifo_order_witness :
    0 < 1
      ∧ channel_send [⟨0, chan_with 1 [] true⟩] (chan_with 1 [1] true) 2
          = some (chan_with 1 [2] true, .SUCCESS)
      ∧ History 1 (chan_with 1 [2] true) [1, 2] [1]
      ∧ ([1] : List ptr) = [1, 2].take [1].length
      ∧ (chan_with 1 [2] true).buffer.data = [1, 2].drop [1].length
      ∧ channel_receive [⟨0, chan_with 1 [7] true⟩] (chan_with 1 [] true) 0
          = some (chan_with 1 [] true, 7, .SUCCESS)
      ∧ History 1 (chan_with 1 [] true) [7] [7]
      ∧ ([7] : List ptr) = [7].take [7].length
      ∧ (run [.non_blocking_send 1, .send 2, .non_blocking_send 3, .receive 0, .send 4,
            .non_blocking_receive 0] (history.init 2)).delivered
          = (run [.non_blocking_send 1, .send 2, .non_blocking_send 3, .receive 0, .send 4,
              .non_blocking_receive 0] (history.init 2)).sent.take
              (run [.non_blocking_send 1, .send 2, .non_blocking_send 3, .receive 0, .send 4,
                .non_blocking_receive 0] (history.init 2)).delivered.length
      ∧ (run [.non_blocking_send 1, .send 2, .non_blocking_send 3, .receive 0, .send 4,
            .non_blocking_receive 0] (history.init 2)).chan.buffer.data
          = (run [.non_blocking_send 1, .send 2, .non_blocking_send 3, .receive 0, .send 4,
              .non_blocking_receive 0] (history.init 2)).sent.drop
              (run [.non_blocking_send 1, .send 2, .non_blocking_send 3, .receive 0, .send 4,
                .non_blocking_receive 0] (history.init 2)).delivered.length
      ∧ (run ([.send 7, .non_blocking_send 8] ++ [.receive 0, .non_blocking_receive 0])
            (history.init 2)).delivered = [7, 8] := by
  -- the channel holds `1`
  have h1 : History 1 (chan_with 1 [1] true) [1] [] :=
    History.non_blocking_send (channel_create 1) 1 (chan_with 1 [1] true) .SUCCESS [] []
      History.create rfl
  -- another thread has received `1`
  have h2 : History 1 (chan_with 1 [] true) [1] [1] :=
    History.non_blocking_receive (chan_with 1 [1] true) 0 (chan_with 1 [] true) 1 .SUCCESS
      [1] [] h1 rfl
  -- the sender, issued on the full channel, is woken on the empty one
  have h3 : History 1 (chan_with 1 [2] true) [1, 2] [1] :=
    History.send [⟨0, chan_with 1 [] true⟩] (chan_with 1 [1] true) 2
      (.invokes (chan_with 1 [] true)) (chan_with 1 [2] true) .SUCCESS [1] [] [1] [1]
      h1 rfl h2 (List.prefix_refl _) List.nil_prefix rfl
  -- a receiver is issued on the fresh, empty channel; another thread sends `7`
  have h4 : History 1 (chan_with 1 [7] true) [7] [] :=
    History.non_blocking_send (channel_create 1) 7 (chan_with 1 [7] true) .SUCCESS [] []
      History.create rfl
  have h5 : History 1 (chan_with 1 [] true) [7] [7] :=
    History.receive [⟨0, chan_with 1 [7] true⟩] (channel_create 1) 0
      (.invokes (chan_with 1 [7] true)) (chan_with 1 [] true) 7 .SUCCESS [] [] [7] []
      History.create rfl h4 List.nil_prefix List.nil_prefix rfl
  exact ⟨by decide, rfl, h3,
    ((C2_fifo_order 1 (by decide) []).1 _ _ _ h3).1,
    ((C2_fifo_order 1 (by decide) []).1 _ _ _ h3).2,
    rfl, h5,
    ((C2_fifo_order 1 (by decide) []).1 _ _ _ h5).1,
    (C2_fifo_order 2 (by decide) [.non_blocking_send 1, .send 2, .non_blocking_send 3,
      .receive 0, .send 4, .non_blocking_receive 0]).2.2.1,
    (C2_fifo_order 2 (by decide) [.non_blocking_send 1, .send 2, .non_blocking_send 3,
      .receive 0, .send 4, .non_blocking_receive 0]).2.2.2.1,
    ((C2_fifo_order 2 (by decide) []).2.2.2.2 [.send 7, .non_blocking_send 8]
      [.receive 0, .non_blocking_receive 0] (by simp) (by simp) rfl rfl).2.2.1⟩

/-! ## The guards under which send-core and receive-core are called -/

/-- In a reachable state, with wake states that are reachable states of the same channel (the
capacity never changes), `channel_send` calls `channel_send_core` only on a channel with
`size < capacity`. -/
lemma channel_send_site_guard {env : List wake} {c c0 : channel_t} (hreach : Reachable c)
    (henv : ∀ w ∈ env, Reachable w.chan
      ∧ buffer_capacity w.chan.buffer = buffer_capacity c.buffer)
    (hsite : channel_send_site env c = some (.invokes c0)) :
    buffer_current_size c0.buffer < buffer_capacity c0.buffer := by
  rcases channel_send_site_cases hsite with
    ⟨h1, _⟩ | ⟨h1, hne⟩ | ⟨w, hw, ⟨h1, _⟩ | ⟨h1, _⟩ | ⟨h1, hne⟩⟩
  · cases h1
  · simp only [call_site.invokes.injEq] at h1
    subst h1
    exact lt_of_le_of_ne (reachable_bound hreach) hne
  · cases h1
  · cases h1
  · simp only [call_site.invokes.injEq] at h1
    subst h1
    obtain ⟨hwr, hcap⟩ := henv w hw
    rw [← hcap] at hne
    exact lt_of_le_of_ne (reachable_bound hwr) hne

/-- `channel_receive` calls `channel_receive_core` only on a channel with `size > 0`. -/
lemma channel_receive_site_guard {env : List wake} {c c0 : channel_t}
    (hsite : channel_receive_site env c = some (.invokes c0)) :
    0 < buffer_current_size c0.buffer := by
  rcases channel_receive_site_cases hsite with
    ⟨h1, _⟩ | ⟨h1, hne⟩ | ⟨w, hw, ⟨h1, _⟩ | ⟨h1, _⟩ | ⟨h1, hne⟩⟩
  · cases h1
  · simp only [call_site.invokes.injEq] at h1
    subst h1
    exact Nat.pos_of_ne_zero hne
  · cases h1
  · cases h1
  · simp only [call_site.invokes.injEq] at h1
    subst h1
    exact Nat.pos_of_ne_zero hne

/-- The only `GENERIC_ERROR` of `channel_send` in a reachable state is that of a failed
`pthread_cond_wait`: send-core, called with `size < capacity`, does not fail. -/
lemma channel_send_generic_error {env : List wake} {c c1 : channel_t} {d : ptr}
    (hreach : Reachable c)
    (henv : ∀ w ∈ env, Reachable w.chan
      ∧ buffer_capacity w.chan.buffer = buffer_capacity c.buffer)
    (hs : channel_send env c d = some (c1, .GENERIC_ERROR)) : ∃ w ∈ env, w.rc ≠ 0 := by
  have hfac := channel_send_factor env c d
  rw [hs] at hfac
  cases hsite : channel_send_site env c with
  | none => simp [hsite] at hfac
  | some site =>
    rw [hsite, Option.some_bind] at hfac
    rcases channel_send_site_cases hsite with
      ⟨h1, _⟩ | ⟨h1, _⟩ | ⟨w, hw, ⟨h1, hrc⟩ | ⟨h1, _⟩ | ⟨h1, _⟩⟩
    · subst h1
      simp [call_site.send] at hfac
    · subst h1
      have hlt := channel_send_site_guard hreach henv hsite
      have := (channel_send_core_spec hfac.symm hlt).1
      cases this
    · exact ⟨w, hw, hrc⟩
    · subst h1
      simp [call_site.send] at hfac
    · subst h1
      have hlt := channel_send_site_guard hreach henv hsite
      have := (channel_send_core_spec hfac.symm hlt).1
      cases this

/-- The only `GENERIC_ERROR` of `channel_receive` is that of a failed `pthread_cond_wait`:
receive-core, called with `size > 0`, does not fail. -/
lemma channel_receive_generic_error {env : List wake} {c c1 : channel_t} {slot out : ptr}
    (hs : channel_receive env c slot = some (c1, out, .GENERIC_ERROR)) :
    ∃ w ∈ env, w.rc ≠ 0 := by
  have hfac := channel_receive_factor env c slot
  rw [hs] at hfac
  cases hsite : channel_receive_site env c with
  | none => simp [hsite] at hfac
  | some site =>
    rw [hsite, Option.some_bind] at hfac
    rcases channel_receive_site_cases hsite with
      ⟨h1, _⟩ | ⟨h1, _⟩ | ⟨w, hw, ⟨h1, hrc⟩ | ⟨h1, _⟩ | ⟨h1, _⟩⟩
    · subst h1
      simp [call_site.receive] at hfac
    · subst h1
      have hlt := channel_receive_site_guard hsite
      have := (channel_receive_core_spec hfac.symm hlt).1
      cases this
    · exact ⟨w, hw, hrc⟩
    · subst h1
      simp [call_site.receive] at hfac
    · subst h1
      have hlt := channel_receive_site_guard hsite
      have := (channel_receive_core_spec hfac.symm hlt).1
      cases this

/-- C3: in every state reachable from `channel_create(capacity)`, `capacity > 0`, by any
sequence of `channel_send`, `channel_receive`, `channel_non_blocking_send`,
`channel_non_blocking_receive`, `channel_close` and `channel_select` calls, the buffer size
satisfies `0 <= size <= capacity`, and send-core is only ever called with `size < capacity`,
receive-core only with `size > 0`, at each of their call sites:
in the non-blocking calls (the channel on which the core is called, `c0`, has the guard, and the
call is the core on `c0`; the calls never fail with `GENERIC_ERROR`);
in `channel_send` after its wait loop, the wake states being reachable states of the same
channel (same capacity), and in `channel_receive` after its wait loop (the only `GENERIC_ERROR`
of the blocking calls is that of a failed `pthread_cond_wait`);
in the readiness scan of `channel_select`, which returns `CLOSED_ERROR` or commits, with
`SUCCESS`, an intent that is feasible (`SEND` with `size < capacity`, `RECV` with `size > 0`) in
the channels at the start of the returning pass. -/
theorem C3_size_within_capacity (c : channel_t) (hreach : Reachable c) :
    0 ≤ buffer_current_size c.buffer
      ∧ buffer_current_size c.buffer ≤ buffer_capacity c.buffer
      ∧ (∀ d c1 st, channel_non_blocking_send c d = some (c1, st) → st ≠ .GENERIC_ERROR)
      ∧ (∀ slot c1 out st, channel_non_blocking_receive c slot = some (c1, out, st) →
          st ≠ .GENERIC_ERROR)
      ∧ (∀ c0, channel_non_blocking_send_site c = .invokes c0 →
          buffer_current_size c0.buffer < buffer_capacity c0.buffer
            ∧ ∀ d, channel_non_blocking_send c d = channel_send_core c0 d)
      ∧ (∀ c0, channel_non_blocking_receive_site c = .invokes c0 →
          0 < buffer_current_size c0.buffer
            ∧ ∀ slot, channel_non_blocking_receive c slot = channel_receive_core c0 slot)
      ∧ (∀ env : List wake,
          (∀ w ∈ env, Reachable w.chan
            ∧ buffer_capacity w.chan.buffer = buffer_capacity c.buffer) →
          (∀ c0, channel_send_site env c = some (.invokes c0) →
              buffer_current_size c0.buffer < buffer_capacity c0.buffer
                ∧ ∀ d, channel_send env c d = channel_send_core c0 d)
            ∧ ∀ d c1, channel_send env c d = some (c1, .GENERIC_ERROR) → ∃ w ∈ env, w.rc ≠ 0)
      ∧ (∀ env : List wake,
          (∀ c0, channel_receive_site env c = some (.invokes c0) →
              0 < buffer_current_size c0.buffer
                ∧ ∀ slot, channel_receive env c slot = channel_receive_core c0 slot)
            ∧ ∀ slot c1 out, channel_receive env c slot = some (c1, out, .GENERIC_ERROR) →
                ∃ w ∈ env, w.rc ≠ 0)
      ∧ (∀ (sel_sync : ptr) (env : List (heap → heap)) (h : heap)
            (channel_list : List select_t) (selected_index : Nat) (r : select_ret),
          channel_select sel_sync env h channel_list selected_index = some r →
          r.status = .CLOSED_ERROR
            ∨ (r.status = .SUCCESS
                ∧ ∃ mid it tail, channel_list = mid ++ it :: tail
                    ∧ r.selected_index = mid.length
                    ∧ feasible (select_snapshot sel_sync env h channel_list selected_index)
                        it)) := by
  have hb := reachable_bound hreach
  refine ⟨Nat.zero_le _, hb, fun d c1 st hs => ?_, fun slot c1 out st hs => ?_,
    fun c0 hsite => ?_, fun c0 hsite => ?_, fun env henv => ⟨fun c0 hsite => ?_, ?_⟩,
    fun env => ⟨fun c0 hsite => ?_, ?_⟩, ?_⟩
  · unfold channel_non_blocking_send at hs
    split_ifs at hs with hclosed hfull
    · simp only [Option.some.injEq, Prod.mk.injEq] at hs
      rw [← hs.2]
      decide
    · simp only [Option.some.injEq, Prod.mk.injEq] at hs
      rw [← hs.2]
      decide
    · rw [(channel_send_core_spec hs (lt_of_le_of_ne hb hfull)).1]
      decide
  · unfold channel_non_blocking_receive at hs
    split_ifs at hs with hclosed hempty
    · simp only [Option.some.injEq, Prod.mk.injEq] at hs
      rw [← hs.2.2]
      decide
    · simp only [Option.some.injEq, Prod.mk.injEq] at hs
      rw [← hs.2.2]
      decide
    · rw [(channel_receive_core_spec hs (Nat.pos_of_ne_zero hempty)).1]
      decide
  · refine ⟨?_, fun d => by rw [channel_non_blocking_send_factor, hsite]; rfl⟩
    unfold channel_non_blocking_send_site at hsite
    split_ifs at hsite with hclosed hfull
    simp only [call_site.invokes.injEq] at hsite
    subst hsite
    exact lt_of_le_of_ne hb hfull
  · refine ⟨?_, fun slot => by rw [channel_non_blocking_receive_factor, hsite]; rfl⟩
    unfold channel_non_blocking_receive_site at hsite
    split_ifs at hsite with hclosed hempty
    simp only [call_site.invokes.injEq] at hsite
    subst hsite
    exact Nat.pos_of_ne_zero hempty
  · exact ⟨channel_send_site_guard hreach henv hsite,
      fun d => by rw [channel_send_factor, hsite]; rfl⟩
  · intro d c1 hs
    exact channel_send_generic_error hreach henv hs
  · exact ⟨channel_receive_site_guard hsite,
      fun slot => by rw [channel_receive_factor, hsite]; rfl⟩
  · intro slot c1 out hs
    exact channel_receive_generic_error hs
  · intro sel_sync env h channel_list selected_index r hr
    obtain ⟨mid, it, tail, hsplit, _, hcase⟩ := round_returned (select_snapshot_round env h hr)
    rcases hcase with ⟨_, _, _, _, hcl⟩ | ⟨_, hf, hst, hcom⟩
    · exact Or.inl hcl
    · exact Or.inr ⟨hst, mid, it, tail, hsplit, hcom.1, hf⟩

/-- Witness of C3: the capacity-1 channel holding `1`, reached from `channel_create(1)` by one
non-blocking send.  A `channel_send` finds it full and waits; woken on the empty channel (the
state another thread's receive leaves) it calls send-core there, with `size = 0 < 1`. -/
theorem C3_size_within_capacity_witness :
    Reachable (chan_with 1 [1] true)
      ∧ buffer_current_size (chan_with 1 [1] true).buffer
          ≤ buffer_capacity (chan_with 1 [1] true).buffer
      ∧ channel_send_site [⟨0, chan_with 1 [] true⟩] (chan_with 1 [1] true)
          = some (.invokes (chan_with 1 [] true))
      ∧ buffer_current_size (chan_with 1 [] true).buffer
          < buffer_capacity (chan_with 1 [] true).buffer
      ∧ (∀ d, channel_send [⟨0, chan_with 1 [] true⟩] (chan_with 1 [1] true) d
          = channel_send_core (chan_with 1 [] true) d)
      ∧ (∀ d c1 st, channel_non_blocking_send (chan_with 1 [1] true) d = some (c1, st) →
          st ≠ .GENERIC_ERROR) := by
  have hreach : Reachable (chan_with 1 [1] true) :=
    Reachable.non_blocking_send (channel_create 1) 1 (chan_with 1 [1] true) .SUCCESS
      (Reachable.create 1 (by decide)) rfl
  have henv : ∀ w ∈ [(⟨0, chan_with 1 [] true⟩ : wake)], Reachable w.chan
      ∧ buffer_capacity w.chan.buffer = buffer_capacity (chan_with 1 [1] true).buffer := by
    intro w hw
    rw [List.mem_singleton] at hw
    subst hw
    exact ⟨Reachable.create 1 (by decide), rfl⟩
  have hall := C3_size_within_capacity (chan_with 1 [1] true) hreach
  have hsend := (hall.2.2.2.2.2.2.1 [⟨0, chan_with 1 [] true⟩] henv).1
    (chan_with 1 [] true) rfl
  exact ⟨hreach, hall.2.1, rfl, hsend.1, hsend.2, hall.2.2.1⟩

/-! ## channel_select: what a call that slept changed -/

/-- The passes of `channel_select` that went to sleep changed no buffer and no open flag: on a
channel that the other threads left alone meanwhile, the pass that returns finds the buffer and
the open flag the call started with. -/
lemma select_snapshot_keeps (s : ptr) (cl : List select_t) (idx : Nat) (p : ptr) :
    ∀ (env : List (heap → heap)) (h : heap), env_keeps env p →
      (select_snapshot s env h cl idx p).buffer = (h p).buffer
        ∧ (select_snapshot s env h cl idx p).channel_status = (h p).channel_status := by
  intro env
  induction env with
  | nil =>
    intro h _
    exact ⟨rfl, rfl⟩
  | cons f env ih =>
    intro h hkeep
    simp only [select_snapshot]
    cases hr : channel_select_round s h cl idx with
    | none => exact ⟨rfl, rfl⟩
    | some res =>
      cases res with
      | returned r1 => exact ⟨rfl, rfl⟩
      | sleeping h2 =>
        dsimp only
        have h1 := ih (f h2) (fun g hg => hkeep g (List.mem_cons_of_mem _ hg))
        have h3 := hkeep f (List.mem_cons_self _ _) h2
        have h4 := (round_sleeping hr).1 p
        exact ⟨by rw [h1.1, h3.1, h4.1], by rw [h1.2, h3.2, h4.2]⟩

/-- Every pass of `channel_select` that went to sleep left every buffer and every open flag as
it found them. -/
lemma select_passes_same (s : ptr) (cl : List select_t) (idx : Nat) :
    ∀ (env : List (heap → heap)) (h : heap),
      ∀ g ∈ select_passes s env h cl idx, same_buffers g.1 g.2 := by
  intro env
  induction env with
  | nil =>
    intro h g hg
    simp only [select_passes] at hg
    cases hr : channel_select_round s h cl idx with
    | none => simp [hr] at hg
    | some res =>
      cases res with
      | returned r1 => simp [hr] at hg
      | sleeping h2 =>
        simp only [hr, List.mem_singleton] at hg
        subst hg
        exact (round_sleeping hr).1
  | cons f env ih =>
    intro h g hg
    simp only [select_passes] at hg
    cases hr : channel_select_round s h cl idx with
    | none => simp [hr] at hg
    | some res =>
      cases res with
      | returned r1 => simp [hr] at hg
      | sleeping h2 =>
        simp only [hr, List.mem_cons] at hg
        rcases hg with hg | hg
        · subst hg
          exact (round_sleeping hr).1
        · exact ih (f h2) g hg

/-- The effect of a commit, read against channels that agree with the snapshot on every buffer
and open flag. -/
lemma committed_of_same {h0 h : heap} {cl : List select_t} {i : Nat} {it : select_t}
    {r : select_ret} (hcom : committed h0 cl i it r)
    (hsame : ∀ p, (h0 p).buffer = (h p).buffer ∧ (h0 p).channel_status = (h p).channel_status) :
    committed h cl i it r := by
  obtain ⟨hidx, hflag, hbuf, hcap, heff⟩ := hcom
  refine ⟨hidx, fun p => by rw [hflag p, (hsame p).2], fun p hp => by rw [hbuf p hp, (hsame p).1],
    by rw [hcap, (hsame it.channel).1], ?_⟩
  rw [← (hsame it.channel).1]
  exact heff

/-- C10: when `channel_select` returns `SUCCESS`, `*selected_index` is the index `i` of an intent
`it` of the array and exactly that intent took effect: for `SEND` the data of intent `i` is
appended at the tail of its channel's buffer, for `RECV` the head of the buffer is removed and
stored into the data slot of intent `i`; the buffer of every other channel, every open flag and
every other intent of the array are unchanged.  The effect is stated against the channels at the
start of the pass that returns (`select_snapshot`), and these are tied to the channels before
the call: every pass that went to sleep (cleanup and registration) left every buffer and every
open flag as it found them (`select_passes`), so on every channel that the other threads left alone while the call slept the snapshot
has the buffer and the open flag of before the call; every such channel other than that of
intent `i` has after the call the buffer and the open flag of before the call; and when the other
threads left every channel alone (in particular when no pass slept), the effect is the one
described against the channels before the call. -/
theorem C10_select_success_frame (sel_sync : ptr) (env : List (heap → heap)) (h : heap)
    (channel_list : List select_t) (selected_index : Nat) (r : select_ret)
    (hr : channel_select sel_sync env h channel_list selected_index = some r)
    (hst : r.status = .SUCCESS) :
    ∃ mid it tail, channel_list = mid ++ it :: tail
      ∧ r.selected_index = mid.length
      ∧ committed (select_snapshot sel_sync env h channel_list selected_index) channel_list
          mid.length it r
      ∧ (∀ j, j ≠ mid.length → r.channel_list[j]? = channel_list[j]?)
      ∧ ((∃ r0, channel_select_round sel_sync h channel_list selected_index
            = some (.returned r0)) →
          select_snapshot sel_sync env h channel_list selected_index = h)
      ∧ (∀ g ∈ select_passes sel_sync env h channel_list selected_index, same_buffers g.1 g.2)
      ∧ (∀ p, env_keeps env p →
          (select_snapshot sel_sync env h channel_list selected_index p).buffer = (h p).buffer
            ∧ (select_snapshot sel_sync env h channel_list selected_index p).channel_status
                = (h p).channel_status)
      ∧ (∀ p, env_keeps env p → p ≠ it.channel →
          (r.chans p).buffer = (h p).buffer
            ∧ (r.chans p).channel_status = (h p).channel_status)
      ∧ ((∀ p, env_keeps env p) → committed h channel_list mid.length it r) := by
  obtain ⟨mid, it, tail, hsplit, _, hcase⟩ := round_returned (select_snapshot_round env h hr)
  rcases hcase with ⟨_, _, _, _, hcl⟩ | ⟨_, _, _, hcom⟩
  · rw [hcl] at hst
    cases hst
  · refine ⟨mid, it, tail, hsplit, hcom.1, hcom, fun j hj => ?_, ?_,
      select_passes_same sel_sync channel_list selected_index env h, fun p hp => ?_,
      fun p hp hne => ?_, fun hall => ?_⟩
    · rcases hcom.2.2.2.2 with ⟨_, _, hl⟩ | ⟨_, x, _, hl⟩
      · rw [hl]
      · rw [hl, List.getElem?_set_ne (Ne.symm hj)]
    · rintro ⟨r0, hr0⟩
      exact (select_of_round_returned hr0 env).2
    · exact select_snapshot_keeps sel_sync channel_list selected_index p env h hp
    · have hk := select_snapshot_keeps sel_sync channel_list selected_index p env h hp
      exact ⟨by rw [hcom.2.2.1 p hne, hk.1], by rw [hcom.2.1 p, hk.2]⟩
    · exact committed_of_same hcom
        (fun p => select_snapshot_keeps sel_sync channel_list selected_index p env h (hall p))

/-- Witness of C10: intents `[SEND X <- 3, RECV Y]` on a full `X` (address 1, holding `5`) and an
empty `Y` (address 2).  The first pass finds nothing ready, registers and sleeps; another thread
sends `8` on `Y` and wakes the select; the second pass commits the `RECV` at index 1.  The call
returns `SUCCESS` with `*selected_index == 1` and `8` in the data slot of intent 1; `X`, which
the other thread left alone, has the buffer and the open flag of before the call. -/
theorem C10_select_success_frame_witness :
    (channel_select 100 [peer_send 2 8]
        (two_chans (chan_with 1 [5] true) (chan_with 1 [] true))
        [⟨1, .SEND, 3⟩, ⟨2, .RECV, 0⟩] 9).map
        (fun r => (r.status, r.selected_index, r.channel_list, (r.chans 1).buffer.data,
          (r.chans 2).buffer.data))
        = some (.SUCCESS, 1, [⟨1, .SEND, 3⟩, ⟨2, .RECV, 8⟩], [5], [])
      ∧ (select_passes 100 [peer_send 2 8]
          (two_chans (chan_with 1 [5] true) (chan_with 1 [] true))
          [⟨1, .SEND, 3⟩, ⟨2, .RECV, 0⟩] 9).length = 1
      ∧ ∃ r, channel_select 100 [peer_send 2 8]
          (two_chans (chan_with 1 [5] true) (chan_with 1 [] true))
          [⟨1, .SEND, 3⟩, ⟨2, .RECV, 0⟩] 9 = some r
        ∧ r.status = .SUCCESS
        ∧ env_keeps [peer_send 2 8] 1
        ∧ (r.chans 1).buffer = (two_chans (chan_with 1 [5] true) (chan_with 1 [] true) 1).buffer
        ∧ (r.chans 1).channel_status
            = (two_chans (chan_with 1 [5] true) (chan_with 1 [] true) 1).channel_status
        ∧ ∃ mid it tail, [⟨1, .SEND, 3⟩, ⟨2, .RECV, 0⟩] = mid ++ it :: tail
            ∧ r.selected_index = mid.length
            ∧ committed
                (select_snapshot 100 [peer_send 2 8]
                  (two_chans (chan_with 1 [5] true) (chan_with 1 [] true))
                  [⟨1, .SEND, 3⟩, ⟨2, .RECV, 0⟩] 9)
                [⟨1, .SEND, 3⟩, ⟨2, .RECV, 0⟩] mid.length it r := by
  have heval : (channel_select 100 [peer_send 2 8]
      (two_chans (chan_with 1 [5] true) (chan_with 1 [] true))
      [⟨1, .SEND, 3⟩, ⟨2, .RECV, 0⟩] 9).map
      (fun r => (r.status, r.selected_index, r.channel_list, (r.chans 1).buffer.data,
        (r.chans 2).buffer.data))
      = some (.SUCCESS, 1, [⟨1, .SEND, 3⟩, ⟨2, .RECV, 8⟩], [5], []) := rfl
  refine ⟨heval, rfl, ?_⟩
  cases hr : channel_select 100 [peer_send 2 8]
      (two_chans (chan_with 1 [5] true) (chan_with 1 [] true))
      [⟨1, .SEND, 3⟩, ⟨2, .RECV, 0⟩] 9 with
  | none =>
    rw [hr] at heval
    cases heval
  | some r =>
    rw [hr] at heval
    simp only [Option.map_some', Option.some.injEq, Prod.mk.injEq] at heval
    obtain ⟨hst, hidx, -, -, -⟩ := heval
    have hkeep : env_keeps [peer_send 2 8] 1 := by
      intro f hf g
      rw [List.mem_singleton] at hf
      subst hf
      exact ⟨rfl, rfl⟩
    obtain ⟨mid, it, tail, hsplit, hsel, hcom, -, -, -, -, hframe, -⟩ :=
      C10_select_success_frame 100 [peer_send 2 8]
        (two_chans (chan_with 1 [5] true) (chan_with 1 [] true))
        [⟨1, .SEND, 3⟩, ⟨2, .RECV, 0⟩] 9 r hr hst
    have hit : it.channel ≠ 1 := by
      have hlen : mid.length = 1 := by rw [← hsel, hidx]
      have hget : ([⟨1, .SEND, 3⟩, ⟨2, .RECV, 0⟩] : List select_t)[mid.length]? = some it := by
        rw [hsplit, List.getElem?_append_right (le_refl _)]
        simp
      rw [hlen] at hget
      simp only [List.getElem?_cons_succ, List.getElem?_cons_zero, Option.some.injEq] at hget
      rw [← hget]
      decide
    have hx := hframe 1 hkeep (Ne.symm hit)
    exact ⟨r, rfl, hst, hkeep, hx.1, hx.2, mid, it, tail, hsplit, hsel, hcom⟩

/-! ## Capacities are positive and never change -/

lemma channel_send_core_capacity {c c1 : channel_t} {d : ptr} {st : channel_status}
    (h : channel_send_core c d = some (c1, st)) :
    buffer_capacity c1.buffer = buffer_capacity c.buffer := by
  by_cases hroom : buffer_current_size c.buffer < buffer_capacity c.buffer
  · obtain ⟨_, hc⟩ := channel_send_core_spec h hroom
    rw [hc]
    rfl
  · unfold channel_send_core buffer_add at h
    rw [if_neg hroom] at h
    simp only [Option.some.injEq, Prod.mk.injEq] at h
    rw [← h.1]

lemma channel_receive_core_capacity {c c1 : channel_t} {slot out : ptr} {st : channel_status}
    (h : channel_receive_core c slot = some (c1, out, st)) :
    buffer_capacity c1.buffer = buffer_capacity c.buffer := by
  by_cases hsome : 0 < buffer_current_size c.buffer
  · obtain ⟨_, _, hc⟩ := channel_receive_core_spec h hsome
    rw [hc]
    rfl
  · rcases channel_receive_core_cases h with ⟨_, hd⟩ | ⟨_, hc⟩
    · simp [buffer_current_size, hd] at hsome
    · rw [hc]

/-- Every reachable channel has a positive capacity: `channel_create` is called with
`capacity > 0` and no operation changes the capacity. -/
lemma reachable_capacity_pos {c : channel_t} (hreach : Reachable c) :
    0 < buffer_capacity c.buffer := by
  induction hreach with
  | create capacity hcap => exact hcap
  | send env c d c1 st _ _ hs ih ihenv =>
    unfold channel_send at hs
    split_ifs at hs
    · simp only [Option.some.injEq, Prod.mk.injEq] at hs
      rw [← hs.1]
      exact ih
    · obtain ⟨c0, hc0, hres⟩ := channel_send_loop_cases _ d env c hs
      have h0 : 0 < buffer_capacity c0.buffer := by
        rcases hc0 with rfl | ⟨w, hw, rfl⟩
        · exact ih
        · exact ihenv w hw
      rcases hres with rfl | hcore
      · exact h0
      · rw [channel_send_core_capacity hcore]
        exact h0
  | receive env c slot c1 out st _ _ hs ih ihenv =>
    unfold channel_receive at hs
    split_ifs at hs
    · simp only [Option.some.injEq, Prod.mk.injEq] at hs
      rw [← hs.1]
      exact ih
    · obtain ⟨c0, hc0, hres⟩ := channel_receive_loop_cases slot env c hs
      have h0 : 0 < buffer_capacity c0.buffer := by
        rcases hc0 with rfl | ⟨w, hw, rfl⟩
        · exact ih
        · exact ihenv w hw
      rcases hres with rfl | hcore
      · exact h0
      · rw [channel_receive_core_capacity hcore]
        exact h0
  | non_blocking_send c d c1 st _ hs ih =>
    unfold channel_non_blocking_send at hs
    split_ifs at hs
    · simp only [Option.some.injEq, Prod.mk.injEq] at hs
      rw [← hs.1]
      exact ih
    · simp only [Option.some.injEq, Prod.mk.injEq] at hs
      rw [← hs.1]
      exact ih
    · rw [channel_send_core_capacity hs]
      exact ih
  | non_blocking_receive c slot c1 out st _ hs ih =>
    unfold channel_non_blocking_receive at hs
    split_ifs at hs
    · simp only [Option.some.injEq, Prod.mk.injEq] at hs
      rw [← hs.1]
      exact ih
    · simp only [Option.some.injEq, Prod.mk.injEq] at hs
      rw [← hs.1]
      exact ih
    · rw [channel_receive_core_capacity hs]
      exact ih
  | close c c1 st _ hs ih =>
    rw [channel_close_buffer hs]
    exact ih
  | select sel_sync env h cl idx r p _ _ hs _ ihsnap =>
    obtain ⟨mid, it, tail, _, _, hcase⟩ := round_returned (select_snapshot_round env h hs)
    rcases hcase with ⟨_, hb, _⟩ | ⟨_, _, _, hcom⟩
    · rw [(hb p).1]
      exact ihsnap p
    · by_cases hp : p = it.channel
      · subst hp
        rw [hcom.2.2.2.1]
        exact ihsnap _
      · rw [hcom.2.2.1 p hp]
        exact ihsnap p
  | select_sleep sel_sync h cl idx h2 p _ hs ih =>
    rw [((round_sleeping hs).1 p).1]
    exact ih p

/-! ## The locks over a whole call of `channel_select` -/

lemma held_after_append :
    ∀ (a b : List sel_event) (held : List ptr),
      held_after held (a ++ b) = held_after (held_after held a) b := by
  intro a
  induction a with
  | nil => intro b held; rfl
  | cons e a ih =>
    intro b held
    cases e <;> simp only [List.cons_append, held_after] <;> exact ih _ _

lemma inserts_locked_append :
    ∀ (a b : List sel_event) (held : List ptr),
      inserts_locked held (a ++ b)
        = (inserts_locked held a && inserts_locked (held_after held a) b) := by
  intro a
  induction a with
  | nil => intro b held; simp [inserts_locked, held_after]
  | cons e a ih =>
    intro b held
    cases e with
    | lock c => simp only [List.cons_append, inserts_locked, held_after]; exact ih _ _
    | unlock c => simp only [List.cons_append, inserts_locked, held_after]; exact ih _ _
    | insert c d =>
      simp only [List.cons_append, inserts_locked, held_after]
      change (decide (c ∈ held) && inserts_locked held (a ++ b)) = _
      rw [ih b held, Bool.and_assoc]

/-- The lock loop takes the lock of each channel of the vector once. -/
lemma lock_events_after :
    ∀ (rest seen : List select_t) (held : List ptr),
      held.Nodup → (∀ c, c ∈ held ↔ ∃ x ∈ seen, x.channel = c) →
      (held_after held (lock_events seen rest)).Nodup
        ∧ ∀ c, c ∈ held_after held (lock_events seen rest)
            ↔ ∃ x ∈ seen ++ rest, x.channel = c := by
  intro rest
  induction rest with
  | nil =>
    intro seen held hnd hmem
    simpa [lock_events, held_after] using ⟨hnd, hmem⟩
  | cons it rest ih =>
    intro seen held hnd hmem
    by_cases hdup : seen.any (fun j => decide (j.channel = it.channel)) = true
    · have hit : it.channel ∈ held := by
        obtain ⟨j, hj, hc⟩ := List.any_eq_true.1 hdup
        exact (hmem _).2 ⟨j, hj, of_decide_eq_true hc⟩
      have := ih (seen ++ [it]) held hnd (fun c => by
        constructor
        · intro hc
          obtain ⟨x, hx, hxc⟩ := (hmem c).1 hc
          exact ⟨x, List.mem_append_left _ hx, hxc⟩
        · rintro ⟨x, hx, hxc⟩
          rcases List.mem_append.1 hx with hx | hx
          · exact (hmem c).2 ⟨x, hx, hxc⟩
          · rw [List.mem_singleton] at hx
            subst hx
            exact hxc ▸ hit)
      simpa [lock_events, hdup] using this
    · have hnot : it.channel ∉ held := by
        intro hin
        obtain ⟨x, hx, hxc⟩ := (hmem _).1 hin
        exact hdup (List.any_eq_true.2 ⟨x, hx, decide_eq_true hxc⟩)
      have := ih (seen ++ [it]) (it.channel :: held) (List.nodup_cons.2 ⟨hnot, hnd⟩) (fun c => by
        constructor
        · intro hc
          rcases List.mem_cons.1 hc with hc | hc
          · exact ⟨it, List.mem_append_right _ (List.mem_singleton_self _), hc.symm⟩
          · obtain ⟨x, hx, hxc⟩ := (hmem c).1 hc
            exact ⟨x, List.mem_append_left _ hx, hxc⟩
        · rintro ⟨x, hx, hxc⟩
          rcases List.mem_append.1 hx with hx | hx
          · exact List.mem_cons_of_mem _ ((hmem c).2 ⟨x, hx, hxc⟩)
          · rw [List.mem_singleton] at hx
            subst hx
            exact hxc ▸ List.mem_cons_self _ _)
      simpa [lock_events, hdup, held_after] using this

/-- The unlock loop releases every lock that is held. -/
lemma unlock_events_after :
    ∀ (rest seen : List select_t) (held : List ptr),
      held.Nodup →
      (∀ c, c ∈ held ↔ (∃ x ∈ rest, x.channel = c) ∧ ∀ j ∈ seen, j.channel ≠ c) →
      held_after held (unlock_events seen rest) = [] := by
  intro rest
  induction rest with
  | nil =>
    intro seen held _ hmem
    simp only [unlock_events, held_after]
    refine List.eq_nil_iff_forall_not_mem.2 (fun c hc => ?_)
    obtain ⟨⟨x, hx, _⟩, _⟩ := (hmem c).1 hc
    cases hx
  | cons it rest ih =>
    intro seen held hnd hmem
    by_cases hdup : seen.any (fun j => decide (j.channel = it.channel)) = true
    · obtain ⟨j0, hj0, hc0⟩ := List.any_eq_true.1 hdup
      have hc0 : j0.channel = it.channel := of_decide_eq_true hc0
      have := ih (seen ++ [it]) held hnd (fun c => by
        constructor
        · intro hc
          obtain ⟨⟨x, hx, hxc⟩, hseen⟩ := (hmem c).1 hc
          have hne : it.channel ≠ c := fun e => hseen j0 hj0 (hc0.trans e)
          refine ⟨?_, fun j hj => ?_⟩
          · rcases List.mem_cons.1 hx with hx | hx
            · subst hx
              exact absurd hxc hne
            · exact ⟨x, hx, hxc⟩
          · rcases List.mem_append.1 hj with hj | hj
            · exact hseen j hj
            · rw [List.mem_singleton] at hj
              subst hj
              exact hne
        · rintro ⟨⟨x, hx, hxc⟩, hseen⟩
          exact (hmem c).2 ⟨⟨x, List.mem_cons_of_mem _ hx, hxc⟩,
            fun j hj => hseen j (List.mem_append_left _ hj)⟩)
      simpa [unlock_events, hdup] using this
    · have := ih (seen ++ [it]) (held.erase it.channel) (hnd.erase _) (fun c => by
        rw [hnd.mem_erase_iff]
        constructor
        · rintro ⟨hne, hc⟩
          obtain ⟨⟨x, hx, hxc⟩, hseen⟩ := (hmem c).1 hc
          refine ⟨?_, fun j hj => ?_⟩
          · rcases List.mem_cons.1 hx with hx | hx
            · subst hx
              exact absurd hxc.symm hne
            · exact ⟨x, hx, hxc⟩
          · rcases List.mem_append.1 hj with hj | hj
            · exact hseen j hj
            · rw [List.mem_singleton] at hj
              subst hj
              exact fun e => hne e.symm
        · rintro ⟨⟨x, hx, hxc⟩, hseen⟩
          exact ⟨fun e => hseen it (List.mem_append_right _ (List.mem_singleton_self _)) e.symm,
            (hmem c).2 ⟨⟨x, List.mem_cons_of_mem _ hx, hxc⟩,
              fun j hj => hseen j (List.mem_append_left _ hj)⟩⟩)
      simpa [unlock_events, hdup, held_after] using this

/-- The registration loop releases the locks as the unlock loop does. -/
lemma register_events_after :
    ∀ (rest seen : List select_t) (held : List ptr),
      held_after held (register_events seen rest)
        = held_after held (unlock_events seen rest) := by
  intro rest
  induction rest with
  | nil => intro seen held; rfl
  | cons it rest ih =>
    intro seen held
    by_cases hdupc : seen.any (fun j => decide (j.channel = it.channel)) = true <;>
      by_cases hdupcd :
        seen.any (fun j => decide (j.channel = it.channel ∧ j.dir = it.dir)) = true <;>
      simp only [register_events, unlock_events, hdupc, hdupcd, if_true, List.nil_append,
        List.cons_append, held_after, Bool.false_eq_true, if_false] <;>
      exact ih _ _

/-- Every pass of `channel_select` ends with no channel lock held. -/
lemma round_events_release (sel_sync : ptr) (h : heap) (channel_list : List select_t)
    (selected_index : Nat) (evs : List sel_event)
    (hev : channel_select_round_events sel_sync h channel_list selected_index = some evs) :
    held_after [] evs = [] := by
  obtain ⟨hnd, hmem⟩ := lock_events_after channel_list [] [] List.nodup_nil
    (fun c => by simp)
  have hunlock := unlock_events_after channel_list []
    (held_after [] (lock_events [] channel_list)) hnd (fun c => by
      rw [hmem c]
      simp)
  unfold channel_select_round_events at hev
  cases hr : channel_select_round sel_sync h channel_list selected_index with
  | none => simp [hr] at hev
  | some res =>
    cases res with
    | returned r =>
      simp only [hr, Option.some.injEq] at hev
      rw [← hev, held_after_append]
      exact hunlock
    | sleeping h2 =>
      simp only [hr, Option.some.injEq] at hev
      rw [← hev, held_after_append, register_events_after]
      exact hunlock

/-- Over a whole call of `channel_select` on channels of positive capacity, every insert
happens with the channel lock held. -/
lemma select_events_locked (sel_sync : ptr) (channel_list : List select_t)
    (selected_index : Nat) :
    ∀ (env : List (heap → heap)) (h : heap),
      (∀ it ∈ channel_list, 0 < buffer_capacity (h it.channel).buffer) →
      (∀ f ∈ env, ∀ (g : heap) (p : ptr),
        buffer_capacity (f g p).buffer = buffer_capacity (g p).buffer) →
      inserts_locked [] (channel_select_events sel_sync env h channel_list selected_index)
        = true := by
  intro env
  induction env with
  | nil =>
    intro h hcap _
    simp only [channel_select_events]
    cases hev : channel_select_round_events sel_sync h channel_list selected_index with
    | none => rfl
    | some evs =>
      exact inserts_locked_of_positive_capacity sel_sync h channel_list selected_index evs
        hcap hev
  | cons f env ih =>
    intro h hcap henv
    have hpass : inserts_locked []
        ((channel_select_round_events sel_sync h channel_list selected_index).getD [])
        = true := by
      cases hev : channel_select_round_events sel_sync h channel_list selected_index with
      | none => rfl
      | some evs =>
        exact inserts_locked_of_positive_capacity sel_sync h channel_list selected_index evs
          hcap hev
    simp only [channel_select_events]
    cases hr : channel_select_round sel_sync h channel_list selected_index with
    | none => exact hpass
    | some res =>
      cases res with
      | returned r => exact hpass
      | sleeping h2 =>
        dsimp only
        have hev : channel_select_round_events sel_sync h channel_list selected_index
            = some (lock_events [] channel_list ++ register_events [] channel_list) := by
          simp [channel_select_round_events, hr]
        rw [inserts_locked_append, hpass, Bool.true_and, hev, Option.getD_some,
          round_events_release sel_sync h channel_list selected_index _ hev]
        refine ih (f h2) (fun it hit => ?_)
          (fun g hg => henv g (List.mem_cons_of_mem _ hg))
        rw [henv f (List.mem_cons_self _ _) h2 it.channel,
          show (h2 it.channel).buffer = (h it.channel).buffer from
            ((round_sleeping hr).1 it.channel).1]
        exact hcap it hit

/-- C12: in `channel_select`, for every intent vector, vectors that name the same channel with
both directions included, every insertion of the select's waiter record into a channel's
`sel_sends` or `sel_recvs` list happens while the select holds that channel's lock.  The
channels have a positive capacity, as every channel created by `channel_create(capacity)`,
`capacity > 0`, has for ever (`reachable_capacity_pos`); the other threads do not change a
capacity.  Over the lock / unlock / insert events of the whole call, pass after pass, each insert
on a channel comes after the select locked the channel and before it unlocks it; this holds for
the events of each single pass, and each pass ends with no lock held. -/
theorem C12_inserts_under_lock (sel_sync : ptr) (env : List (heap → heap)) (h : heap)
    (channel_list : List select_t) (selected_index : Nat)
    (hcap : ∀ it ∈ channel_list, 0 < buffer_capacity (h it.channel).buffer)
    (henv : ∀ f ∈ env, ∀ (g : heap) (p : ptr),
      buffer_capacity (f g p).buffer = buffer_capacity (g p).buffer) :
    inserts_locked [] (channel_select_events sel_sync env h channel_list selected_index) = true
      ∧ ∀ evs, channel_select_round_events sel_sync h channel_list selected_index = some evs →
          inserts_locked [] evs = true ∧ held_after [] evs = [] :=
  ⟨select_events_locked sel_sync channel_list selected_index env h hcap henv,
    fun evs hev =>
      ⟨inserts_locked_of_positive_capacity sel_sync h channel_list selected_index evs hcap hev,
        round_events_release sel_sync h channel_list selected_index evs hev⟩⟩

/-- Witness of C12: intents `[RECV X, SEND Y <- 3, SEND X <- 4, RECV X]` on an empty `X`
(address 1) and a full `Y` (address 2), both of capacity 1, so that `X` is named with both
directions.  `SEND X` is feasible and the pass commits it without registering: `X` and `Y` are
locked and unlocked, nothing is inserted.  With intents `[RECV X, SEND Y <- 3, RECV X]` nothing
is ready: the pass registers, inserting on `X` and on `Y` before the respective unlock; another
thread sends `8` on `X`, and the second pass locks both channels again and commits `RECV X`. -/
theorem C12_inserts_under_lock_witness :
    channel_select_events 100 []
        (two_chans (chan_with 1 [] true) (chan_with 1 [5] true))
        [⟨1, .RECV, 0⟩, ⟨2, .SEND, 3⟩, ⟨1, .SEND, 4⟩, ⟨1, .RECV, 0⟩] 9
        = [.lock 1, .lock 2, .unlock 1, .unlock 2]
      ∧ inserts_locked [] (channel_select_events 100 []
          (two_chans (chan_with 1 [] true) (chan_with 1 [5] true))
          [⟨1, .RECV, 0⟩, ⟨2, .SEND, 3⟩, ⟨1, .SEND, 4⟩, ⟨1, .RECV, 0⟩] 9) = true
      ∧ channel_select_events 100 [peer_send 1 8]
          (two_chans (chan_with 1 [] true) (chan_with 1 [5] true))
          [⟨1, .RECV, 0⟩, ⟨2, .SEND, 3⟩, ⟨1, .RECV, 0⟩] 9
          = [.lock 1, .lock 2, .insert 1 .RECV, .unlock 1, .insert 2 .SEND, .unlock 2,
              .lock 1, .lock 2, .unlock 1, .unlock 2]
      ∧ inserts_locked [] (channel_select_events 100 [peer_send 1 8]
          (two_chans (chan_with 1 [] true) (chan_with 1 [5] true))
          [⟨1, .RECV, 0⟩, ⟨2, .SEND, 3⟩, ⟨1, .RECV, 0⟩] 9) = true := by
  have hcap : ∀ (cl : List select_t), ∀ it ∈ cl,
      0 < buffer_capacity
        (two_chans (chan_with 1 [] true) (chan_with 1 [5] true) it.channel).buffer := by
    intro cl it _
    unfold two_chans
    split_ifs <;> decide
  have henv : ∀ f ∈ [peer_send 1 8], ∀ (g : heap) (p : ptr),
      buffer_capacity (f g p).buffer = buffer_capacity (g p).buffer := by
    intro f hf g p
    rw [List.mem_singleton] at hf
    subst hf
    unfold peer_send
    by_cases hp : p = 1
    · subst hp
      rw [Function.update_same]
      rfl
    · rw [Function.update_noteq hp]
  exact ⟨rfl,
    (C12_inserts_under_lock 100 [] _ _ 9 (hcap _)
      (fun f hf => absurd hf (List.not_mem_nil f))).1,
    rfl,
    (C12_inserts_under_lock 100 [peer_send 1 8] _ _ 9 (hcap _) henv).1⟩

end Concurrency
